import Mathlib

set_option maxHeartbeats 1000000
set_option maxRecDepth 4000

namespace PinActions

/-- Strings are modelled as lists of characters. Byte offsets of the Go
source become character indices; workflow files are treated as sequences of
abstract characters (for ASCII content the two notions coincide). -/
abbrev Str := List Char

/-- Convert a Lean string literal into the model representation. -/
def chars (s : String) : Str := s.toList

/-- Go regexp's Perl character class \s, which is [\t\n\f\r ] in RE2. -/
def isWS (c : Char) : Bool :=
  c = ' ' || c = '\t' || c = '\n' || c = '\r' || c = '\x0c'

/-- Length of the maximal prefix of the list whose characters satisfy p:
the greedy run of a character class in a regular expression. -/
def countWhile (p : Char → Bool) : Str → Nat
  | [] => 0
  | c :: cs => if p c then countWhile p cs + 1 else 0

/-- Character of cs at index i, if in range. -/
def charAt? (cs : Str) (i : Nat) : Option Char := cs[i]?

/-- The half-open slice [a, b) of cs (Go content[a:b] for in-range indices). -/
def slice (cs : Str) (a b : Nat) : Str := (cs.drop a).take (b - a)

/-- Boolean test that p is a literal prefix of cs. -/
def leadsWith : Str → Str → Bool
  | [], _ => true
  | _ :: _, [] => false
  | p :: ps, c :: cs => p = c && leadsWith ps cs

/-- First index of cs (counted from the start of the given list) whose
character satisfies p. -/
def firstIdx? (p : Char → Bool) : Str → Option Nat
  | [] => none
  | c :: cs => if p c then some 0 else (firstIdx? p cs).map (· + 1)

/-- One occurrence of a `uses: owner/repo@ref` entry, mirroring the Go
struct ActionOccurrence of main.go: byte offsets for in-place replacement
plus 1-based line/column for display. -/
structure ActionOccurrence where
  Owner : Str
  Repo : Str
  Action : Str
  RequestedRef : Str
  MatchStart : Nat
  MatchEnd : Nat
  ReplaceStart : Nat
  ReplaceEnd : Nat
  Line : Nat
  Column : Nat
deriving DecidableEq, Repr

/-- Raw positional data of one match of the occurrence regular expression
`uses:\s+([^@/]+/[^@\s]+)@([^\s#]+)(\s*#[^\n]*)?` inside a document:
the match start, the start of the owner/repo capture group, the position of
the '/' splitting owner from repo, the position of the '@', the end of the
ref capture group, and the end of the whole match. -/
structure RawMatch where
  matchStart : Nat
  orStart : Nat
  slashPos : Nat
  atPos : Nat
  refEnd : Nat
  matchEnd : Nat
deriving DecidableEq, Repr

/-- Decide whether the occurrence regular expression matches cs at
position s, and return the positional data of that match. The regex is
deterministic at a fixed start position: every quantified class is a greedy
run bounded by a character excluded from the class, so the only backtracking
RE2's leftmost-first semantics ever performs here is handing one whitespace
character of `\s+` to the owner group when the group would otherwise start
at the '/' (the db = 0 case below). -/
def matchAt (cs : Str) (s : Nat) : Option RawMatch :=
  if leadsWith (chars "uses:") (cs.drop s) then
    let q0 := s + 5
    let w := countWhile isWS (cs.drop q0)
    if w = 0 then none else
    let wEnd := q0 + w
    match firstIdx? (fun c => c = '/' || c = '@') (cs.drop wEnd) with
    | none => none
    | some db =>
      let b := wEnd + db
      if charAt? cs b = some '/' then
        match (if 0 < db then some wEnd else if 2 ≤ w then some (wEnd - 1) else none : Option Nat) with
        | none => none
        | some g =>
          let r := countWhile (fun c => !(c = '@') && !(isWS c)) (cs.drop (b + 1))
          if r = 0 then none else
          let cAt := b + 1 + r
          if charAt? cs cAt = some '@' then
            let refLen := countWhile (fun c => !(isWS c) && !(c = '#')) (cs.drop (cAt + 1))
            if refLen = 0 then none else
            let d := cAt + 1 + refLen
            let wsl := countWhile isWS (cs.drop d)
            let e := d + wsl
            let mEnd := if charAt? cs e = some '#'
              then e + 1 + countWhile (fun c => !(c = '\n')) (cs.drop (e + 1))
              else d
            some ⟨s, g, b, cAt, d, mEnd⟩
          else none
      else none
  else none

/-- The scan loop of Go's FindAllStringSubmatchIndex: try each start
position left to right, and continue after the end of each (non-empty)
match. The fuel argument only bounds the number of iterations; since every
iteration advances the position by at least one, fuel cs.length + 1 from
position 0 is always sufficient. -/
def scanFuel (cs : Str) : Nat → Nat → List RawMatch
  | 0, _ => []
  | fuel + 1, s =>
    if cs.length < s then []
    else
      match matchAt cs s with
      | none => scanFuel cs fuel (s + 1)
      | some m => m :: scanFuel cs fuel (max (s + 1) m.matchEnd)

/-- All matches of the occurrence regular expression in cs, first to last. -/
def rawMatches (cs : Str) : List RawMatch := scanFuel cs (cs.length + 1) 0

/-- computeLineCol of main.go: 1-based line and column of a byte offset,
counting newlines up to the offset (the offset < 0 clamp of the Go code is
vacuous for natural-number offsets). -/
def computeLineCol (cs : Str) (offset : Nat) : Nat × Nat :=
  let off := min offset cs.length
  let pre := cs.take off
  (pre.count '\n' + 1, (pre.reverse.takeWhile (fun c => !(c = '\n'))).length + 1)

/-- Build the ActionOccurrence of one raw match, as the loop body of Go's
extractOccurrences does: the action is capture group 1, split at its first
'/' into owner and repo (the group always contains a '/', so Go's
`len(parts) != 2` guard never skips), the ref is capture group 2, the
replacement span starts at the '@' (= end of group 1) and ends at the match
end. -/
def occOfMatch (cs : Str) (m : RawMatch) : ActionOccurrence :=
  let lc := computeLineCol cs m.orStart
  { Owner := slice cs m.orStart m.slashPos
    Repo := slice cs (m.slashPos + 1) m.atPos
    Action := slice cs m.orStart m.atPos
    RequestedRef := slice cs (m.atPos + 1) m.refEnd
    MatchStart := m.matchStart
    MatchEnd := m.matchEnd
    ReplaceStart := m.atPos
    ReplaceEnd := m.matchEnd
    Line := lc.1
    Column := lc.2 }

/-- extractOccurrences of main.go: every `uses: owner/repo@ref` occurrence
with its exact spans, in first-to-last document order. -/
def extractOccurrences (cs : Str) : List ActionOccurrence :=
  (rawMatches cs).map (occOfMatch cs)

/-- Decide whether the discovered-actions regular expression
`uses:\s+([^@/]+/[^@\s]+)` matches cs at position s; returns the capture
group span (g, cEnd), where cEnd is also the end of the whole match. -/
def matchActionAt (cs : Str) (s : Nat) : Option (Nat × Nat) :=
  if leadsWith (chars "uses:") (cs.drop s) then
    let q0 := s + 5
    let w := countWhile isWS (cs.drop q0)
    if w = 0 then none else
    let wEnd := q0 + w
    match firstIdx? (fun c => c = '/' || c = '@') (cs.drop wEnd) with
    | none => none
    | some db =>
      let b := wEnd + db
      if charAt? cs b = some '/' then
        match (if 0 < db then some wEnd else if 2 ≤ w then some (wEnd - 1) else none : Option Nat) with
        | none => none
        | some g =>
          let r := countWhile (fun c => !(c = '@') && !(isWS c)) (cs.drop (b + 1))
          if r = 0 then none else
          some (g, b + 1 + r)
      else none
  else none

/-- The scan loop for the discovered-actions regular expression. -/
def scanActionsFuel (cs : Str) : Nat → Nat → List (Nat × Nat)
  | 0, _ => []
  | fuel + 1, s =>
    if cs.length < s then []
    else
      match matchActionAt cs s with
      | none => scanActionsFuel cs fuel (s + 1)
      | some m => m :: scanActionsFuel cs fuel (max (s + 1) m.2)

/-- The owner/repo strings of all matches of the discovered-actions regular
expression, in document order, before de-duplication. -/
def rawActions (cs : Str) : List Str :=
  (scanActionsFuel cs (cs.length + 1) 0).map (fun p => slice cs p.1 p.2)

/-- The de-duplication loop of Go's extractActions: a `seen` set, keeping
the first appearance of each action and dropping later duplicates. -/
def dedupFirstAux (seen : List Str) : List Str → List Str
  | [] => []
  | a :: rest =>
    if a ∈ seen then dedupFirstAux seen rest
    else a :: dedupFirstAux (a :: seen) rest

/-- extractActions of main.go: owner/repo identities in order of first
appearance, de-duplicated. -/
def extractActions (cs : Str) : List Str := dedupFirstAux [] (rawActions cs)

/-- The ActionInfo struct of main.go. Go errors are modelled as optional
message strings: Error = none is Go's nil error. -/
structure ActionInfo where
  Owner : Str
  Repo : Str
  Version : Str
  SHA : Str
  Error : Option Str
deriving DecidableEq, Repr

/-- Go's strings.TrimSpace restricted to the ASCII whitespace of isWS. -/
def trimSpace (cs : Str) : Str :=
  (((cs.dropWhile (fun c => isWS c)).reverse).dropWhile (fun c => isWS c)).reverse

/-- One pending replacement of updateContent: the repl struct of main.go
(its `end` field is called stop here). -/
structure Repl where
  start : Nat
  stop : Nat
  text : Str
deriving DecidableEq, Repr

/-- The replacement-building loop of updateContent: for each occurrence
paired index-for-index with a resolution (Go skips indices beyond the info
list, which is exactly zip truncation), skip failed resolutions, blank
SHAs, degenerate spans and no-op edits (ref already equal to the resolved
SHA), and otherwise emit `@<sha> # <version>` over the replacement span.
Go's `occ.ReplaceStart < 0` guard is vacuous for natural-number offsets. -/
def buildRepl1 (p : ActionOccurrence × ActionInfo) : Option Repl :=
  if p.2.Error ≠ none then none
  else if trimSpace p.2.SHA = [] then none
  else if p.1.ReplaceEnd ≤ p.1.ReplaceStart then none
  else if p.1.RequestedRef = p.2.SHA then none
  else some ⟨p.1.ReplaceStart, p.1.ReplaceEnd,
    '@' :: p.2.SHA ++ chars " # " ++ p.2.Version⟩

def buildRepls (occs : List ActionOccurrence) (infos : List ActionInfo) : List Repl :=
  (occs.zip infos).filterMap buildRepl1

/-- Insert a replacement into a list sorted by start offset. -/
def insertRepl (r : Repl) : List Repl → List Repl
  | [] => [r]
  | x :: xs => if r.start < x.start then r :: x :: xs else x :: insertRepl r xs

/-- Sorting by start offset ascending. Go uses sort.Slice (an unstable
sort) with the comparator start <; insertion sort agrees with it on every
list whose start offsets are pairwise distinct, which the non-overlapping
span invariant guarantees for replacements built from extracted
occurrences. -/
def sortRepls : List Repl → List Repl
  | [] => []
  | r :: rs => insertRepl r (sortRepls rs)

/-- The splice loop of updateContent: copy the text before each
replacement, substitute the replacement text, advance the cursor past the
original span, and defensively skip overlapping or out-of-order
replacements (start before the cursor). -/
def spliceAux (cs : Str) : List Repl → Nat → Str
  | [], prev => cs.drop prev
  | r :: rs, prev =>
    if r.start < prev then spliceAux cs rs prev
    else slice cs prev r.start ++ r.text ++ spliceAux cs rs r.stop

/-- updateContent of main.go: build, sort and splice the replacements;
if none apply the input document is returned unchanged. -/
def updateContent (cs : Str) (occs : List ActionOccurrence) (infos : List ActionInfo) : Str :=
  let repls := buildRepls occs infos
  if repls = [] then cs else spliceAux cs (sortRepls repls) 0

/-- Decimal digit test. -/
def isDigit (c : Char) : Bool := '0' ≤ c && c ≤ '9'

/-- Value of a string of decimal digits. -/
def digitsToNat (cs : Str) : Nat :=
  cs.foldl (fun acc c => acc * 10 + (c.toNat - '0'.toNat)) 0

/-- isFullSHA of main.go: exactly 40 hexadecimal characters. -/
def isFullSHA (s : Str) : Bool :=
  s.length = 40 &&
    s.all (fun c => isDigit c || ('a' ≤ c && c ≤ 'f') || ('A' ≤ c && c ≤ 'F'))

/-- isMovingMajorTag of main.go: the regular expression ^v?\d+$, that is a
bare major tag such as v4 or 4. -/
def isMovingMajorTag (ref : Str) : Bool :=
  match ref with
  | 'v' :: r => !(r = []) && r.all isDigit
  | r => !(r = []) && r.all isDigit

/-- prettyRef of main.go: (none) for blank refs, the first 12 characters
plus an ellipsis for full commit ids, the ref itself otherwise. -/
def prettyRef (ref : Str) : Str :=
  if trimSpace ref = [] then chars "(none)"
  else if isFullSHA ref then ref.take 12 ++ ['…']
  else ref

/-- A parsed semantic version of the Masterminds semver library used by
main.go: major.minor.patch plus the dot-separated prerelease identifiers
(build metadata is validated but ignored for precedence, as in the
library). -/
structure SemVer where
  major : Nat
  minor : Nat
  patch : Nat
  pre : List Str
deriving DecidableEq, Repr

/-- Characters allowed in prerelease and metadata identifiers by the
library's version regular expression: 0-9A-Za-z and hyphen. -/
def isIdentChar (c : Char) : Bool :=
  isDigit c || ('a' ≤ c && c ≤ 'z') || ('A' ≤ c && c ≤ 'Z') || c = '-'

/-- Split on a separator character (used for dot-separated identifiers). -/
def splitOnChar (sep : Char) : Str → List Str
  | [] => [[]]
  | c :: cs =>
    let r := splitOnChar sep cs
    if c = sep then [] :: r
    else
      match r with
      | [] => [[c]]
      | h :: t => (c :: h) :: t

/-- Validate a prerelease (or metadata) section: one or more non-empty
dot-separated identifier groups of identifier characters. -/
def parseIdents (s : Str) : Option (List Str) :=
  let segs := splitOnChar '.' s
  if segs.all (fun seg => !(seg = []) && seg.all isIdentChar) then some segs else none

/-- Final step of semver parsing: after the numeric core, accept an
optional -prerelease and an optional +metadata section, in that order. -/
def semverFinish (maj minor patch : Nat) (rest : Str) : Option SemVer :=
  match rest with
  | [] => some ⟨maj, minor, patch, []⟩
  | '-' :: r =>
    let preStr := r.takeWhile (fun c => !(c = '+'))
    let rest2 := r.dropWhile (fun c => !(c = '+'))
    match parseIdents preStr with
    | none => none
    | some pre =>
      match rest2 with
      | [] => some ⟨maj, minor, patch, pre⟩
      | '+' :: m => if (parseIdents m).isSome then some ⟨maj, minor, patch, pre⟩ else none
      | _ => none
  | '+' :: m => if (parseIdents m).isSome then some ⟨maj, minor, patch, []⟩ else none
  | _ => none

/-- Model of the Masterminds semver.NewVersion used by main.go (the
lenient constructor): optional leading v, one to three dot-separated
decimal numeric parts (missing minor/patch default to 0), optional
-prerelease and +metadata sections. -/
def semverParse (s0 : Str) : Option SemVer :=
  let s := match s0 with | 'v' :: r => r | r => r
  let d1 := s.takeWhile isDigit
  let r1 := s.dropWhile isDigit
  if d1 = [] then none else
  match r1 with
  | '.' :: r1b =>
    let d2 := r1b.takeWhile isDigit
    let r2 := r1b.dropWhile isDigit
    if d2 = [] then none else
    match r2 with
    | '.' :: r2b =>
      let d3 := r2b.takeWhile isDigit
      let r3 := r2b.dropWhile isDigit
      if d3 = [] then none else
      semverFinish (digitsToNat d1) (digitsToNat d2) (digitsToNat d3) r3
    | _ => semverFinish (digitsToNat d1) (digitsToNat d2) 0 r2
  | _ => semverFinish (digitsToNat d1) 0 0 r1

/-- Comparison of two characters by code point (for ASCII identifiers this
is Go's byte-wise string order). -/
def charCmp (a b : Char) : Ordering := compare a.toNat b.toNat

/-- Lexicographic comparison of lists under an element comparator; a list
that is a proper prefix of the other is lower. -/
def lexListCmp {α : Type} (f : α → α → Ordering) : List α → List α → Ordering
  | [], [] => .eq
  | [], _ :: _ => .lt
  | _ :: _, [] => .gt
  | a :: as', b :: bs' => (f a b).then (lexListCmp f as' bs')

/-- ASCII-lexicographic string comparison (Go's strings.Compare on the
ASCII identifiers that semver validation admits). -/
def strCmp : Str → Str → Ordering := lexListCmp charCmp

/-- Comparison of prerelease identifiers per semver precedence (as the
library implements it): two numeric identifiers compare numerically, a
numeric identifier is lower than an alphanumeric one, two alphanumeric
identifiers compare in ASCII order. -/
def identCmp (a b : Str) : Ordering :=
  if a.all isDigit && b.all isDigit then compare (digitsToNat a) (digitsToNat b)
  else if a.all isDigit then .lt
  else if b.all isDigit then .gt
  else strCmp a b

/-- Lexicographic comparison of prerelease identifier lists. -/
def preListCmp : List Str → List Str → Ordering := lexListCmp identCmp

/-- Prerelease comparison: a version without prerelease identifiers has
higher precedence than one with them. -/
def preCmp : List Str → List Str → Ordering
  | [], [] => .eq
  | [], _ :: _ => .gt
  | _ :: _, [] => .lt
  | a :: as', b :: bs' => preListCmp (a :: as') (b :: bs')

/-- Model of the library's Version.Compare. -/
def semverCmp (x y : SemVer) : Ordering :=
  ((compare x.major y.major).then
    ((compare x.minor y.minor).then
      ((compare x.patch y.patch).then (preCmp x.pre y.pre))))

/-- Model of the library's Version.GreaterThan used by the tag-selection
loops. -/
def semverGT (x y : SemVer) : Bool := semverCmp x y = .gt

/-- parseMajor of main.go: the major number of a bare major tag, or of any
ref the semver library can parse. (Go's strconv.Atoi on the digits of a
bare major tag only fails on overflow, which unbounded naturals do not
have.) -/
def parseMajor (ref : Str) : Option Int :=
  if isMovingMajorTag ref then
    some (digitsToNat (match ref with | 'v' :: r => r | r => r) : Int)
  else
    (semverParse ref).map (fun v => (v.major : Int))

/-- normalizeMajorRef of main.go. -/
def normalizeMajorRef (ref : Str) : Str :=
  match ref with
  | 'v' :: _ => ref
  | _ => 'v' :: ref

/-- A git object as seen through go-github's nil-safe getters GetType and
GetSHA (a nil object reads as empty strings, folded into the fields). -/
structure GitObj where
  typ : Str
  sha : Str
deriving DecidableEq, Repr

/-- Result of client.Git.GetRef: the object the ref points at (none for a
nil reference/object, whose getters read as empty strings), the HTTP status
of the response (none for a nil *Response), and the error. -/
structure RefCall where
  obj : Option GitObj
  status : Option Nat
  err : Option Str
deriving DecidableEq, Repr

/-- Result of client.Git.GetTag: the object the tag object points at
(none models a nil *Tag), and the error; the code ignores the response. -/
structure TagCall where
  tagObj : Option GitObj
  err : Option Str
deriving DecidableEq, Repr

/-- One entry of a ListTags page: GetName (nil folded to empty), and the
lightweight commit SHA (none models a nil GetCommit pointer). -/
structure TagEntry where
  name : Str
  commitSha : Option Str
deriving DecidableEq, Repr

/-- Result of client.Repositories.ListTags for one page: the entries, the
response's NextPage (0 = no next page), whether the response is non-nil,
and the error. -/
structure TagsCall where
  tags : List TagEntry
  nextPage : Nat
  hasResp : Bool
  err : Option Str
deriving DecidableEq, Repr

/-- A release as read through GetTagName. -/
structure Release where
  tagName : Str
deriving DecidableEq, Repr

/-- Result of client.Repositories.GetLatestRelease. -/
structure RelCall where
  release : Option Release
  status : Option Nat
  err : Option Str
deriving DecidableEq, Repr

/-- The hosting API collaborator: a pure oracle giving the response of
each read-only call the resolver makes, keyed by its arguments. All calls
of one run are modelled against one fixed oracle. -/
structure API where
  getRef : Str → Str → Str → RefCall
  getTag : Str → Str → Str → TagCall
  listTags : Str → Str → Nat → TagsCall
  getLatestRelease : Str → Str → RelCall

/-- Decidable equality for Except results, so concrete runs can be checked
by evaluation. -/
instance exceptDecEq {ε α : Type} [DecidableEq ε] [DecidableEq α] :
    DecidableEq (Except ε α)
  | .ok x, .ok y =>
    if h : x = y then .isTrue (congrArg Except.ok h)
    else .isFalse (fun hc => h (by cases hc; rfl))
  | .error x, .error y =>
    if h : x = y then .isTrue (congrArg Except.error h)
    else .isFalse (fun hc => h (by cases hc; rfl))
  | .ok _, .error _ => .isFalse (fun hc => Except.noConfusion hc)
  | .error _, .ok _ => .isFalse (fun hc => Except.noConfusion hc)

/-- GetSHA through a possibly-nil object. -/
def objSha : Option GitObj → Str
  | none => []
  | some o => o.sha

/-- GetType through a possibly-nil object. -/
def objType : Option GitObj → Str
  | none => []
  | some o => o.typ

/-- The annotated-tag dereference step of resolveTagToCommitSHA: when the
ref's object is a tag object, look it up and take the underlying object's
SHA only when that lookup succeeds, the tag object is non-nil, its target
is a commit and its SHA is non-empty; in every other case the tag object's
own SHA is kept. -/
def derefAnnotated (api : API) (owner repo sha0 typ : Str) : Str :=
  if typ = chars "tag" then
    let t := api.getTag owner repo sha0
    match t.err, t.tagObj with
    | none, some tobj =>
      if tobj.typ = chars "commit" ∧ tobj.sha ≠ [] then tobj.sha else sha0
    | _, _ => sha0
  else sha0

/-- resolveTagToCommitSHA of main.go: resolve `tags/<tag>` to a commit id,
dereferencing an annotated tag object one level when the dereference
succeeds and yields a commit with a non-empty SHA (otherwise the tag
object's own SHA is kept); a 404 becomes a "tag not found" error, any
other error is returned as is, and an empty final SHA is an error. -/
def resolveTagToCommitSHA (api : API) (owner repo tagName : Str) : Except Str (Str × Str) :=
  let r := api.getRef owner repo (chars "tags/" ++ tagName)
  match r.err with
  | some e =>
    if r.status = some 404 then .error (chars "tag not found: " ++ tagName)
    else .error e
  | none =>
    let sha := derefAnnotated api owner repo (objSha r.obj) (objType r.obj)
    if sha = [] then .error (chars "no SHA found for tag " ++ tagName)
    else .ok (sha, tagName)

/-- One step of the best-semver fold: keep the incumbent unless the new
tag parses and strictly exceeds it. -/
def blStep (acc : Option (SemVer × Str)) (t : TagEntry) : Option (SemVer × Str) :=
  match semverParse t.name with
  | none => acc
  | some v =>
    match acc with
    | none => some (v, t.name)
    | some bv => if semverGT v bv.1 then some (v, t.name) else acc

/-- The best-semver fold of selectTagBySemverOrNewest: keep the first tag
whose parsed version every later one fails to exceed. -/
def bestLoop (tags : List TagEntry) (acc : Option (SemVer × Str)) : Option (SemVer × Str) :=
  tags.foldl blStep acc

/-- selectTagBySemverOrNewest of main.go: one ListTags call (page zero
value, at most one page), highest parseable semver among those tags, else
the first tag as returned; then resolve the chosen tag to a commit. -/
def selectTagBySemverOrNewest (api : API) (owner repo : Str) : Except Str (Str × Str) :=
  let tc := api.listTags owner repo 0
  match tc.err with
  | some e => .error e
  | none =>
    if tc.tags = [] then .error (chars "no tags found")
    else
      let chosen :=
        match bestLoop tc.tags none with
        | some bv => bv.2
        | none => (tc.tags.headD ⟨[], none⟩).name
      resolveTagToCommitSHA api owner repo chosen

/-- One step of the same-major scan fold: ignore tags that do not parse or
whose major differs; otherwise update the best tag and set the
found-on-this-page flag. -/
def smStep (major : Int) (st : Option (SemVer × Str) × Bool) (t : TagEntry) :
    Option (SemVer × Str) × Bool :=
  match semverParse t.name with
  | none => st
  | some v =>
    if (v.major : Int) ≠ major then st
    else
      match st.1 with
      | none => (some (v, t.name), true)
      | some bv => (if semverGT v bv.1 then some (v, t.name) else st.1, true)

/-- One page of the same-major scan: the best same-major tag so far and
whether this page contained any same-major match. -/
def sameMajorPage (major : Int) (tags : List TagEntry)
    (acc : Option (SemVer × Str)) : Option (SemVer × Str) × Bool :=
  tags.foldl (smStep major) (acc, false)

/-- The pagination loop of selectTagBySameMajor. The fuel argument only
bounds the number of pages followed; when it runs out the loop reports the
best tag seen so far, and every theorem below supplies enough fuel for the
oracle's finite page chain, where the bound is never reached. The loop
stops early when a page has no same-major match after an earlier page had
one, and otherwise follows NextPage until it is 0 or the response is
nil. -/
def sameMajorLoop (api : API) (owner repo : Str) (major : Int) :
    Nat → Nat → Option (SemVer × Str) → Bool → Except Str (Option (SemVer × Str))
  | 0, _, best, _ => .ok best
  | fuel + 1, page, best, foundPrior =>
    let tc := api.listTags owner repo page
    match tc.err with
    | some e => .error e
    | none =>
      let st := sameMajorPage major tc.tags best
      if !st.2 && foundPrior then .ok st.1
      else
        let foundPrior2 := foundPrior || st.2
        if !tc.hasResp || tc.nextPage = 0 then .ok st.1
        else sameMajorLoop api owner repo major fuel tc.nextPage st.1 foundPrior2

/-- selectTagBySameMajor of main.go: paginate (from page 1) collecting the
highest semver tag of the requested major, then resolve it to a commit;
no tag of that major is an error. -/
def selectTagBySameMajor (api : API) (owner repo : Str) (major : Int) (fuel : Nat) :
    Except Str (Str × Str) :=
  match sameMajorLoop api owner repo major fuel 1 none false with
  | .error e => .error e
  | .ok none => .error (chars "no tags found for major " ++ Nat.toDigits 10 major.toNat)
  | .ok (some bv) =>
    if bv.2 = [] then .error (chars "no tags found for major " ++ Nat.toDigits 10 major.toNat)
    else resolveTagToCommitSHA api owner repo bv.2

/-- The tags of pages k, k+1, ..., k+n-1 of the oracle, concatenated in
page order: the portion of the tag list a full pagination starting at page
k over n pages would traverse. -/
def pagesTags (api : API) (owner repo : Str) (k : Nat) : Nat → List TagEntry
  | 0 => []
  | n + 1 => (api.listTags owner repo k).tags ++ pagesTags api owner repo (k + 1) n

/-- Page p of the oracle contains at least one tag parsing as a semver of
the requested major. -/
def pageHasMajor (api : API) (owner repo : Str) (major : Int) (p : Nat) : Prop :=
  ∃ t ∈ (api.listTags owner repo p).tags, ∃ v,
    semverParse t.name = some v ∧ (v.major : Int) = major

/-- First pass of findFullSemverTagForMajorCommit over one page's tags:
collect same-major candidates and stop at the first whose lightweight
commit SHA equals the resolved SHA. -/
def ffsScanPage (major : Int) (resolvedSHA : Str) :
    List TagEntry → List Str → Sum Str (List Str)
  | [], cand => .inr cand
  | t :: ts, cand =>
    match semverParse t.name with
    | none => ffsScanPage major resolvedSHA ts cand
    | some v =>
      if (v.major : Int) ≠ major then ffsScanPage major resolvedSHA ts cand
      else
        let cand2 := cand ++ [t.name]
        match t.commitSha with
        | some s =>
          if s ≠ [] ∧ s = resolvedSHA then .inl t.name
          else ffsScanPage major resolvedSHA ts cand2
        | none => ffsScanPage major resolvedSHA ts cand2

/-- The pagination loop of findFullSemverTagForMajorCommit's first pass
(fuel as in sameMajorLoop). -/
def ffsLoop (api : API) (owner repo : Str) (major : Int) (resolvedSHA : Str) :
    Nat → Nat → List Str → Except Str (Sum Str (List Str))
  | 0, _, cand => .ok (.inr cand)
  | fuel + 1, page, cand =>
    let tc := api.listTags owner repo page
    match tc.err with
    | some e => .error e
    | none =>
      match ffsScanPage major resolvedSHA tc.tags cand with
      | .inl found => .ok (.inl found)
      | .inr cand2 =>
        if !tc.hasResp || tc.nextPage = 0 then .ok (.inr cand2)
        else ffsLoop api owner repo major resolvedSHA fuel tc.nextPage cand2

/-- Second pass of findFullSemverTagForMajorCommit: dereference the
remaining candidates, skipping resolution failures, until one matches the
resolved SHA. -/
def ffsSecondPass (api : API) (owner repo resolvedSHA : Str) : List Str → Option Str
  | [] => none
  | n :: ns =>
    match resolveTagToCommitSHA api owner repo n with
    | .error _ => ffsSecondPass api owner repo resolvedSHA ns
    | .ok sv =>
      if sv.1 = resolvedSHA then some n else ffsSecondPass api owner repo resolvedSHA ns

/-- Go's strconv.Atoi, as used on the digits of a moving major ref. -/
def atoiModel (s : Str) : Option Int :=
  match s with
  | '-' :: r => if r ≠ [] ∧ r.all isDigit then some (-(digitsToNat r : Int)) else none
  | '+' :: r => if r ≠ [] ∧ r.all isDigit then some (digitsToNat r : Int) else none
  | r => if r ≠ [] ∧ r.all isDigit then some (digitsToNat r : Int) else none

/-- findFullSemverTagForMajorCommit of main.go: find the full semver tag
whose commit is the resolved commit of a moving major ref, comparing
lightweight tag SHAs first and dereferencing annotated candidates only in
a second pass. -/
def findFullSemverTagForMajorCommit (api : API) (owner repo majorRef resolvedSHA : Str)
    (fuel : Nat) : Except Str Str :=
  let ref := match majorRef with | 'v' :: r => r | r => r
  match atoiModel ref with
  | none => .error (chars "not a major ref: " ++ majorRef)
  | some major =>
    match ffsLoop api owner repo major resolvedSHA fuel 1 [] with
    | .error e => .error e
    | .ok (.inl found) => .ok found
    | .ok (.inr cand) =>
      match ffsSecondPass api owner repo resolvedSHA cand with
      | some n => .ok n
      | none => .error (chars "no matching full tag found for " ++ majorRef)

/-- The UpdatePolicy constants of main.go. -/
inductive UpdatePolicy where
  | Major
  | SameMajor
  | Requested
deriving DecidableEq, Repr

/-- The candidate loop of the Requested policy's moving-major branch: try
each candidate tag in order, returning the first success, or the error of
the last attempt. -/
def tryCandidates (api : API) (owner repo : Str) : List Str → Except Str (Str × Str)
  | [] => .error []
  | [c] => resolveTagToCommitSHA api owner repo c
  | c :: cs =>
    match resolveTagToCommitSHA api owner repo c with
    | .ok v => .ok v
    | .error _ => tryCandidates api owner repo cs

/-- GetTagName through a possibly-nil release. -/
def relTagName : Option Release → Str
  | none => []
  | some r => r.tagName

/-- The final Major-policy fallback of resolveActionForPolicy: the
latest-release path failed or was skipped, so select a tag by semver or
newest, recording its error as the occurrence's failure. -/
def majorFallback (api : API) (owner repo : Str) : ActionInfo × Option Str :=
  match selectTagBySemverOrNewest api owner repo with
  | .error e => (⟨owner, repo, [], [], some e⟩, some e)
  | .ok sv => (⟨owner, repo, sv.2, sv.1, none⟩, none)

/-- The trailing Major-policy section of resolveActionForPolicy: latest
release first; a non-nil non-404 response on an error path is terminal
(the Go code returns ActionInfo{Error: err} there without re-checking that
err is non-nil); otherwise the tag fallback. -/
def majorStep (api : API) (owner repo : Str) : ActionInfo × Option Str :=
  let rel := api.getLatestRelease owner repo
  if rel.err = none ∧ rel.release ≠ none then
    match resolveTagToCommitSHA api owner repo (relTagName rel.release) with
    | .ok sv => (⟨owner, repo, sv.2, sv.1, none⟩, none)
    | .error _ => majorFallback api owner repo
  else if rel.status ≠ none ∧ rel.status ≠ some 404 then
    (⟨owner, repo, [], [], rel.err⟩, rel.err)
  else majorFallback api owner repo

/-- The moving-major sub-branch of the Requested policy: try the literal
and (when it lacks a leading v) the v-prefixed candidate, optionally
expanding the displayed version to the matching full semver tag. -/
def movingMajorStep (api : API) (owner repo requestedRef : Str) (expandMajor : Bool)
    (fuel : Nat) : Option ActionInfo :=
  if isMovingMajorTag requestedRef then
    let candidates :=
      if leadsWith (chars "v") requestedRef then [requestedRef]
      else [requestedRef, normalizeMajorRef requestedRef]
    match tryCandidates api owner repo candidates with
    | .ok sv =>
      let resolvedVersion :=
        if expandMajor then
          match findFullSemverTagForMajorCommit api owner repo requestedRef sv.1 fuel with
          | .ok fullTag => if fullTag ≠ [] then fullTag else sv.2
          | .error _ => sv.2
        else sv.2
      some ⟨owner, repo, resolvedVersion, sv.1, none⟩
    | .error _ => none
  else none

/-- The body of the Requested-policy branch of resolveActionForPolicy:
moving-major resolution first, then an exact tag lookup, then the
already-a-full-SHA shortcut; none means fall through to the next policy
section. -/
def requestedStep (api : API) (owner repo requestedRef : Str) (expandMajor : Bool)
    (fuel : Nat) : Option ActionInfo :=
  match movingMajorStep api owner repo requestedRef expandMajor fuel with
  | some info => some info
  | none =>
    match resolveTagToCommitSHA api owner repo requestedRef with
    | .ok sv => some ⟨owner, repo, sv.2, sv.1, none⟩
    | .error _ =>
      if isFullSHA requestedRef then some ⟨owner, repo, requestedRef, requestedRef, none⟩
      else none

/-- The body of the SameMajor-policy branch of resolveActionForPolicy. -/
def sameMajorStepOpt (api : API) (owner repo requestedRef : Str) (fuel : Nat) :
    Option ActionInfo :=
  match parseMajor requestedRef with
  | some major =>
    match selectTagBySameMajor api owner repo major fuel with
    | .ok sv => some ⟨owner, repo, sv.2, sv.1, none⟩
    | .error _ => none
  | none => none

/-- resolveActionForPolicy of main.go: resolve one occurrence according to
the chosen policy, with the Requested and SameMajor branches falling
through to the Major (latest release / best tag) logic when they find
nothing. The returned pair mirrors Go's (ActionInfo, error) pair. The fuel
argument bounds the page chains followed by the inner loops, exactly as in
sameMajorLoop. -/
def resolveActionForPolicy (api : API) (owner repo requestedRef : Str)
    (expandMajor : Bool) (policy : UpdatePolicy) (fuel : Nat) : ActionInfo × Option Str :=
  let requestedResult : Option ActionInfo :=
    if policy = .Requested ∧ requestedRef ≠ [] then
      requestedStep api owner repo requestedRef expandMajor fuel
    else none
  match requestedResult with
  | some info => (info, none)
  | none =>
    let sameMajorResult : Option ActionInfo :=
      if policy = .SameMajor ∧ requestedRef ≠ [] then
        sameMajorStepOpt api owner repo requestedRef fuel
      else none
    match sameMajorResult with
    | some info => (info, none)
    | none => majorStep api owner repo

/-- Numeral of an UpdatePolicy, as Go's %d prints the iota constants. -/
def policyNum : UpdatePolicy → Nat
  | .Major => 0
  | .SameMajor => 1
  | .Requested => 2

/-- The cache key of getActionInfosForOccurrences: the formatted string
"%s/%s|%d|%s" over owner, repo, policy and requested ref. -/
def cacheKey (owner repo : Str) (policy : UpdatePolicy) (requestedRef : Str) : Str :=
  owner ++ '/' :: repo ++ '|' :: Nat.toDigits 10 (policyNum policy) ++ '|' :: requestedRef

/-- Lookup in the cache, modelled as an association list where the most
recent store for a key shadows older ones (Go map semantics). -/
def lookupCache (key : Str) : List (Str × ActionInfo × Bool) → Option (ActionInfo × Bool)
  | [] => none
  | e :: rest => if e.1 = key then some e.2 else lookupCache key rest

/-- The per-occurrence body of getActionInfosForOccurrences, sequentialized
in input order: consult the cache and serve only entries stored with
ok = true (successful resolutions); otherwise resolve afresh through the
given resolver and store the result with ok = (Error is nil). The Go code
runs the bodies concurrently under one mutex around the cache and joins
before using the results; the resolver argument abstracts
resolveActionForPolicy applied to the occurrence's fields. -/
def orchLoop (res : ActionOccurrence → ActionInfo) (policy : UpdatePolicy) :
    List ActionOccurrence → List (Str × ActionInfo × Bool) → List ActionInfo
  | [], _ => []
  | occ :: rest, cache =>
    let key := cacheKey occ.Owner occ.Repo policy occ.RequestedRef
    match lookupCache key cache with
    | some e =>
      if e.2 then e.1 :: orchLoop res policy rest cache
      else
        let info := res occ
        info :: orchLoop res policy rest ((key, info, info.Error = none) :: cache)
    | none =>
      let info := res occ
      info :: orchLoop res policy rest ((key, info, info.Error = none) :: cache)

/-- getActionInfosForOccurrences of main.go, sequentialized in input
order with the cache threaded through (output order already matches input
order in the Go code, which writes infos[idx] by index). -/
def getActionInfosForOccurrences (api : API) (occs : List ActionOccurrence)
    (expandMajor : Bool) (policy : UpdatePolicy) (fuel : Nat) : List ActionInfo :=
  orchLoop
    (fun occ => (resolveActionForPolicy api occ.Owner occ.Repo occ.RequestedRef
        expandMajor policy fuel).1)
    policy occs []

/-- Specification-side description of the cache discipline: the resolution
of the first occurrence in the history whose key string equals the given
key and whose resolution succeeded (nil Error), if any. -/
def firstSuccessFor (res : ActionOccurrence → ActionInfo) (policy : UpdatePolicy)
    (key : Str) : List ActionOccurrence → Option ActionInfo
  | [] => none
  | o :: rest =>
    if cacheKey o.Owner o.Repo policy o.RequestedRef = key ∧ (res o).Error = none
    then some (res o) else firstSuccessFor res policy key rest

/-- What a cache lookup serves: only entries stored with ok = true. -/
def servedOf : Option (ActionInfo × Bool) → Option ActionInfo
  | some (info, true) => some info
  | _ => none

/-- Specification-side description of the orchestrator output: each
occurrence receives the resolution of the first earlier occurrence with
the same key string that succeeded, and its own fresh resolution
otherwise. -/
def orchSpec (res : ActionOccurrence → ActionInfo) (policy : UpdatePolicy) :
    List ActionOccurrence → List ActionOccurrence → List ActionInfo
  | _, [] => []
  | h, o :: rest =>
    (firstSuccessFor res policy (cacheKey o.Owner o.Repo policy o.RequestedRef) h).getD
        (res o)
      :: orchSpec res policy (h ++ [o]) rest

/-! Basic facts about one regex match and about the scan loop. -/

theorem matchAt_facts {cs : Str} {s : Nat} {m : RawMatch} (h : matchAt cs s = some m) :
    m.matchStart = s ∧ charAt? cs m.atPos = some '@' ∧
      s < m.atPos ∧ m.atPos < m.refEnd ∧ m.refEnd ≤ m.matchEnd := by
  simp only [matchAt] at h
  split at h
  · split at h
    · exact absurd h (by simp)
    · split at h
      · exact absurd h (by simp)
      · split at h
        · split at h
          · exact absurd h (by simp)
          · split at h
            · exact absurd h (by simp)
            · split at h
              · split at h
                · exact absurd h (by simp)
                · injection h with h
                  subst h
                  refine ⟨rfl, by assumption, ?_, ?_, ?_⟩
                  · dsimp only; omega
                  · dsimp only; omega
                  · dsimp only; split <;> omega
              · exact absurd h (by simp)
        · exact absurd h (by simp)
  · exact absurd h (by simp)

theorem mem_scanFuel {cs : Str} : ∀ {fuel s : Nat} {m : RawMatch},
    m ∈ scanFuel cs fuel s → s ≤ m.matchStart ∧ matchAt cs m.matchStart = some m := by
  intro fuel
  induction fuel with
  | zero => intro s m hm; simp [scanFuel] at hm
  | succ fuel ih =>
    intro s m hm
    rw [scanFuel] at hm
    split at hm
    · simp at hm
    · split at hm
      · have := ih hm
        exact ⟨by omega, this.2⟩
      · rename_i m0 hm0
        rcases List.mem_cons.mp hm with rfl | hmem
        · exact ⟨le_of_eq (matchAt_facts hm0).1.symm, by rw [(matchAt_facts hm0).1]; exact hm0⟩
        · have := ih hmem
          exact ⟨by have := this.1; omega, this.2⟩

theorem chain_scanFuel {cs : Str} : ∀ {fuel s : Nat},
    List.Chain' (fun a b => a.matchEnd ≤ b.matchStart) (scanFuel cs fuel s) := by
  intro fuel
  induction fuel with
  | zero => intro s; simp [scanFuel]
  | succ fuel ih =>
    intro s
    rw [scanFuel]
    split
    · simp
    · split
      · exact ih
      · rename_i m0 hm0
        refine List.chain'_cons'.mpr ⟨?_, ih⟩
        intro y hy
        have hmem := List.mem_of_mem_head? hy
        have := (mem_scanFuel hmem).1
        omega

/-- Claim C2: for every document, every occurrence produced by
extractOccurrences has ReplaceEnd equal to MatchEnd and the document
character at ReplaceStart is '@'; spans are monotonically increasing in
document order (MatchStart < MatchEnd for each occurrence) and no two
occurrences' spans overlap: each occurrence's MatchEnd is at most the next
occurrence's MatchStart. -/
theorem extractOccurrences_span_invariants (cs : Str) :
    (∀ occ ∈ extractOccurrences cs,
        occ.ReplaceEnd = occ.MatchEnd ∧ charAt? cs occ.ReplaceStart = some '@' ∧
          occ.MatchStart < occ.MatchEnd) ∧
      List.Chain' (fun a b => a.MatchEnd ≤ b.MatchStart) (extractOccurrences cs) := by
  constructor
  · intro occ hocc
    rcases List.mem_map.mp hocc with ⟨m, hm, rfl⟩
    have hfacts := matchAt_facts (mem_scanFuel hm).2
    refine ⟨rfl, hfacts.2.1, ?_⟩
    show m.matchStart < m.matchEnd
    omega
  · unfold extractOccurrences
    rw [List.chain'_map]
    exact chain_scanFuel

/-- Witness for C2 at a concrete document and occurrence. -/
theorem extractOccurrences_span_invariants_witness :
    (⟨chars "a", chars "b", chars "a/b", chars "v1", 0, 12, 9, 12, 1, 7⟩ : ActionOccurrence)
        ∈ extractOccurrences (chars "uses: a/b@v1\n") ∧
      ((⟨chars "a", chars "b", chars "a/b", chars "v1", 0, 12, 9, 12, 1, 7⟩ : ActionOccurrence).ReplaceEnd
          = (⟨chars "a", chars "b", chars "a/b", chars "v1", 0, 12, 9, 12, 1, 7⟩ : ActionOccurrence).MatchEnd ∧
        charAt? (chars "uses: a/b@v1\n")
            (⟨chars "a", chars "b", chars "a/b", chars "v1", 0, 12, 9, 12, 1, 7⟩ : ActionOccurrence).ReplaceStart
          = some '@' ∧
        (⟨chars "a", chars "b", chars "a/b", chars "v1", 0, 12, 9, 12, 1, 7⟩ : ActionOccurrence).MatchStart
          < (⟨chars "a", chars "b", chars "a/b", chars "v1", 0, 12, 9, 12, 1, 7⟩ : ActionOccurrence).MatchEnd) :=
  ⟨by decide,
    (extractOccurrences_span_invariants (chars "uses: a/b@v1\n")).1
      ⟨chars "a", chars "b", chars "a/b", chars "v1", 0, 12, 9, 12, 1, 7⟩ (by decide)⟩

/-! The Rewrite Engine's contract, stated independently of the
implementation for comparison (claim C3). -/

/-- Follows the specification's words for the Rewrite Engine: walk the
occurrence/resolution pairs in document order with a cursor; for each
occurrence whose resolution has no error, a non-empty SHA, and a SHA
different from the occurrence's requested ref, copy the document bytes
from the cursor up to ReplaceStart unchanged, emit `@<sha> # <version>`
in place of the bytes in [ReplaceStart, ReplaceEnd), and move the cursor
to ReplaceEnd; occurrences with absent or failed resolutions contribute
nothing, leaving their bytes to be copied unchanged; finally copy the
remainder of the document. -/
def rewriteSpec (cs : Str) : List (ActionOccurrence × ActionInfo) → Nat → Str
  | [], prev => cs.drop prev
  | p :: rest, prev =>
    if p.2.Error = none ∧ p.2.SHA ≠ [] ∧ p.1.RequestedRef ≠ p.2.SHA then
      slice cs prev p.1.ReplaceStart ++ ('@' :: p.2.SHA ++ chars " # " ++ p.2.Version)
        ++ rewriteSpec cs rest p.1.ReplaceEnd
    else rewriteSpec cs rest prev

theorem chain_valid_pairwise {α : Type} (f g : α → Nat) :
    ∀ {l : List α}, List.Chain' (fun a b => g a ≤ f b) l →
      (∀ o ∈ l, f o < g o) → List.Pairwise (fun a b => g a ≤ f b) l := by
  intro l
  induction l with
  | nil => intro _ _; exact List.Pairwise.nil
  | cons a l ih =>
    intro hc hv
    rw [List.chain'_cons'] at hc
    have hpl := ih hc.2 (fun o ho => hv o (List.mem_cons_of_mem a ho))
    refine List.pairwise_cons.mpr ⟨?_, hpl⟩
    intro b hb
    cases l with
    | nil => simp at hb
    | cons c l2 =>
      rcases List.mem_cons.mp hb with rfl | hb2
      · exact hc.1 b rfl
      · have h1 : g a ≤ f c := hc.1 c rfl
        have h2 : f c < g c := hv c (by simp)
        have h3 : g c ≤ f b := (List.pairwise_cons.mp hpl).1 b hb2
        omega

theorem chain_zip_left {α β : Type} {R : α → α → Prop} :
    ∀ (l1 : List α) (l2 : List β), List.Chain' R l1 →
      List.Chain' (fun p q : α × β => R p.1 q.1) (l1.zip l2) := by
  intro l1
  induction l1 with
  | nil => intro l2 _; simp
  | cons a l1 ih =>
    intro l2 hc
    cases l2 with
    | nil => simp
    | cons b l2 =>
      rw [List.chain'_cons'] at hc
      rw [List.zip_cons_cons, List.chain'_cons']
      refine ⟨?_, ih l2 hc.2⟩
      intro y hy
      cases l1 with
      | nil => simp at hy
      | cons c l1b =>
        cases l2 with
        | nil => simp at hy
        | cons d l2b =>
          rw [List.zip_cons_cons] at hy
          simp only [List.head?_cons, Option.mem_def, Option.some.injEq] at hy
          subst hy
          exact hc.1 c rfl

theorem sortRepls_of_sorted {l : List Repl}
    (h : List.Chain' (fun a b => a.start < b.start) l) : sortRepls l = l := by
  induction l with
  | nil => rfl
  | cons x xs ih =>
    rw [List.chain'_cons'] at h
    rw [sortRepls, ih h.2]
    cases xs with
    | nil => rfl
    | cons y ys =>
      rw [insertRepl, if_pos (h.1 y rfl)]

theorem buildRepl1_eq_some {p : ActionOccurrence × ActionInfo} {r : Repl}
    (h : buildRepl1 p = some r) :
    r.start = p.1.ReplaceStart ∧ r.stop = p.1.ReplaceEnd := by
  unfold buildRepl1 at h
  split at h
  · simp at h
  split at h
  · simp at h
  split at h
  · simp at h
  split at h
  · simp at h
  injection h with h
  subst h
  exact ⟨rfl, rfl⟩

theorem buildRepl1_pos {p : ActionOccurrence × ActionInfo}
    (hvp : p.1.ReplaceStart < p.1.ReplaceEnd)
    (hsp : trimSpace p.2.SHA = [] ↔ p.2.SHA = [])
    (hqual : p.2.Error = none ∧ p.2.SHA ≠ [] ∧ p.1.RequestedRef ≠ p.2.SHA) :
    buildRepl1 p = some ⟨p.1.ReplaceStart, p.1.ReplaceEnd,
      '@' :: p.2.SHA ++ chars " # " ++ p.2.Version⟩ := by
  unfold buildRepl1
  rw [if_neg (by simp [hqual.1]), if_neg (by rw [hsp]; exact hqual.2.1),
    if_neg (by omega), if_neg hqual.2.2]

theorem buildRepl1_neg {p : ActionOccurrence × ActionInfo}
    (hsp : trimSpace p.2.SHA = [] ↔ p.2.SHA = [])
    (hqual : ¬(p.2.Error = none ∧ p.2.SHA ≠ [] ∧ p.1.RequestedRef ≠ p.2.SHA)) :
    buildRepl1 p = none := by
  unfold buildRepl1
  by_cases h1 : p.2.Error = none
  · by_cases h2 : p.2.SHA = []
    · rw [if_neg (by simp [h1]), if_pos (hsp.mpr h2)]
    · by_cases h3 : p.1.RequestedRef = p.2.SHA
      · rw [if_neg (by simp [h1]), if_neg (by rw [hsp]; exact h2)]
        by_cases h4 : p.1.ReplaceEnd ≤ p.1.ReplaceStart
        · rw [if_pos h4]
        · rw [if_neg h4, if_pos h3]
      · exact absurd ⟨h1, h2, h3⟩ hqual
  · rw [if_pos (by simp [h1])]

theorem repls_sorted :
    ∀ (pairs : List (ActionOccurrence × ActionInfo)),
      List.Pairwise (fun p q : ActionOccurrence × ActionInfo =>
        p.1.ReplaceEnd ≤ q.1.ReplaceStart) pairs →
      (∀ p ∈ pairs, p.1.ReplaceStart < p.1.ReplaceEnd) →
      List.Chain' (fun a b : Repl => a.start < b.start) (pairs.filterMap buildRepl1) := by
  intro pairs
  induction pairs with
  | nil => intro _ _; simp
  | cons p rest ih =>
    intro hp hv
    have hrest := ih (List.pairwise_cons.mp hp).2
      (fun q hq => hv q (List.mem_cons_of_mem p hq))
    rw [List.filterMap_cons]
    cases hcase : buildRepl1 p with
    | none => exact hrest
    | some r =>
      refine List.chain'_cons'.mpr ⟨?_, hrest⟩
      intro y hy
      have hymem := List.mem_of_mem_head? hy
      rcases List.mem_filterMap.mp hymem with ⟨q, hq, hfq⟩
      have h1 := buildRepl1_eq_some hcase
      have h2 := buildRepl1_eq_some hfq
      have h3 := (List.pairwise_cons.mp hp).1 q hq
      have h4 := hv p (List.mem_cons_self p rest)
      omega

theorem spliceAux_eq_rewriteSpec (cs : Str) :
    ∀ (pairs : List (ActionOccurrence × ActionInfo)) (prev : Nat),
      (∀ p ∈ pairs, p.1.ReplaceStart < p.1.ReplaceEnd) →
      List.Pairwise (fun p q : ActionOccurrence × ActionInfo =>
        p.1.ReplaceEnd ≤ q.1.ReplaceStart) pairs →
      (∀ p ∈ pairs, trimSpace p.2.SHA = [] ↔ p.2.SHA = []) →
      (∀ p ∈ pairs, prev ≤ p.1.ReplaceStart) →
      spliceAux cs (pairs.filterMap buildRepl1) prev = rewriteSpec cs pairs prev := by
  intro pairs
  induction pairs with
  | nil => intro prev _ _ _ _; rfl
  | cons p rest ih =>
    intro prev hv hp hs hprev
    have hvrest : ∀ q ∈ rest, q.1.ReplaceStart < q.1.ReplaceEnd :=
      fun q hq => hv q (List.mem_cons_of_mem p hq)
    have hprest := (List.pairwise_cons.mp hp).2
    have hsrest : ∀ q ∈ rest, trimSpace q.2.SHA = [] ↔ q.2.SHA = [] :=
      fun q hq => hs q (List.mem_cons_of_mem p hq)
    have hvp : p.1.ReplaceStart < p.1.ReplaceEnd := hv p (List.mem_cons_self p rest)
    have hsp := hs p (List.mem_cons_self p rest)
    by_cases hqual : p.2.Error = none ∧ p.2.SHA ≠ [] ∧ p.1.RequestedRef ≠ p.2.SHA
    · rw [List.filterMap_cons, buildRepl1_pos hvp hsp hqual, spliceAux,
        if_neg (by simp only [not_lt]; exact hprev p (List.mem_cons_self p rest)),
        rewriteSpec, if_pos hqual]
      have hnext : ∀ q ∈ rest, p.1.ReplaceEnd ≤ q.1.ReplaceStart :=
        (List.pairwise_cons.mp hp).1
      rw [ih p.1.ReplaceEnd hvrest hprest hsrest hnext]
    · have hnext : ∀ q ∈ rest, prev ≤ q.1.ReplaceStart := by
        intro q hq
        have h1 := hprev p (List.mem_cons_self p rest)
        have h2 := (List.pairwise_cons.mp hp).1 q hq
        omega
      rw [List.filterMap_cons, buildRepl1_neg hsp hqual, rewriteSpec, if_neg hqual,
        ih prev hvrest hprest hsrest hnext]

/-- Claim C3: for every document, occurrence list with non-overlapping
ascending spans, and aligned resolution list (SHAs are not whitespace-only
unless empty, as every real SHA is), updateContent equals the canonical
splice rewriteSpec: each occurrence whose resolution has no error, a
non-empty SHA and a SHA different from the requested ref has exactly the
bytes in [ReplaceStart, ReplaceEnd) replaced by `@<sha> # <version>`, and
every byte outside the replaced spans appears unchanged, in order, in the
output; occurrences absent from the resolution set (the zip truncates, as
Go's index guard does) or with failed resolutions leave their bytes
unchanged. -/
theorem updateContent_eq_rewriteSpec (cs : Str) (occs : List ActionOccurrence)
    (infos : List ActionInfo)
    (hv : ∀ occ ∈ occs, occ.ReplaceStart < occ.ReplaceEnd)
    (hc : List.Chain' (fun a b => a.ReplaceEnd ≤ b.ReplaceStart) occs)
    (hs : ∀ info ∈ infos, trimSpace info.SHA = [] ↔ info.SHA = []) :
    updateContent cs occs infos = rewriteSpec cs (occs.zip infos) 0 := by
  have hvz : ∀ p ∈ occs.zip infos, p.1.ReplaceStart < p.1.ReplaceEnd :=
    fun p hp => hv p.1 (List.of_mem_zip hp).1
  have hsz : ∀ p ∈ occs.zip infos, trimSpace p.2.SHA = [] ↔ p.2.SHA = [] :=
    fun p hp => hs p.2 (List.of_mem_zip hp).2
  have hcz : List.Chain' (fun p q : ActionOccurrence × ActionInfo =>
      p.1.ReplaceEnd ≤ q.1.ReplaceStart) (occs.zip infos) :=
    chain_zip_left occs infos hc
  have hpz2 : List.Pairwise (fun p q : ActionOccurrence × ActionInfo =>
      p.1.ReplaceEnd ≤ q.1.ReplaceStart) (occs.zip infos) :=
    chain_valid_pairwise (fun p : ActionOccurrence × ActionInfo => p.1.ReplaceStart)
      (fun p : ActionOccurrence × ActionInfo => p.1.ReplaceEnd) hcz hvz
  have hmain := spliceAux_eq_rewriteSpec cs (occs.zip infos) 0 hvz hpz2 hsz
    (fun p _ => Nat.zero_le _)
  unfold updateContent buildRepls
  by_cases hempty : (occs.zip infos).filterMap buildRepl1 = []
  · rw [if_pos hempty]
    rw [hempty, spliceAux] at hmain
    simp only [List.drop_zero] at hmain
    exact hmain
  · rw [if_neg hempty, sortRepls_of_sorted (repls_sorted (occs.zip infos) hpz2 hvz)]
    exact hmain

/-- Witness for C3: the specification's two-resolution example, with the
docker occurrence absent from the resolution set and left byte-for-byte
unchanged. -/
theorem updateContent_eq_rewriteSpec_witness :
    updateContent
        (chars "uses: actions/checkout@v4\nuses: actions/cache@v3\nuses: docker/setup-buildx-action@v2\n")
        (extractOccurrences
          (chars "uses: actions/checkout@v4\nuses: actions/cache@v3\nuses: docker/setup-buildx-action@v2\n"))
        [⟨chars "actions", chars "checkout", chars "v4.1.0",
            chars "8ade135a41bc03ea155e62e844d188df1ea18608", none⟩,
          ⟨chars "actions", chars "cache", chars "v4.0.2",
            chars "ab5e6d0c87105b4c9c2047343972218f562e4319", none⟩]
      = rewriteSpec
          (chars "uses: actions/checkout@v4\nuses: actions/cache@v3\nuses: docker/setup-buildx-action@v2\n")
          ((extractOccurrences
              (chars "uses: actions/checkout@v4\nuses: actions/cache@v3\nuses: docker/setup-buildx-action@v2\n")).zip
            [⟨chars "actions", chars "checkout", chars "v4.1.0",
                chars "8ade135a41bc03ea155e62e844d188df1ea18608", none⟩,
              ⟨chars "actions", chars "cache", chars "v4.0.2",
                chars "ab5e6d0c87105b4c9c2047343972218f562e4319", none⟩])
          0 := by
  have hocc : extractOccurrences
      (chars "uses: actions/checkout@v4\nuses: actions/cache@v3\nuses: docker/setup-buildx-action@v2\n")
      = [⟨chars "actions", chars "checkout", chars "actions/checkout", chars "v4",
            0, 25, 22, 25, 1, 7⟩,
          ⟨chars "actions", chars "cache", chars "actions/cache", chars "v3",
            26, 48, 45, 48, 2, 7⟩,
          ⟨chars "docker", chars "setup-buildx-action", chars "docker/setup-buildx-action",
            chars "v2", 49, 84, 81, 84, 3, 7⟩] := by decide
  refine updateContent_eq_rewriteSpec _ _ _ ?_ ?_ ?_
  · rw [hocc]; decide
  · rw [hocc]
    exact List.chain'_cons.mpr ⟨by decide, List.chain'_cons.mpr ⟨by decide,
      List.chain'_singleton _⟩⟩
  · decide

/-! Discovered-actions de-duplication and occurrence non-de-duplication
(claim C9). -/

theorem countWhile_le_length (p : Char → Bool) : ∀ l : Str, countWhile p l ≤ l.length := by
  intro l
  induction l with
  | nil => simp [countWhile]
  | cons c cs ih =>
    rw [countWhile]
    split
    · simpa using ih
    · simp

theorem charAt_some_lt {cs : Str} {i : Nat} {c : Char} (h : charAt? cs i = some c) :
    i < cs.length := by
  unfold charAt? at h
  rcases List.getElem?_eq_some.mp h with ⟨hlt, _⟩
  exact hlt

theorem length_slice (cs : Str) (a b : Nat) :
    (slice cs a b).length = min (b - a) (cs.length - a) := by
  simp [slice]

/-- Inversion principle for matchAt: a successful match at s determines
every component of the RawMatch in terms of the greedy runs of the
pattern's character classes, together with the boundary characters and the
non-emptiness of each run. -/
theorem matchAt_inv {cs : Str} {s : Nat} {m : RawMatch} (h : matchAt cs s = some m) :
    ∃ w db r refLen,
      w = countWhile isWS (cs.drop (s + 5)) ∧
      firstIdx? (fun c => c = '/' || c = '@') (cs.drop (s + 5 + w)) = some db ∧
      r = countWhile (fun c => !(c = '@') && !(isWS c)) (cs.drop (s + 5 + w + db + 1)) ∧
      refLen = countWhile (fun c => !(isWS c) && !(c = '#'))
        (cs.drop (s + 5 + w + db + 1 + r + 1)) ∧
      leadsWith (chars "uses:") (cs.drop s) = true ∧
      1 ≤ w ∧ 1 ≤ r ∧ 1 ≤ refLen ∧
      charAt? cs (s + 5 + w + db) = some '/' ∧
      charAt? cs (s + 5 + w + db + 1 + r) = some '@' ∧
      m.matchStart = s ∧
      m.orStart = (if 0 < db then s + 5 + w else s + 5 + w - 1) ∧
      (0 < db ∨ 2 ≤ w) ∧
      m.slashPos = s + 5 + w + db ∧
      m.atPos = s + 5 + w + db + 1 + r ∧
      m.refEnd = s + 5 + w + db + 1 + r + 1 + refLen ∧
      m.matchEnd = (if charAt? cs (m.refEnd + countWhile isWS (cs.drop m.refEnd)) = some '#'
        then m.refEnd + countWhile isWS (cs.drop m.refEnd) + 1 +
          countWhile (fun c => !(c = '\n'))
            (cs.drop (m.refEnd + countWhile isWS (cs.drop m.refEnd) + 1))
        else m.refEnd) := by
  simp only [matchAt] at h
  split at h
  · split at h
    · exact absurd h (by simp)
    · split at h
      · exact absurd h (by simp)
      · rename_i hpref hw0 db hdb
        split at h
        · rename_i hslash
          split at h
          · exact absurd h (by simp)
          · rename_i g hg
            split at h
            · exact absurd h (by simp)
            · rename_i hr0
              split at h
              · rename_i hat
                split at h
                · exact absurd h (by simp)
                · rename_i hrefl0
                  injection h with h
                  subst h
                  refine ⟨countWhile isWS (cs.drop (s + 5)), db, _, _, rfl, hdb, rfl, rfl,
                    by assumption, by omega, by omega, by omega, hslash, hat, rfl,
                    ?_, ?_, rfl, rfl, rfl, ?_⟩
                  · dsimp only
                    split at hg
                    · injection hg with hg
                      rw [← hg]
                      simp_all
                    · split at hg
                      · injection hg with hg
                        rw [← hg]
                        simp_all
                      · exact absurd hg (by simp)
                  · dsimp only
                    split at hg
                    · left; assumption
                    · split at hg
                      · right; assumption
                      · exact absurd hg (by simp)
                  · dsimp only
              · exact absurd h (by simp)
        · exact absurd h (by simp)
  · exact absurd h (by simp)

theorem matchAt_bounds {cs : Str} {s : Nat} {m : RawMatch} (h : matchAt cs s = some m) :
    m.atPos + 1 < m.refEnd ∧ m.refEnd ≤ cs.length ∧ m.atPos + 1 < cs.length := by
  rcases matchAt_inv h with
    ⟨w, db, r, refLen, _, _, _, hrefLen, _, _, _, h1, _, _, _, _, _, hAt, hRef, _⟩
  have hle := countWhile_le_length (fun c => !(isWS c) && !(c = '#'))
    (cs.drop (s + 5 + w + db + 1 + r + 1))
  rw [List.length_drop] at hle
  rw [← hrefLen] at hle
  omega

theorem extractOccurrences_ref_ne_nil {cs : Str} :
    ∀ occ ∈ extractOccurrences cs, occ.RequestedRef ≠ [] := by
  intro occ hocc
  rcases List.mem_map.mp hocc with ⟨m, hm, rfl⟩
  have hb := matchAt_bounds (mem_scanFuel hm).2
  show slice cs (m.atPos + 1) m.refEnd ≠ []
  have hlen : (slice cs (m.atPos + 1) m.refEnd).length > 0 := by
    rw [length_slice]
    omega
  exact List.ne_nil_of_length_pos hlen

theorem mem_dedupFirstAux : ∀ {seen l : List Str} {a : Str},
    a ∈ dedupFirstAux seen l ↔ (a ∈ l ∧ a ∉ seen) := by
  intro seen l
  induction l generalizing seen with
  | nil => intro a; simp [dedupFirstAux]
  | cons b rest ih =>
    intro a
    rw [dedupFirstAux]
    split
    · rw [ih]
      constructor
      · rintro ⟨h1, h2⟩
        exact ⟨List.mem_cons_of_mem b h1, h2⟩
      · rintro ⟨h1, h2⟩
        rcases List.mem_cons.mp h1 with rfl | h1b
        · exact absurd (by assumption) h2
        · exact ⟨h1b, h2⟩
    · constructor
      · intro hmem
        rcases List.mem_cons.mp hmem with rfl | h1b
        · exact ⟨List.mem_cons_self a rest, by assumption⟩
        · have := ih.mp h1b
          refine ⟨List.mem_cons_of_mem b this.1, ?_⟩
          intro hc
          exact this.2 (List.mem_cons_of_mem b hc)
      · rintro ⟨h1, h2⟩
        rcases List.mem_cons.mp h1 with rfl | h1b
        · exact List.mem_cons_self a _
        · by_cases hab : a = b
          · subst hab; exact List.mem_cons_self a _
          · refine List.mem_cons_of_mem b (ih.mpr ⟨h1b, ?_⟩)
            intro hc
            rcases List.mem_cons.mp hc with h | h
            · exact hab h
            · exact h2 h

theorem nodup_dedupFirstAux : ∀ {seen : List Str} (l : List Str),
    (dedupFirstAux seen l).Nodup := by
  intro seen l
  induction l generalizing seen with
  | nil => simp [dedupFirstAux]
  | cons b rest ih =>
    rw [dedupFirstAux]
    split
    · exact ih
    · refine List.nodup_cons.mpr ⟨?_, ih⟩
      intro hc
      exact (mem_dedupFirstAux.mp hc).2 (List.mem_cons_self b seen)

theorem sublist_dedupFirstAux : ∀ {seen : List Str} (l : List Str),
    List.Sublist (dedupFirstAux seen l) l := by
  intro seen l
  induction l generalizing seen with
  | nil => simp [dedupFirstAux]
  | cons b rest ih =>
    rw [dedupFirstAux]
    split
    · exact List.Sublist.cons b ih
    · exact List.Sublist.cons₂ b ih

/-- Claim C9: the discovered-actions listing is de-duplicated by
owner/repo identity only, keeping the first appearance of each action
(no duplicates, same members as, and a subsequence of, the raw match list,
which includes bare `uses:` entries without an @ref); the occurrence list
is never de-duplicated, and every occurrence carries a non-empty @ref, so
entries without one produce no occurrence and are never rewritten. The
concrete document demonstrates both: two identical `a/b@v1` matches give
one listed action but two occurrences, and the bare `c/d` entry is listed
yet yields no occurrence. -/
theorem extractActions_dedup_occurrences_not (cs : Str) :
    (extractActions cs).Nodup ∧
      (∀ a, a ∈ extractActions cs ↔ a ∈ rawActions cs) ∧
      List.Sublist (extractActions cs) (rawActions cs) ∧
      (∀ occ ∈ extractOccurrences cs, occ.RequestedRef ≠ []) ∧
      extractActions (chars "uses: a/b@v1\nuses: a/b@v1\nuses: c/d\n")
        = [chars "a/b", chars "c/d"] ∧
      (extractOccurrences (chars "uses: a/b@v1\nuses: a/b@v1\nuses: c/d\n")).map
          (fun o => (o.Action, o.RequestedRef))
        = [(chars "a/b", chars "v1"), (chars "a/b", chars "v1")] := by
  refine ⟨nodup_dedupFirstAux _, ?_, sublist_dedupFirstAux _,
    extractOccurrences_ref_ne_nil, by decide, by decide⟩
  intro a
  unfold extractActions
  rw [mem_dedupFirstAux]
  simp

/-- Witness for C9 at a concrete document and occurrence. -/
theorem extractActions_dedup_occurrences_not_witness :
    (chars "a/b" ∈ extractActions (chars "uses: a/b@v1\nuses: c/d\n")
        ↔ chars "a/b" ∈ rawActions (chars "uses: a/b@v1\nuses: c/d\n")) ∧
      (⟨chars "a", chars "b", chars "a/b", chars "v1", 0, 12, 9, 12, 1, 7⟩ : ActionOccurrence).RequestedRef
        ≠ [] :=
  ⟨(extractActions_dedup_occurrences_not (chars "uses: a/b@v1\nuses: c/d\n")).2.1 (chars "a/b"),
    (extractActions_dedup_occurrences_not (chars "uses: a/b@v1\nuses: c/d\n")).2.2.2.1
      ⟨chars "a", chars "b", chars "a/b", chars "v1", 0, 12, 9, 12, 1, 7⟩ (by decide)⟩

/-! Comparator laws for the semver model: the comparison functions are
total preorders, which the tag-selection maximality arguments need. -/

/-- A comparator is lawful when flipping arguments swaps the ordering and
gt/eq compose transitively. -/
def LawfulCmp {α : Type} (f : α → α → Ordering) : Prop :=
  (∀ x y, f y x = (f x y).swap) ∧
  (∀ x y z, f x y = .gt → f y z = .gt → f x z = .gt) ∧
  (∀ x y z, f x y = .eq → f y z = .gt → f x z = .gt) ∧
  (∀ x y z, f x y = .gt → f y z = .eq → f x z = .gt) ∧
  (∀ x y z, f x y = .eq → f y z = .eq → f x z = .eq)

theorem natCompare_lawful : LawfulCmp (compare : Nat → Nat → Ordering) := by
  refine ⟨?_, ?_, ?_, ?_, ?_⟩ <;> intro x y
  · rcases Nat.lt_trichotomy x y with h | h | h
    · rw [Nat.compare_eq_lt.mpr h, Nat.compare_eq_gt.mpr h]
      rfl
    · subst h
      rw [Nat.compare_eq_eq.mpr rfl]
      rfl
    · rw [Nat.compare_eq_gt.mpr h, Nat.compare_eq_lt.mpr h]
      rfl
  all_goals
    intro z h1 h2
    first
      | (rw [Nat.compare_eq_gt] at *
         try rw [Nat.compare_eq_eq] at h1
         try rw [Nat.compare_eq_eq] at h2
         omega)
      | (rw [Nat.compare_eq_eq] at *
         omega)

theorem lawful_precomp {α β : Type} (k : α → β) {f : β → β → Ordering}
    (H : LawfulCmp f) : LawfulCmp (fun x y => f (k x) (k y)) := by
  obtain ⟨h0, h1, h2, h3, h4⟩ := H
  exact ⟨fun x y => h0 (k x) (k y),
    fun x y z => h1 (k x) (k y) (k z),
    fun x y z => h2 (k x) (k y) (k z),
    fun x y z => h3 (k x) (k y) (k z),
    fun x y z => h4 (k x) (k y) (k z)⟩

theorem lawful_then {α : Type} {f g : α → α → Ordering}
    (Hf : LawfulCmp f) (Hg : LawfulCmp g) :
    LawfulCmp (fun x y => (f x y).then (g x y)) := by
  obtain ⟨f0, f1, f2, f3, f4⟩ := Hf
  obtain ⟨g0, g1, g2, g3, g4⟩ := Hg
  refine ⟨?_, ?_, ?_, ?_, ?_⟩
  · intro x y
    dsimp only
    rw [f0, g0]
    cases f x y <;> rfl
  all_goals
    intro x y z h1 h2
    dsimp only at h1 h2 ⊢
    rcases hfxy : f x y with _ | _ | _ <;> rw [hfxy] at h1 <;>
      rcases hfyz : f y z with _ | _ | _ <;> rw [hfyz] at h2 <;>
      (try simp only [Ordering.then] at h1) <;>
      (try simp only [Ordering.then] at h2) <;>
      first
        | exact absurd h1 (by decide)
        | exact absurd h2 (by decide)
        | (rw [f1 x y z hfxy hfyz]; rfl)
        | (rw [f2 x y z hfxy hfyz]; rfl)
        | (rw [f3 x y z hfxy hfyz]; rfl)
        | (rw [f4 x y z hfxy hfyz]
           first
             | exact g1 x y z h1 h2
             | exact g2 x y z h1 h2
             | exact g3 x y z h1 h2
             | exact g4 x y z h1 h2)

theorem lawful_lexListCmp {α : Type} {f : α → α → Ordering} (H : LawfulCmp f) :
    LawfulCmp (lexListCmp f) := by
  obtain ⟨f0, f1, f2, f3, f4⟩ := H
  refine ⟨?_, ?_, ?_, ?_, ?_⟩
  · intro x
    induction x with
    | nil => intro y; cases y <;> rfl
    | cons a as ih =>
      intro y
      cases y with
      | nil => rfl
      | cons b bs =>
        show (f b a).then (lexListCmp f bs as) = ((f a b).then (lexListCmp f as bs)).swap
        rw [f0, ih bs]
        cases f a b <;> rfl
  all_goals
    intro x
    induction x with
    | nil =>
      intro y z h1 h2
      cases y <;> cases z <;>
        (try simp only [lexListCmp] at h1) <;>
        (try simp only [lexListCmp] at h2) <;>
        first
          | rfl
          | exact Ordering.noConfusion h1
          | exact Ordering.noConfusion h2
          | exact h1.elim
          | exact h2.elim
    | cons a as ih =>
      intro y z h1 h2
      cases y with
      | nil =>
        cases z <;>
          (try simp only [lexListCmp] at h1) <;>
          (try simp only [lexListCmp] at h2) <;>
          first
            | rfl
            | exact Ordering.noConfusion h1
            | exact Ordering.noConfusion h2
            | exact h1.elim
            | exact h2.elim
      | cons b bs =>
        cases z with
        | nil =>
          (try simp only [lexListCmp] at h1) <;>
            (try simp only [lexListCmp] at h2) <;>
            first
              | rfl
              | exact Ordering.noConfusion h1
              | exact Ordering.noConfusion h2
              | exact h1.elim
              | exact h2.elim
        | cons c cs =>
          replace h1 : (f a b).then (lexListCmp f as bs) = _ := h1
          replace h2 : (f b c).then (lexListCmp f bs cs) = _ := h2
          show (f a c).then (lexListCmp f as cs) = _
          rcases hab : f a b with _ | _ | _ <;> rw [hab] at h1 <;>
            rcases hbc : f b c with _ | _ | _ <;> rw [hbc] at h2 <;>
            (try simp only [Ordering.then] at h1) <;>
            (try simp only [Ordering.then] at h2) <;>
            first
              | exact absurd h1 (by decide)
              | exact absurd h2 (by decide)
              | (rw [f1 a b c hab hbc]; rfl)
              | (rw [f2 a b c hab hbc]; rfl)
              | (rw [f3 a b c hab hbc]; rfl)
              | (rw [f4 a b c hab hbc]
                 exact ih bs cs h1 h2)

theorem strCmp_lawful : LawfulCmp strCmp :=
  lawful_lexListCmp (lawful_precomp Char.toNat natCompare_lawful)

theorem identCmp_lawful : LawfulCmp identCmp := by
  obtain ⟨n0, n1, n2, n3, n4⟩ := natCompare_lawful
  obtain ⟨s0, s1, s2, s3, s4⟩ := strCmp_lawful
  refine ⟨?_, ?_, ?_, ?_, ?_⟩
  · intro x y
    unfold identCmp
    by_cases dx : x.all isDigit <;> by_cases dy : y.all isDigit <;>
      simp [dx, dy] <;>
      first
        | exact n0 _ _
        | exact s0 _ _
        | rfl
  all_goals
    intro x y z h1 h2
    unfold identCmp at h1 h2 ⊢
    by_cases dx : x.all isDigit <;> by_cases dy : y.all isDigit <;>
      by_cases dz : z.all isDigit <;>
      (try simp [dx, dy, dz] at h1) <;>
      (try simp [dx, dy, dz] at h2) <;>
      (try simp [dx, dy, dz]) <;>
      first
        | exact Ordering.noConfusion h1
        | exact Ordering.noConfusion h2
        | exact n1 _ _ _ h1 h2
        | exact n2 _ _ _ h1 h2
        | exact n3 _ _ _ h1 h2
        | exact n4 _ _ _ h1 h2
        | exact s1 _ _ _ h1 h2
        | exact s2 _ _ _ h1 h2
        | exact s3 _ _ _ h1 h2
        | exact s4 _ _ _ h1 h2

theorem preListCmp_lawful : LawfulCmp preListCmp :=
  lawful_lexListCmp identCmp_lawful

theorem preCmp_lawful : LawfulCmp preCmp := by
  obtain ⟨p0, p1, p2, p3, p4⟩ := preListCmp_lawful
  refine ⟨?_, ?_, ?_, ?_, ?_⟩
  · intro x y
    cases x <;> cases y <;>
      first
        | rfl
        | exact p0 _ _
  all_goals
    intro x y z h1 h2
    cases x <;> cases y <;> cases z <;>
      (try simp only [preCmp] at h1) <;>
      (try simp only [preCmp] at h2) <;>
      (try simp only [preCmp]) <;>
      first
        | rfl
        | exact Ordering.noConfusion h1
        | exact Ordering.noConfusion h2
        | exact h1.elim
        | exact h2.elim
        | exact p1 _ _ _ h1 h2
        | exact p2 _ _ _ h1 h2
        | exact p3 _ _ _ h1 h2
        | exact p4 _ _ _ h1 h2

theorem semverCmp_lawful : LawfulCmp semverCmp := by
  have h4 : LawfulCmp (fun x y : SemVer => preCmp x.pre y.pre) :=
    lawful_precomp SemVer.pre preCmp_lawful
  have h3 : LawfulCmp (fun x y : SemVer =>
      (compare x.patch y.patch).then (preCmp x.pre y.pre)) :=
    lawful_then (lawful_precomp SemVer.patch natCompare_lawful) h4
  have h2 : LawfulCmp (fun x y : SemVer =>
      (compare x.minor y.minor).then
        ((compare x.patch y.patch).then (preCmp x.pre y.pre))) :=
    lawful_then (lawful_precomp SemVer.minor natCompare_lawful) h3
  have h1 : LawfulCmp (fun x y : SemVer =>
      (compare x.major y.major).then
        ((compare x.minor y.minor).then
          ((compare x.patch y.patch).then (preCmp x.pre y.pre)))) :=
    lawful_then (lawful_precomp SemVer.major natCompare_lawful) h2
  exact h1

theorem semverGT_iff {x y : SemVer} : semverGT x y = true ↔ semverCmp x y = .gt := by
  simp [semverGT]

theorem semverGT_trans {x y z : SemVer}
    (h1 : semverGT x y = true) (h2 : semverGT y z = true) : semverGT x z = true := by
  rw [semverGT_iff] at *
  exact semverCmp_lawful.2.1 x y z h1 h2

theorem semverGT_of_gt_of_not_gt {x y z : SemVer}
    (h1 : semverGT x y = true) (h2 : ¬ semverGT z y = true) : semverGT x z = true := by
  rw [semverGT_iff] at *
  obtain ⟨c0, c1, c2, c3, _⟩ := semverCmp_lawful
  rcases hzy : semverCmp z y with _ | _ | _
  · have hs := c0 z y
    rw [hzy] at hs
    rcases hyz : semverCmp y z with _ | _ | _ <;> rw [hyz] at hs
    · exact absurd hs (by decide)
    · exact absurd hs (by decide)
    · exact c1 x y z h1 hyz
  · have hs := c0 z y
    rw [hzy] at hs
    rcases hyz : semverCmp y z with _ | _ | _ <;> rw [hyz] at hs
    · exact absurd hs (by decide)
    · exact c3 x y z h1 hyz
    · exact absurd hs (by decide)
  · exact absurd hzy h2

theorem lawfulCmp_refl {α : Type} {f : α → α → Ordering} (H : LawfulCmp f) (x : α) :
    f x x = .eq := by
  have h := H.1 x x
  rcases hc : f x x with _ | _ | _ <;> rw [hc] at h <;>
    first
      | rfl
      | exact absurd h (by decide)

theorem semverGT_irrefl (x : SemVer) : ¬ semverGT x x = true := by
  rw [semverGT_iff, lawfulCmp_refl semverCmp_lawful x]
  decide

theorem blStep_parse_none {acc : Option (SemVer × Str)} {t : TagEntry}
    (hp : semverParse t.name = none) : blStep acc t = acc := by
  simp [blStep, hp]

theorem blStep_acc_none {t : TagEntry} {v : SemVer}
    (hp : semverParse t.name = some v) : blStep none t = some (v, t.name) := by
  simp [blStep, hp]

theorem blStep_gt {t : TagEntry} {v : SemVer} {bv0 : SemVer × Str}
    (hp : semverParse t.name = some v) (hgt : semverGT v bv0.1 = true) :
    blStep (some bv0) t = some (v, t.name) := by
  simp [blStep, hp, hgt]

theorem blStep_not_gt {t : TagEntry} {v : SemVer} {bv0 : SemVer × Str}
    (hp : semverParse t.name = some v) (hgt : ¬ semverGT v bv0.1 = true) :
    blStep (some bv0) t = some bv0 := by
  simp [blStep, hp, hgt]

/-- Specification of the best-semver fold: a none result means nothing
parsed; a some result is one of the offered tags (or the incumbent) and no
offered tag strictly exceeds it. -/
theorem blFold_spec : ∀ (tags : List TagEntry) (acc : Option (SemVer × Str)),
    (tags.foldl blStep acc = none → acc = none ∧ ∀ t ∈ tags, semverParse t.name = none) ∧
    (∀ bv, tags.foldl blStep acc = some bv →
      ((acc = some bv ∨ ∃ t ∈ tags, semverParse t.name = some bv.1 ∧ t.name = bv.2) ∧
        (∀ t ∈ tags, ∀ v, semverParse t.name = some v → ¬ semverGT v bv.1 = true) ∧
        (∀ av, acc = some av → ¬ semverGT av.1 bv.1 = true))) := by
  intro tags
  induction tags with
  | nil =>
    intro acc
    constructor
    · intro h
      exact ⟨h, by simp⟩
    · intro bv h
      refine ⟨Or.inl h, by simp, ?_⟩
      intro av hav
      rw [hav] at h
      injection h with h
      subst h
      exact semverGT_irrefl av.1
  | cons t ts ih =>
    intro acc
    rw [List.foldl_cons]
    obtain ⟨ihn, ihs⟩ := ih (blStep acc t)
    constructor
    · intro h
      obtain ⟨hstep, hts⟩ := ihn h
      rcases hp : semverParse t.name with _ | v
      · rw [blStep_parse_none hp] at hstep
        refine ⟨hstep, ?_⟩
        intro u hu
        rcases List.mem_cons.mp hu with rfl | hu2
        · exact hp
        · exact hts u hu2
      · rcases hacc0 : acc with _ | bv0
        · rw [hacc0, blStep_acc_none hp] at hstep
          exact absurd hstep (by simp)
        · by_cases hgt : semverGT v bv0.1 = true
          · rw [hacc0, blStep_gt hp hgt] at hstep
            exact absurd hstep (by simp)
          · rw [hacc0, blStep_not_gt hp hgt] at hstep
            exact absurd hstep (by simp)
    · intro bv h
      obtain ⟨horigin, hmax, haccstep⟩ := ihs bv h
      rcases hp : semverParse t.name with _ | v
      · rw [blStep_parse_none hp] at horigin haccstep
        refine ⟨?_, ?_, haccstep⟩
        · rcases horigin with hl | ⟨u, hu, h1, h2⟩
          · exact Or.inl hl
          · exact Or.inr ⟨u, List.mem_cons_of_mem t hu, h1, h2⟩
        · intro u hu v2 hv2
          rcases List.mem_cons.mp hu with rfl | hu2
          · rw [hp] at hv2
            exact absurd hv2 (by simp)
          · exact hmax u hu2 v2 hv2
      · rcases hacc0 : acc with _ | bv0
        · subst hacc0
          rw [blStep_acc_none hp] at horigin haccstep
          refine ⟨?_, ?_, ?_⟩
          · rcases horigin with hl | ⟨u, hu, h1, h2⟩
            · injection hl with hl
              subst hl
              exact Or.inr ⟨t, List.mem_cons_self t ts, by simp [hp], rfl⟩
            · exact Or.inr ⟨u, List.mem_cons_of_mem t hu, h1, h2⟩
          · intro u hu v2 hv2
            rcases List.mem_cons.mp hu with rfl | hu2
            · rw [hp] at hv2
              injection hv2 with hv2
              subst hv2
              exact haccstep (v, u.name) rfl
            · exact hmax u hu2 v2 hv2
          · intro av hav
            exact absurd hav (by simp)
        · subst hacc0
          by_cases hgt : semverGT v bv0.1 = true
          · rw [blStep_gt hp hgt] at horigin haccstep
            refine ⟨?_, ?_, ?_⟩
            · rcases horigin with hl | ⟨u, hu, h1, h2⟩
              · injection hl with hl
                subst hl
                exact Or.inr ⟨t, List.mem_cons_self t ts, by simp [hp], rfl⟩
              · exact Or.inr ⟨u, List.mem_cons_of_mem t hu, h1, h2⟩
            · intro u hu v2 hv2
              rcases List.mem_cons.mp hu with rfl | hu2
              · rw [hp] at hv2
                injection hv2 with hv2
                subst hv2
                exact haccstep (v, u.name) rfl
              · exact hmax u hu2 v2 hv2
            · intro av hav
              injection hav with hav
              subst hav
              have h1 := haccstep (v, t.name) rfl
              intro hc
              exact h1 (semverGT_trans hgt hc)
          · rw [blStep_not_gt hp hgt] at horigin haccstep
            refine ⟨?_, ?_, ?_⟩
            · rcases horigin with hl | ⟨u, hu, h1, h2⟩
              · exact Or.inl hl
              · exact Or.inr ⟨u, List.mem_cons_of_mem t hu, h1, h2⟩
            · intro u hu v2 hv2
              rcases List.mem_cons.mp hu with rfl | hu2
              · rw [hp] at hv2
                injection hv2 with hv2
                subst hv2
                intro hc
                exact hgt (semverGT_of_gt_of_not_gt hc (haccstep bv0 rfl))
              · exact hmax u hu2 v2 hv2
            · intro av hav
              injection hav with hav
              subst hav
              exact haccstep bv0 rfl

theorem smStep_parse_none {major : Int} {st : Option (SemVer × Str) × Bool} {t : TagEntry}
    (hp : semverParse t.name = none) : smStep major st t = st := by
  simp [smStep, hp]

theorem smStep_other_major {major : Int} {st : Option (SemVer × Str) × Bool} {t : TagEntry}
    {v : SemVer} (hp : semverParse t.name = some v) (hm : (v.major : Int) ≠ major) :
    smStep major st t = st := by
  simp [smStep, hp, hm]

theorem smStep_from_none {major : Int} {fl : Bool} {t : TagEntry} {v : SemVer}
    (hp : semverParse t.name = some v) (hm : (v.major : Int) = major) :
    smStep major (none, fl) t = (some (v, t.name), true) := by
  simp [smStep, hp, hm]

theorem smStep_gt {major : Int} {fl : Bool} {t : TagEntry} {v : SemVer} {bv0 : SemVer × Str}
    (hp : semverParse t.name = some v) (hm : (v.major : Int) = major)
    (hgt : semverGT v bv0.1 = true) :
    smStep major (some bv0, fl) t = (some (v, t.name), true) := by
  simp [smStep, hp, hm, hgt]

theorem smStep_not_gt {major : Int} {fl : Bool} {t : TagEntry} {v : SemVer} {bv0 : SemVer × Str}
    (hp : semverParse t.name = some v) (hm : (v.major : Int) = major)
    (hgt : ¬ semverGT v bv0.1 = true) :
    smStep major (some bv0, fl) t = (some bv0, true) := by
  simp [smStep, hp, hm, hgt]

theorem smStep_flag_mono {major : Int} {st : Option (SemVer × Str) × Bool} {t : TagEntry}
    (h : st.2 = true) : (smStep major st t).2 = true := by
  rcases st with ⟨a, fl⟩
  rcases hp : semverParse t.name with _ | v
  · rw [smStep_parse_none hp]
    exact h
  · by_cases hm : (v.major : Int) = major
    · rcases a with _ | bv0
      · rw [smStep_from_none hp hm]
      · by_cases hgt : semverGT v bv0.1 = true
        · rw [smStep_gt hp hm hgt]
        · rw [smStep_not_gt hp hm hgt]
    · rw [smStep_other_major hp hm]
      exact h

theorem smStep_flag_match {major : Int} {st : Option (SemVer × Str) × Bool} {t : TagEntry}
    {v : SemVer} (hp : semverParse t.name = some v) (hm : (v.major : Int) = major) :
    (smStep major st t).2 = true := by
  rcases st with ⟨a, fl⟩
  rcases a with _ | bv0
  · rw [smStep_from_none hp hm]
  · by_cases hgt : semverGT v bv0.1 = true
    · rw [smStep_gt hp hm hgt]
    · rw [smStep_not_gt hp hm hgt]

theorem smStep_flag_src {major : Int} {st : Option (SemVer × Str) × Bool} {t : TagEntry}
    (h : (smStep major st t).2 = true) :
    st.2 = true ∨ ∃ v, semverParse t.name = some v ∧ (v.major : Int) = major := by
  rcases st with ⟨a, fl⟩
  rcases hp : semverParse t.name with _ | v
  · rw [smStep_parse_none hp] at h
    exact Or.inl h
  · by_cases hm : (v.major : Int) = major
    · exact Or.inr ⟨v, rfl, hm⟩
    · rw [smStep_other_major hp hm] at h
      exact Or.inl h

theorem smFold_flag_mono {major : Int} : ∀ (tags : List TagEntry)
    (st0 : Option (SemVer × Str) × Bool), st0.2 = true →
    (tags.foldl (smStep major) st0).2 = true := by
  intro tags
  induction tags with
  | nil => intro st0 h; exact h
  | cons t ts ih =>
    intro st0 h
    rw [List.foldl_cons]
    exact ih _ (smStep_flag_mono h)

theorem smFold_flag_of_match {major : Int} : ∀ (tags : List TagEntry)
    (st0 : Option (SemVer × Str) × Bool),
    (∃ t ∈ tags, ∃ v, semverParse t.name = some v ∧ (v.major : Int) = major) →
    (tags.foldl (smStep major) st0).2 = true := by
  intro tags
  induction tags with
  | nil => intro st0 h; simp at h
  | cons t ts ih =>
    rintro st0 ⟨u, hu, v, hv, hm⟩
    rw [List.foldl_cons]
    rcases List.mem_cons.mp hu with rfl | hu2
    · exact smFold_flag_mono ts _ (smStep_flag_match hv hm)
    · exact ih _ ⟨u, hu2, v, hv, hm⟩

theorem smFold_flag_src {major : Int} : ∀ (tags : List TagEntry)
    (st0 : Option (SemVer × Str) × Bool),
    (tags.foldl (smStep major) st0).2 = true → st0.2 = true ∨
      ∃ t ∈ tags, ∃ v, semverParse t.name = some v ∧ (v.major : Int) = major := by
  intro tags
  induction tags with
  | nil => intro st0 h; exact Or.inl h
  | cons t ts ih =>
    intro st0 h
    rw [List.foldl_cons] at h
    rcases ih _ h with h1 | ⟨u, hu, v, hv, hm⟩
    · rcases smStep_flag_src h1 with h2 | ⟨v, hv, hm⟩
      · exact Or.inl h2
      · exact Or.inr ⟨t, List.mem_cons_self t ts, v, hv, hm⟩
    · exact Or.inr ⟨u, List.mem_cons_of_mem t hu, v, hv, hm⟩

/-- Specification of the best component of the same-major page fold,
mirroring blFold_spec with the major filter. -/
theorem smFold_spec (major : Int) : ∀ (tags : List TagEntry)
    (st0 : Option (SemVer × Str) × Bool),
    ((tags.foldl (smStep major) st0).1 = none → st0.1 = none ∧
      ∀ t ∈ tags, ∀ v, semverParse t.name = some v → (v.major : Int) ≠ major) ∧
    (∀ bv, (tags.foldl (smStep major) st0).1 = some bv →
      ((st0.1 = some bv ∨ ∃ t ∈ tags, semverParse t.name = some bv.1 ∧ t.name = bv.2 ∧
          (bv.1.major : Int) = major) ∧
        (∀ t ∈ tags, ∀ v, semverParse t.name = some v → (v.major : Int) = major →
          ¬ semverGT v bv.1 = true) ∧
        (∀ av, st0.1 = some av → ¬ semverGT av.1 bv.1 = true))) := by
  intro tags
  induction tags with
  | nil =>
    intro st0
    simp only [List.foldl_nil]
    refine ⟨fun h => ⟨h, by simp⟩, ?_⟩
    intro bv h
    refine ⟨Or.inl h, by simp, ?_⟩
    intro av hav
    rw [hav] at h
    injection h with h
    subst h
    exact semverGT_irrefl av.1
  | cons t ts ih =>
    intro st0
    rcases st0 with ⟨a, fl⟩
    rw [List.foldl_cons]
    obtain ⟨ihn, ihs⟩ := ih (smStep major (a, fl) t)
    rcases hp : semverParse t.name with _ | v
    · rw [smStep_parse_none hp] at ihn ihs ⊢
      constructor
      · intro h
        obtain ⟨h1, h2⟩ := ihn h
        refine ⟨h1, ?_⟩
        intro u hu v2 hv2
        rcases List.mem_cons.mp hu with rfl | hu2
        · rw [hp] at hv2
          exact absurd hv2 (by simp)
        · exact h2 u hu2 v2 hv2
      · intro bv h
        obtain ⟨horigin, hmax, haccstep⟩ := ihs bv h
        refine ⟨?_, ?_, haccstep⟩
        · rcases horigin with hl | ⟨u, hu, h1, h2, h3⟩
          · exact Or.inl hl
          · exact Or.inr ⟨u, List.mem_cons_of_mem t hu, h1, h2, h3⟩
        · intro u hu v2 hv2 hm2
          rcases List.mem_cons.mp hu with rfl | hu2
          · rw [hp] at hv2
            exact absurd hv2 (by simp)
          · exact hmax u hu2 v2 hv2 hm2
    · by_cases hm : (v.major : Int) = major
      · rcases a with _ | bv0
        · rw [smStep_from_none hp hm] at ihn ihs ⊢
          constructor
          · intro h
            obtain ⟨h1, _⟩ := ihn h
            exact absurd h1 (by simp)
          · intro bv h
            obtain ⟨horigin, hmax, haccstep⟩ := ihs bv h
            refine ⟨?_, ?_, ?_⟩
            · rcases horigin with hl | ⟨u, hu, h1, h2, h3⟩
              · dsimp only at hl
                injection hl with hl
                subst hl
                exact Or.inr ⟨t, List.mem_cons_self t ts, by simp [hp], rfl, hm⟩
              · exact Or.inr ⟨u, List.mem_cons_of_mem t hu, h1, h2, h3⟩
            · intro u hu v2 hv2 hm2
              rcases List.mem_cons.mp hu with rfl | hu2
              · rw [hp] at hv2
                injection hv2 with hv2
                subst hv2
                exact haccstep (v, u.name) rfl
              · exact hmax u hu2 v2 hv2 hm2
            · intro av hav
              dsimp only at hav ⊢
              exact absurd hav (by simp)
        · by_cases hgt : semverGT v bv0.1 = true
          · rw [smStep_gt hp hm hgt] at ihn ihs ⊢
            constructor
            · intro h
              obtain ⟨h1, _⟩ := ihn h
              exact absurd h1 (by simp)
            · intro bv h
              obtain ⟨horigin, hmax, haccstep⟩ := ihs bv h
              refine ⟨?_, ?_, ?_⟩
              · rcases horigin with hl | ⟨u, hu, h1, h2, h3⟩
                · dsimp only at hl
                  injection hl with hl
                  subst hl
                  exact Or.inr ⟨t, List.mem_cons_self t ts, by simp [hp], rfl, hm⟩
                · exact Or.inr ⟨u, List.mem_cons_of_mem t hu, h1, h2, h3⟩
              · intro u hu v2 hv2 hm2
                rcases List.mem_cons.mp hu with rfl | hu2
                · rw [hp] at hv2
                  injection hv2 with hv2
                  subst hv2
                  exact haccstep (v, u.name) rfl
                · exact hmax u hu2 v2 hv2 hm2
              · intro av hav
                dsimp only at hav
                injection hav with hav
                subst hav
                have h1 := haccstep (v, t.name) rfl
                intro hc
                exact h1 (semverGT_trans hgt hc)
          · rw [smStep_not_gt hp hm hgt] at ihn ihs ⊢
            constructor
            · intro h
              obtain ⟨h1, _⟩ := ihn h
              exact absurd h1 (by simp)
            · intro bv h
              obtain ⟨horigin, hmax, haccstep⟩ := ihs bv h
              refine ⟨?_, ?_, ?_⟩
              · rcases horigin with hl | ⟨u, hu, h1, h2, h3⟩
                · exact Or.inl hl
                · exact Or.inr ⟨u, List.mem_cons_of_mem t hu, h1, h2, h3⟩
              · intro u hu v2 hv2 hm2
                rcases List.mem_cons.mp hu with rfl | hu2
                · rw [hp] at hv2
                  injection hv2 with hv2
                  subst hv2
                  intro hc
                  exact hgt (semverGT_of_gt_of_not_gt hc (haccstep bv0 rfl))
                · exact hmax u hu2 v2 hv2 hm2
              · intro av hav
                dsimp only at hav
                injection hav with hav
                subst hav
                exact haccstep bv0 rfl
      · rw [smStep_other_major hp hm] at ihn ihs ⊢
        constructor
        · intro h
          obtain ⟨h1, h2⟩ := ihn h
          refine ⟨h1, ?_⟩
          intro u hu v2 hv2
          rcases List.mem_cons.mp hu with rfl | hu2
          · rw [hp] at hv2
            injection hv2 with hv2
            subst hv2
            exact hm
          · exact h2 u hu2 v2 hv2
        · intro bv h
          obtain ⟨horigin, hmax, haccstep⟩ := ihs bv h
          refine ⟨?_, ?_, haccstep⟩
          · rcases horigin with hl | ⟨u, hu, h1, h2, h3⟩
            · exact Or.inl hl
            · exact Or.inr ⟨u, List.mem_cons_of_mem t hu, h1, h2, h3⟩
          · intro u hu v2 hv2 hm2
            rcases List.mem_cons.mp hu with rfl | hu2
            · rw [hp] at hv2
              injection hv2 with hv2
              subst hv2
              exact absurd hm2 hm
            · exact hmax u hu2 v2 hv2 hm2

/-! Claim C5: the Latest-policy resolution chain. The code queries the
latest release first; on a plain 404 (or when the release tag fails to
resolve) it falls back to selectTagBySemverOrNewest — which issues exactly
one ListTags call (the zero-value page) and never follows NextPage, so the
selection ranges over the first page only, not the full tag list. -/

/-- A concrete oracle with two pages of tags whose highest semver tag sits
on the second page, refuting the full-tag-list reading of C5. -/
def apiTwoPages : API :=
  { getRef := fun _ _ ref =>
      if ref = chars "tags/v1.0.0" then
        ⟨some ⟨chars "commit", chars "1111111111111111111111111111111111111111"⟩, some 200, none⟩
      else if ref = chars "tags/v2.0.0" then
        ⟨some ⟨chars "commit", chars "2222222222222222222222222222222222222222"⟩, some 200, none⟩
      else ⟨none, some 404, some (chars "404")⟩
    getTag := fun _ _ _ => ⟨none, some (chars "not used")⟩
    listTags := fun _ _ page =>
      if page = 2 then ⟨[⟨chars "v2.0.0", none⟩], 0, true, none⟩
      else ⟨[⟨chars "v1.0.0", none⟩], 2, true, none⟩
    getLatestRelease := fun _ _ => ⟨none, some 404, some (chars "404 no release")⟩ }

/-- Counterexample to C5 as stated: with no release and tags split over
two pages (newest on the second), the code pins the best tag of the first
page (v1.0.0), although the full tag list reachable through NextPage
contains the strictly higher v2.0.0. -/
theorem latestPolicy_counterexample :
    (resolveActionForPolicy apiTwoPages (chars "a") (chars "b") [] false .Major 10).1.Version
        = chars "v1.0.0" ∧
      (resolveActionForPolicy apiTwoPages (chars "a") (chars "b") [] false .Major 10).1.Error
        = none ∧
      (⟨chars "v2.0.0", none⟩ : TagEntry) ∈
        (apiTwoPages.listTags (chars "a") (chars "b")
          ((apiTwoPages.listTags (chars "a") (chars "b") 0).nextPage)).tags ∧
      semverParse (chars "v2.0.0") = some ⟨2, 0, 0, []⟩ ∧
      semverParse (chars "v1.0.0") = some ⟨1, 0, 0, []⟩ ∧
      semverGT ⟨2, 0, 0, []⟩ ⟨1, 0, 0, []⟩ = true := by
  decide

/-- Claim C5 as amended: under policy Latest, resolution first queries the
latest published release and, if one exists and its tag resolves, pins its
tag's commit; if no release exists (a 404, not an error) or the release
tag fails to resolve, it falls back to one ListTags call (the zero-value
page, at most one page of tags — not the full tag list) and selects the
highest semver-parseable tag of that page; if no tag of the page parses as
semver, it selects the page's first tag as returned by the API. -/
theorem latestPolicy_first_page (api : API) (owner repo requestedRef : Str)
    (expandMajor : Bool) (fuel : Nat) :
    (∀ r sv, (api.getLatestRelease owner repo).err = none →
      (api.getLatestRelease owner repo).release = some r →
      resolveTagToCommitSHA api owner repo r.tagName = .ok sv →
      resolveActionForPolicy api owner repo requestedRef expandMajor .Major fuel
        = (⟨owner, repo, sv.2, sv.1, none⟩, none)) ∧
    ((api.getLatestRelease owner repo).err ≠ none →
      (api.getLatestRelease owner repo).status = some 404 →
      resolveActionForPolicy api owner repo requestedRef expandMajor .Major fuel
        = majorFallback api owner repo) ∧
    (∀ r e, (api.getLatestRelease owner repo).err = none →
      (api.getLatestRelease owner repo).release = some r →
      resolveTagToCommitSHA api owner repo r.tagName = .error e →
      resolveActionForPolicy api owner repo requestedRef expandMajor .Major fuel
        = majorFallback api owner repo) ∧
    (∀ e, (api.listTags owner repo 0).err = some e →
      majorFallback api owner repo = (⟨owner, repo, [], [], some e⟩, some e)) ∧
    ((api.listTags owner repo 0).err = none → (api.listTags owner repo 0).tags = [] →
      majorFallback api owner repo = (⟨owner, repo, [], [],
          some (chars "no tags found")⟩, some (chars "no tags found"))) ∧
    (∀ bv, (api.listTags owner repo 0).err = none →
      bestLoop (api.listTags owner repo 0).tags none = some bv →
      (∃ t ∈ (api.listTags owner repo 0).tags,
          semverParse t.name = some bv.1 ∧ t.name = bv.2) ∧
        (∀ t ∈ (api.listTags owner repo 0).tags, ∀ v,
          semverParse t.name = some v → ¬ semverGT v bv.1 = true) ∧
        ((api.listTags owner repo 0).tags ≠ [] →
          selectTagBySemverOrNewest api owner repo
            = resolveTagToCommitSHA api owner repo bv.2)) ∧
    ((api.listTags owner repo 0).err = none → (api.listTags owner repo 0).tags ≠ [] →
      bestLoop (api.listTags owner repo 0).tags none = none →
      selectTagBySemverOrNewest api owner repo
        = resolveTagToCommitSHA api owner repo
            ((api.listTags owner repo 0).tags.headD ⟨[], none⟩).name) := by
  have hpol1 : ¬(UpdatePolicy.Major = UpdatePolicy.Requested ∧ requestedRef ≠ []) := by
    simp
  have hpol2 : ¬(UpdatePolicy.Major = UpdatePolicy.SameMajor ∧ requestedRef ≠ []) := by
    simp
  have hred : resolveActionForPolicy api owner repo requestedRef expandMajor .Major fuel
      = (if (api.getLatestRelease owner repo).err = none ∧
            (api.getLatestRelease owner repo).release ≠ none then
          match resolveTagToCommitSHA api owner repo
              (relTagName (api.getLatestRelease owner repo).release) with
          | .ok sv => (⟨owner, repo, sv.2, sv.1, none⟩, none)
          | .error _ => majorFallback api owner repo
        else if (api.getLatestRelease owner repo).status ≠ none ∧
            (api.getLatestRelease owner repo).status ≠ some 404 then
          (⟨owner, repo, [], [], (api.getLatestRelease owner repo).err⟩,
            (api.getLatestRelease owner repo).err)
        else majorFallback api owner repo) := by
    unfold resolveActionForPolicy majorStep
    rw [if_neg hpol1, if_neg hpol2]
  refine ⟨?_, ?_, ?_, ?_, ?_, ?_, ?_⟩
  · intro r sv herr hrel hres
    rw [hred, if_pos ⟨herr, by rw [hrel]; simp⟩, hrel]
    show (match resolveTagToCommitSHA api owner repo r.tagName with
      | .ok sv => ((⟨owner, repo, sv.2, sv.1, none⟩ : ActionInfo), (none : Option Str))
      | .error _ => majorFallback api owner repo) = _
    rw [hres]
  · intro herr hstat
    rw [hred, if_neg (fun hc => herr hc.1), if_neg (by rw [hstat]; simp)]
  · intro r e herr hrel hres
    rw [hred, if_pos ⟨herr, by rw [hrel]; simp⟩, hrel]
    show (match resolveTagToCommitSHA api owner repo r.tagName with
      | .ok sv => ((⟨owner, repo, sv.2, sv.1, none⟩ : ActionInfo), (none : Option Str))
      | .error _ => majorFallback api owner repo) = _
    rw [hres]
  · intro e herr
    simp only [majorFallback, selectTagBySemverOrNewest]
    rw [herr]
  · intro herr htags
    simp only [majorFallback, selectTagBySemverOrNewest]
    rw [herr, if_pos htags]
  · intro bv herr hbest
    have hbest2 : (api.listTags owner repo 0).tags.foldl blStep none = some bv := hbest
    obtain ⟨horigin, hmax, _⟩ := (blFold_spec (api.listTags owner repo 0).tags none).2 bv hbest2
    refine ⟨?_, fun t ht v hv => hmax t ht v hv, ?_⟩
    · rcases horigin with hl | hr
      · exact absurd hl (by simp)
      · exact hr
    · intro hne
      simp only [selectTagBySemverOrNewest]
      rw [herr, if_neg hne, hbest]
  · intro herr hne hbest
    simp only [selectTagBySemverOrNewest]
    rw [herr, if_neg hne, hbest]

/-- Witness for the amended C5 at the concrete two-page oracle: the
missing release is a plain 404, so resolution equals the first-page
fallback. -/
theorem latestPolicy_first_page_witness :
    resolveActionForPolicy apiTwoPages (chars "a") (chars "b") [] false .Major 10
      = majorFallback apiTwoPages (chars "a") (chars "b") :=
  (latestPolicy_first_page apiTwoPages (chars "a") (chars "b") [] false 10).2.1
    (by decide) (by decide)

/-! Claim C4: where non-404 API errors are terminal. The code records
them only at the GetLatestRelease call (when a response is present); a
non-404 error from resolveTagToCommitSHA in the Requested branch falls
through to the Major logic instead of terminating the occurrence. -/

/-- A concrete oracle whose tag lookup for the requested ref fails with a
403 (not a 404), while the latest release resolves fine. -/
def apiSwallow : API :=
  { getRef := fun _ _ ref =>
      if ref = chars "tags/v1.2.3" then ⟨none, some 403, some (chars "403 rate limited")⟩
      else if ref = chars "tags/v9.0.0" then
        ⟨some ⟨chars "commit", chars "9999999999999999999999999999999999999999"⟩, some 200, none⟩
      else ⟨none, some 404, some (chars "404")⟩
    getTag := fun _ _ _ => ⟨none, some (chars "not used")⟩
    listTags := fun _ _ _ => ⟨[], 0, true, none⟩
    getLatestRelease := fun _ _ => ⟨some ⟨chars "v9.0.0"⟩, some 200, none⟩ }

/-- Counterexample to C4 as stated: under the Requested policy the tag
lookup fails with a non-404 error (HTTP 403), yet resolution is not
terminated with a recorded failure — it silently falls through to the
latest-release fallback and succeeds. -/
theorem non404_swallowed_counterexample :
    resolveTagToCommitSHA apiSwallow (chars "a") (chars "b") (chars "v1.2.3")
        = .error (chars "403 rate limited") ∧
      (apiSwallow.getRef (chars "a") (chars "b") (chars "tags/v1.2.3")).status = some 403 ∧
      ¬ (apiSwallow.getRef (chars "a") (chars "b") (chars "tags/v1.2.3")).status = some 404 ∧
      resolveActionForPolicy apiSwallow (chars "a") (chars "b") (chars "v1.2.3")
          false .Requested 10
        = (⟨chars "a", chars "b", chars "v9.0.0",
            chars "9999999999999999999999999999999999999999", none⟩, none) := by
  decide

/-- Claim C4 as amended: a non-404 error is terminal and recorded only at
the GetLatestRelease step (when a non-nil response accompanies it); a
non-404 error from the Requested branch's resolveTagToCommitSHA is
swallowed — resolution continues exactly as under the Major policy's
trailing step (unless the ref is already a full SHA); errors of the final
tag-selection fallback are recorded as that occurrence's failure. -/
theorem non404_terminal_only_at_release (api : API) (owner repo requestedRef : Str)
    (expandMajor : Bool) (fuel : Nat) :
    (¬((api.getLatestRelease owner repo).err = none ∧
        (api.getLatestRelease owner repo).release ≠ none) →
      (api.getLatestRelease owner repo).status ≠ none →
      (api.getLatestRelease owner repo).status ≠ some 404 →
      majorStep api owner repo
        = (⟨owner, repo, [], [], (api.getLatestRelease owner repo).err⟩,
          (api.getLatestRelease owner repo).err)) ∧
    (∀ e, requestedRef ≠ [] → ¬ isMovingMajorTag requestedRef = true →
      resolveTagToCommitSHA api owner repo requestedRef = .error e →
      ¬ isFullSHA requestedRef = true →
      resolveActionForPolicy api owner repo requestedRef expandMajor .Requested fuel
        = majorStep api owner repo) ∧
    (∀ e, selectTagBySemverOrNewest api owner repo = .error e →
      majorFallback api owner repo = (⟨owner, repo, [], [], some e⟩, some e)) := by
  refine ⟨?_, ?_, ?_⟩
  · intro h1 h2 h3
    simp only [majorStep]
    rw [if_neg h1, if_pos ⟨h2, h3⟩]
  · intro e hne hmov hres hsha
    have hm : movingMajorStep api owner repo requestedRef expandMajor fuel = none := by
      unfold movingMajorStep
      rw [if_neg hmov]
    have hr : requestedStep api owner repo requestedRef expandMajor fuel = none := by
      unfold requestedStep
      rw [hm]
      show (match resolveTagToCommitSHA api owner repo requestedRef with
        | .ok sv => some (⟨owner, repo, sv.2, sv.1, none⟩ : ActionInfo)
        | .error _ =>
          if isFullSHA requestedRef then some ⟨owner, repo, requestedRef, requestedRef, none⟩
          else none) = none
      rw [hres, if_neg hsha]
    unfold resolveActionForPolicy
    rw [if_pos ⟨rfl, hne⟩, hr, if_neg (by simp)]
  · intro e hsel
    unfold majorFallback
    rw [hsel]

/-- Witness for the amended C4 at the concrete oracle: the 403 on the
requested tag makes the Requested policy continue with the Major step. -/
theorem non404_terminal_only_at_release_witness :
    resolveActionForPolicy apiSwallow (chars "a") (chars "b") (chars "v1.2.3")
        false .Requested 10
      = majorStep apiSwallow (chars "a") (chars "b") :=
  (non404_terminal_only_at_release apiSwallow (chars "a") (chars "b") (chars "v1.2.3")
      false 10).2.1 (chars "403 rate limited") (by decide) (by decide) (by decide) (by decide)

/-! Claim C6: annotated-tag dereferencing. The code dereferences an
annotated tag only best-effort: when the dereference lookup fails or
yields a non-commit object, it falls back to the tag object's own SHA and
still reports success when that is non-empty. -/

/-- A concrete oracle whose ref points at an annotated tag object and
whose tag-object lookup fails. -/
def apiAnnotated : API :=
  { getRef := fun _ _ ref =>
      if ref = chars "tags/v1.0.0" then
        ⟨some ⟨chars "tag", chars "tttttttttttttttttttttttttttttttttttttttt"⟩, some 200, none⟩
      else ⟨none, some 404, some (chars "404")⟩
    getTag := fun _ _ _ => ⟨none, some (chars "boom")⟩
    listTags := fun _ _ _ => ⟨[], 0, true, none⟩
    getLatestRelease := fun _ _ => ⟨none, some 404, some (chars "404")⟩ }

/-- Counterexample to C6 as stated: the ref points at a tag object (an
annotated tag), the dereference lookup fails, and resolveTagToCommitSHA
nevertheless reports success with the tag object's own SHA. -/
theorem annotated_tag_counterexample :
    objType ((apiAnnotated.getRef (chars "a") (chars "b") (chars "tags/v1.0.0")).obj)
        = chars "tag" ∧
      (apiAnnotated.getTag (chars "a") (chars "b")
        (chars "tttttttttttttttttttttttttttttttttttttttt")).err ≠ none ∧
      resolveTagToCommitSHA apiAnnotated (chars "a") (chars "b") (chars "v1.0.0")
        = .ok (chars "tttttttttttttttttttttttttttttttttttttttt", chars "v1.0.0") := by
  decide

/-- Claim C6 as amended: when the ref points at a tag object and the
dereference lookup succeeds, yielding a non-nil tag object targeting a
commit with a non-empty SHA, the returned SHA is that underlying commit's
identifier; when the dereference lookup fails, or the tag object is nil,
or it targets a non-commit object or an empty SHA, the code keeps the tag
object's own SHA and reports success whenever that is non-empty; a
successful resolution never returns an empty identifier. -/
theorem annotated_tag_deref (api : API) (owner repo tagName sha0 : Str) :
    ((api.getRef owner repo (chars "tags/" ++ tagName)).err = none →
      resolveTagToCommitSHA api owner repo tagName
        = (if derefAnnotated api owner repo
              (objSha (api.getRef owner repo (chars "tags/" ++ tagName)).obj)
              (objType (api.getRef owner repo (chars "tags/" ++ tagName)).obj) = [] then
            .error (chars "no SHA found for tag " ++ tagName)
          else .ok (derefAnnotated api owner repo
              (objSha (api.getRef owner repo (chars "tags/" ++ tagName)).obj)
              (objType (api.getRef owner repo (chars "tags/" ++ tagName)).obj), tagName))) ∧
    (∀ tobj, (api.getTag owner repo sha0).err = none →
      (api.getTag owner repo sha0).tagObj = some tobj →
      tobj.typ = chars "commit" → tobj.sha ≠ [] →
      derefAnnotated api owner repo sha0 (chars "tag") = tobj.sha) ∧
    ((api.getTag owner repo sha0).err ≠ none →
      derefAnnotated api owner repo sha0 (chars "tag") = sha0) ∧
    ((api.getTag owner repo sha0).tagObj = none →
      derefAnnotated api owner repo sha0 (chars "tag") = sha0) ∧
    (∀ tobj, (api.getTag owner repo sha0).tagObj = some tobj →
      ¬(tobj.typ = chars "commit" ∧ tobj.sha ≠ []) →
      derefAnnotated api owner repo sha0 (chars "tag") = sha0) ∧
    (∀ typ, typ ≠ chars "tag" → derefAnnotated api owner repo sha0 typ = sha0) ∧
    (∀ sv, resolveTagToCommitSHA api owner repo tagName = .ok sv → sv.1 ≠ []) := by
  refine ⟨?_, ?_, ?_, ?_, ?_, ?_, ?_⟩
  · intro herr
    simp only [resolveTagToCommitSHA]
    rw [herr]
  · intro tobj herr htobj htyp hsha
    simp only [derefAnnotated]
    rw [if_true, herr, htobj]
    show (if tobj.typ = chars "commit" ∧ tobj.sha ≠ [] then tobj.sha else sha0) = tobj.sha
    rw [if_pos ⟨htyp, hsha⟩]
  · intro herr
    simp only [derefAnnotated]
    rw [if_true]
    rcases he : (api.getTag owner repo sha0).err with _ | e
    · exact absurd he herr
    · rfl
  · intro htobj
    simp only [derefAnnotated]
    rw [if_true]
    rcases he : (api.getTag owner repo sha0).err with _ | e
    · rw [htobj]
    · rfl
  · intro tobj htobj hneg
    simp only [derefAnnotated]
    rw [if_true]
    rcases he : (api.getTag owner repo sha0).err with _ | e
    · rw [htobj]
      show (if tobj.typ = chars "commit" ∧ tobj.sha ≠ [] then tobj.sha else sha0) = sha0
      rw [if_neg hneg]
    · rfl
  · intro typ htyp
    simp only [derefAnnotated]
    rw [if_neg htyp]
  · intro sv hok
    simp only [resolveTagToCommitSHA] at hok
    rcases he : (api.getRef owner repo (chars "tags/" ++ tagName)).err with _ | e <;>
      rw [he] at hok <;> dsimp only at hok
    · by_cases hz : derefAnnotated api owner repo
          (objSha (api.getRef owner repo (chars "tags/" ++ tagName)).obj)
          (objType (api.getRef owner repo (chars "tags/" ++ tagName)).obj) = []
      · rw [if_pos hz] at hok
        exact absurd hok (by simp)
      · rw [if_neg hz] at hok
        injection hok with hok
        rw [← hok]
        exact hz
    · split at hok <;> exact absurd hok (by simp)

/-- Witness for the amended C6 at a concrete oracle: the failing
dereference keeps the tag object's own SHA. -/
theorem annotated_tag_deref_witness :
    derefAnnotated apiAnnotated (chars "a") (chars "b")
        (chars "tttttttttttttttttttttttttttttttttttttttt") (chars "tag")
      = chars "tttttttttttttttttttttttttttttttttttttttt" :=
  (annotated_tag_deref apiAnnotated (chars "a") (chars "b") (chars "v1.0.0")
      (chars "tttttttttttttttttttttttttttttttttttttttt")).2.2.1 (by decide)

/-! Claim C7: SameMajor selection. The supporting lemmas show that the
best component of the page fold ignores the found-on-page flag, that a
page without same-major matches leaves the scan state unchanged, and that
the pagination loop with its early stop computes the fold over the full
page chain whenever same-major pages are contiguous. -/

theorem smStep_fst_flag (major : Int) (a : Option (SemVer × Str)) (b b' : Bool)
    (t : TagEntry) : (smStep major (a, b) t).1 = (smStep major (a, b') t).1 := by
  rcases hp : semverParse t.name with _ | v
  · rw [smStep_parse_none hp, smStep_parse_none hp]
  · by_cases hm : (v.major : Int) = major
    · rcases a with _ | bv0
      · rw [smStep_from_none hp hm, smStep_from_none hp hm]
      · by_cases hgt : semverGT v bv0.1 = true
        · rw [smStep_gt hp hm hgt, smStep_gt hp hm hgt]
        · rw [smStep_not_gt hp hm hgt, smStep_not_gt hp hm hgt]
    · rw [smStep_other_major hp hm, smStep_other_major hp hm]

theorem smFold_fst_flag (major : Int) : ∀ (tags : List TagEntry)
    (a : Option (SemVer × Str)) (b b' : Bool),
    (tags.foldl (smStep major) (a, b)).1 = (tags.foldl (smStep major) (a, b')).1 := by
  intro tags
  induction tags with
  | nil => intro a b b'; rfl
  | cons t ts ih =>
    intro a b b'
    rw [List.foldl_cons, List.foldl_cons]
    have h1 : smStep major (a, b) t = ((smStep major (a, b) t).1, (smStep major (a, b) t).2) :=
      rfl
    have h2 : smStep major (a, b') t
        = ((smStep major (a, b') t).1, (smStep major (a, b') t).2) := rfl
    rw [h1, h2, smStep_fst_flag major a b b' t]
    exact ih _ _ _

theorem smFold_no_match {major : Int} : ∀ (tags : List TagEntry)
    (st0 : Option (SemVer × Str) × Bool),
    (∀ t ∈ tags, ∀ v, semverParse t.name = some v → (v.major : Int) ≠ major) →
    tags.foldl (smStep major) st0 = st0 := by
  intro tags
  induction tags with
  | nil => intro st0 _; rfl
  | cons t ts ih =>
    intro st0 h
    rw [List.foldl_cons]
    have hstep : smStep major st0 t = st0 := by
      rcases hp : semverParse t.name with _ | v
      · exact smStep_parse_none hp
      · exact smStep_other_major hp (h t (List.mem_cons_self t ts) v hp)
    rw [hstep]
    exact ih st0 fun u hu v hv => h u (List.mem_cons_of_mem t hu) v hv

theorem pagesTags_foldl_no_match (api : API) (owner repo : Str) (major : Int) :
    ∀ (n k : Nat) (st0 : Option (SemVer × Str) × Bool),
    (∀ p, k ≤ p → p < k + n → ∀ t ∈ (api.listTags owner repo p).tags, ∀ v,
      semverParse t.name = some v → (v.major : Int) ≠ major) →
    (pagesTags api owner repo k n).foldl (smStep major) st0 = st0 := by
  intro n
  induction n with
  | zero => intro k st0 _; rfl
  | succ n ih =>
    intro k st0 h
    show ((api.listTags owner repo k).tags ++ pagesTags api owner repo (k + 1) n).foldl
        (smStep major) st0 = st0
    rw [List.foldl_append]
    rw [smFold_no_match (api.listTags owner repo k).tags st0
      (h k (Nat.le_refl k) (by omega))]
    exact ih (k + 1) st0 fun p hp1 hp2 => h p (by omega) (by omega)

theorem sameMajorLoop_run (api : API) (owner repo : Str) (major : Int) (N : Nat)
    (hwf : ∀ p, 1 ≤ p → p ≤ N →
      (api.listTags owner repo p).err = none ∧
      (api.listTags owner repo p).hasResp = true ∧
      (api.listTags owner repo p).nextPage = if p < N then p + 1 else 0)
    (hconv : ∀ p q r, 1 ≤ p → p ≤ q → q ≤ r → r ≤ N →
      pageHasMajor api owner repo major p → pageHasMajor api owner repo major r →
      pageHasMajor api owner repo major q) :
    ∀ (n k fuel : Nat) (b : Option (SemVer × Str)) (fp : Bool), k + n = N + 1 →
      1 ≤ k → k ≤ N → n ≤ fuel →
      (fp = true → ∃ p, 1 ≤ p ∧ p < k ∧ pageHasMajor api owner repo major p) →
      sameMajorLoop api owner repo major fuel k b fp
        = .ok ((pagesTags api owner repo k n).foldl (smStep major) (b, false)).1 := by
  intro n
  induction n with
  | zero => intro k fuel b fp hkn hk1 hkN; omega
  | succ n ih =>
    intro k fuel b fp hkn hk1 hkN hfuel hfp
    obtain ⟨herr, hresp, hnext⟩ := hwf k hk1 hkN
    cases fuel with
    | zero => omega
    | succ fuel =>
      simp only [sameMajorLoop]
      rw [herr]
      show (if (!(sameMajorPage major (api.listTags owner repo k).tags b).2 && fp) = true then
          Except.ok (sameMajorPage major (api.listTags owner repo k).tags b).1
        else
          if (!(api.listTags owner repo k).hasResp
              || decide ((api.listTags owner repo k).nextPage = 0)) = true then
            Except.ok (sameMajorPage major (api.listTags owner repo k).tags b).1
          else
            sameMajorLoop api owner repo major fuel (api.listTags owner repo k).nextPage
              (sameMajorPage major (api.listTags owner repo k).tags b).1
              (fp || (sameMajorPage major (api.listTags owner repo k).tags b).2))
        = Except.ok ((pagesTags api owner repo k (n + 1)).foldl (smStep major) (b, false)).1
      have hsplit : (pagesTags api owner repo k (n + 1)).foldl (smStep major) (b, false)
          = (pagesTags api owner repo (k + 1) n).foldl (smStep major)
            (sameMajorPage major (api.listTags owner repo k).tags b) := by
        show ((api.listTags owner repo k).tags ++ pagesTags api owner repo (k + 1) n).foldl
            (smStep major) (b, false) = _
        rw [List.foldl_append]
        rfl
      by_cases hstop : (!(sameMajorPage major (api.listTags owner repo k).tags b).2 && fp)
          = true
      · rw [if_pos hstop]
        simp only [Bool.and_eq_true, Bool.not_eq_true'] at hstop
        obtain ⟨hflag2, hfptrue⟩ := hstop
        obtain ⟨p0, hp01, hp0k, hp0M⟩ := hfp hfptrue
        have hnomatchk : ∀ q, k ≤ q → q ≤ N → ∀ t ∈ (api.listTags owner repo q).tags, ∀ v,
            semverParse t.name = some v → (v.major : Int) ≠ major := by
          intro q hq1 hq2 t ht v hv hm
          have hkM : pageHasMajor api owner repo major k :=
            hconv p0 k q hp01 (by omega) hq1 hq2 hp0M ⟨t, ht, v, hv, hm⟩
          obtain ⟨u, hu, w, hw, hwM⟩ := hkM
          have hf : (sameMajorPage major (api.listTags owner repo k).tags b).2 = true :=
            smFold_flag_of_match (api.listTags owner repo k).tags (b, false)
              ⟨u, hu, w, hw, hwM⟩
          rw [hflag2] at hf
          exact Bool.noConfusion hf
        rw [hsplit]
        rw [pagesTags_foldl_no_match api owner repo major n (k + 1) _
          (fun p hp1 hp2 => hnomatchk p (by omega) (by omega))]
      · rw [if_neg hstop]
        by_cases hlast : k < N
        · have hnext0 : (api.listTags owner repo k).nextPage = k + 1 := by
            rw [hnext, if_pos hlast]
          rw [if_neg (by rw [hresp, hnext0]; simp)]
          rw [hnext0]
          have hfp2 : (fp || (sameMajorPage major (api.listTags owner repo k).tags b).2)
              = true → ∃ p, 1 ≤ p ∧ p < k + 1 ∧ pageHasMajor api owner repo major p := by
            intro hor
            rw [Bool.or_eq_true] at hor
            rcases hor with h1 | h2
            · obtain ⟨p0, hp01, hp0k, hp0M⟩ := hfp h1
              exact ⟨p0, hp01, by omega, hp0M⟩
            · rcases smFold_flag_src (api.listTags owner repo k).tags (b, false) h2 with
                hf | ⟨u, hu, w, hw, hwM⟩
              · exact Bool.noConfusion hf
              · exact ⟨k, hk1, by omega, u, hu, w, hw, hwM⟩
          rw [ih (k + 1) fuel (sameMajorPage major (api.listTags owner repo k).tags b).1
            (fp || (sameMajorPage major (api.listTags owner repo k).tags b).2)
            (by omega) (by omega) (by omega) (by omega) hfp2]
          rw [hsplit]
          have heta : sameMajorPage major (api.listTags owner repo k).tags b
              = ((sameMajorPage major (api.listTags owner repo k).tags b).1,
                (sameMajorPage major (api.listTags owner repo k).tags b).2) := rfl
          rw [heta, smFold_fst_flag]
        · have hn0 : n = 0 := by omega
          have hnext0 : (api.listTags owner repo k).nextPage = 0 := by
            rw [hnext, if_neg hlast]
          rw [if_pos (by rw [hresp, hnext0]; simp)]
          rw [hsplit, hn0]
          rfl

/-- Claim C7: under the SameMajor policy with parseable major, the
selection over a finite well-formed page chain with contiguous same-major
pages is the highest same-major tag of the whole chain: the chosen tag is
a member of the full tag list, parses with the requested major (never
another major, however late or high in list order), no same-major tag of
the list exceeds it, and the result resolves that tag to its commit; the
early-stop pagination does not change the selection. -/
theorem sameMajor_selects_highest_of_major (api : API) (owner repo : Str) (major : Int)
    (N fuel : Nat) (hN : 1 ≤ N) (hfuel : N ≤ fuel)
    (hwf : ∀ p, 1 ≤ p → p ≤ N →
      (api.listTags owner repo p).err = none ∧
      (api.listTags owner repo p).hasResp = true ∧
      (api.listTags owner repo p).nextPage = if p < N then p + 1 else 0)
    (hconv : ∀ p q r, 1 ≤ p → p ≤ q → q ≤ r → r ≤ N →
      pageHasMajor api owner repo major p → pageHasMajor api owner repo major r →
      pageHasMajor api owner repo major q)
    (hex : ∃ t ∈ pagesTags api owner repo 1 N, ∃ v,
      semverParse t.name = some v ∧ (v.major : Int) = major) :
    ∃ bv : SemVer × Str,
      selectTagBySameMajor api owner repo major fuel
          = resolveTagToCommitSHA api owner repo bv.2 ∧
      (∃ t ∈ pagesTags api owner repo 1 N, t.name = bv.2) ∧
      semverParse bv.2 = some bv.1 ∧
      (bv.1.major : Int) = major ∧
      (∀ t ∈ pagesTags api owner repo 1 N, ∀ v, semverParse t.name = some v →
        (v.major : Int) = major → ¬ semverGT v bv.1 = true) := by
  have hloop := sameMajorLoop_run api owner repo major N hwf hconv N 1 fuel none false
    (by omega) (by omega) hN (by omega) (by intro h; exact Bool.noConfusion h)
  obtain ⟨specn, specs⟩ := smFold_spec major (pagesTags api owner repo 1 N) (none, false)
  rcases hres : ((pagesTags api owner repo 1 N).foldl (smStep major)
      ((none : Option (SemVer × Str)), false)).1 with _ | bv
  · obtain ⟨_, hall⟩ := specn hres
    obtain ⟨t, ht, v, hv, hm⟩ := hex
    exact absurd hm (hall t ht v hv)
  · obtain ⟨horigin, hmax, _⟩ := specs bv hres
    have horig2 : ∃ t ∈ pagesTags api owner repo 1 N, semverParse t.name = some bv.1 ∧
        t.name = bv.2 ∧ (bv.1.major : Int) = major := by
      rcases horigin with hl | h2
      · exact absurd hl (by simp)
      · exact h2
    obtain ⟨t, ht, htp, htn, htM⟩ := horig2
    have hparse : semverParse bv.2 = some bv.1 := htn ▸ htp
    have hne : bv.2 ≠ [] := by
      intro h0
      have hnil : semverParse ([] : Str) = none := by decide
      rw [h0, hnil] at hparse
      exact Option.noConfusion hparse
    refine ⟨bv, ?_, ⟨t, ht, htn⟩, hparse, htM, hmax⟩
    unfold selectTagBySameMajor
    rw [hloop, hres]
    show (if bv.2 = [] then Except.error (chars "no tags found for major "
        ++ Nat.toDigits 10 major.toNat)
      else resolveTagToCommitSHA api owner repo bv.2)
      = resolveTagToCommitSHA api owner repo bv.2
    rw [if_neg hne]

/-- A concrete two-page oracle for the SameMajor selection: page 1 holds
v3.0.0 and v2.5.0, page 2 holds v2.1.0 and v1.9.9, so the major-2 tags
span both pages contiguously and the best major-2 tag sits on page 1
below a numerically higher major-3 tag. -/
def apiSameMajor : API :=
  { getRef := fun _ _ ref =>
      if ref = chars "tags/v2.5.0" then
        ⟨some ⟨chars "commit", chars "2525252525252525252525252525252525252525"⟩,
          some 200, none⟩
      else ⟨none, some 404, some (chars "404")⟩
    getTag := fun _ _ _ => ⟨none, some (chars "unused")⟩
    listTags := fun _ _ page =>
      if page = 1 then ⟨[⟨chars "v3.0.0", none⟩, ⟨chars "v2.5.0", none⟩], 2, true, none⟩
      else if page = 2 then ⟨[⟨chars "v2.1.0", none⟩, ⟨chars "v1.9.9", none⟩], 0, true, none⟩
      else ⟨[], 0, true, none⟩
    getLatestRelease := fun _ _ => ⟨none, some 404, none⟩ }

/-- Witness for C7 at the two-page oracle: the selection with requested
major 2 picks a major-2 tag of the full two-page list that no other
major-2 tag exceeds, and resolves it, despite the higher major-3 tag
heading page 1. -/
theorem sameMajor_selects_highest_of_major_witness :
    ∃ bv : SemVer × Str,
      selectTagBySameMajor apiSameMajor (chars "a") (chars "b") 2 10
          = resolveTagToCommitSHA apiSameMajor (chars "a") (chars "b") bv.2 ∧
      (∃ t ∈ pagesTags apiSameMajor (chars "a") (chars "b") 1 2, t.name = bv.2) ∧
      semverParse bv.2 = some bv.1 ∧
      (bv.1.major : Int) = 2 ∧
      (∀ t ∈ pagesTags apiSameMajor (chars "a") (chars "b") 1 2, ∀ v,
        semverParse t.name = some v → (v.major : Int) = 2 →
        ¬ semverGT v bv.1 = true) :=
  sameMajor_selects_highest_of_major apiSameMajor (chars "a") (chars "b") 2 2 10
    (by decide) (by decide)
    (by
      intro p h1 h2
      interval_cases p
      · exact ⟨by decide, by decide, by decide⟩
      · exact ⟨by decide, by decide, by decide⟩)
    (by
      intro p q r h1 h2 h3 h4 hp hr
      have hq1 : 1 ≤ q := le_trans h1 h2
      have hq2 : q ≤ 2 := le_trans h3 h4
      interval_cases q
      · exact ⟨⟨chars "v2.5.0", none⟩, by decide, ⟨2, 5, 0, []⟩, by decide, by decide⟩
      · exact ⟨⟨chars "v2.1.0", none⟩, by decide, ⟨2, 1, 0, []⟩, by decide, by decide⟩)
    ⟨⟨chars "v2.5.0", none⟩, by decide, ⟨2, 5, 0, []⟩, by decide, by decide⟩

/-! Claim C8: the resolution cache. The invariant lemmas relate the
cache contents to the processed history: a lookup serves exactly the
first successful resolution of the key in the history. -/

theorem firstSuccessFor_append (res : ActionOccurrence → ActionInfo) (policy : UpdatePolicy)
    (key : Str) : ∀ (h : List ActionOccurrence) (o : ActionOccurrence),
    firstSuccessFor res policy key (h ++ [o])
      = match firstSuccessFor res policy key h with
        | some i => some i
        | none =>
          if cacheKey o.Owner o.Repo policy o.RequestedRef = key ∧ (res o).Error = none
          then some (res o) else none := by
  intro h
  induction h with
  | nil => intro o; rfl
  | cons a h ih =>
    intro o
    show (if cacheKey a.Owner a.Repo policy a.RequestedRef = key ∧ (res a).Error = none
      then some (res a) else firstSuccessFor res policy key (h ++ [o])) = _
    by_cases hca : cacheKey a.Owner a.Repo policy a.RequestedRef = key ∧ (res a).Error = none
    · rw [if_pos hca]
      show _ = (match (if cacheKey a.Owner a.Repo policy a.RequestedRef = key ∧
          (res a).Error = none then some (res a)
          else firstSuccessFor res policy key h : Option ActionInfo) with
        | some i => some i
        | none =>
          if cacheKey o.Owner o.Repo policy o.RequestedRef = key ∧ (res o).Error = none
          then some (res o) else none)
      rw [if_pos hca]
    · rw [if_neg hca]
      rw [ih o]
      show _ = (match (if cacheKey a.Owner a.Repo policy a.RequestedRef = key ∧
          (res a).Error = none then some (res a)
          else firstSuccessFor res policy key h : Option ActionInfo) with
        | some i => some i
        | none =>
          if cacheKey o.Owner o.Repo policy o.RequestedRef = key ∧ (res o).Error = none
          then some (res o) else none)
      rw [if_neg hca]

theorem orchInv_extend (res : ActionOccurrence → ActionInfo) (policy : UpdatePolicy)
    (h : List ActionOccurrence) (cache : List (Str × ActionInfo × Bool))
    (o : ActionOccurrence)
    (hinv : ∀ key, firstSuccessFor res policy key h = servedOf (lookupCache key cache))
    (hnone : firstSuccessFor res policy (cacheKey o.Owner o.Repo policy o.RequestedRef) h
      = none) :
    ∀ key, firstSuccessFor res policy key (h ++ [o])
      = servedOf (lookupCache key
          ((cacheKey o.Owner o.Repo policy o.RequestedRef, res o,
            decide ((res o).Error = none)) :: cache)) := by
  intro key
  rw [firstSuccessFor_append]
  show _ = servedOf (if cacheKey o.Owner o.Repo policy o.RequestedRef = key
    then some (res o, decide ((res o).Error = none)) else lookupCache key cache)
  by_cases hkey : cacheKey o.Owner o.Repo policy o.RequestedRef = key
  · rw [if_pos hkey, ← hkey, hnone]
    by_cases hok : (res o).Error = none
    · rw [if_pos ⟨rfl, hok⟩]
      simp [servedOf, hok]
    · rw [if_neg (fun hc => hok hc.2)]
      simp [servedOf, hok]
  · rw [if_neg hkey, ← hinv key]
    rcases hfs : firstSuccessFor res policy key h with _ | i
    · rw [if_neg (fun hc => hkey hc.1)]
    · rfl

theorem orchInv_keep (res : ActionOccurrence → ActionInfo) (policy : UpdatePolicy)
    (h : List ActionOccurrence) (cache : List (Str × ActionInfo × Bool))
    (o : ActionOccurrence) (i : ActionInfo)
    (hinv : ∀ key, firstSuccessFor res policy key h = servedOf (lookupCache key cache))
    (hsome : firstSuccessFor res policy (cacheKey o.Owner o.Repo policy o.RequestedRef) h
      = some i) :
    ∀ key, firstSuccessFor res policy key (h ++ [o])
      = servedOf (lookupCache key cache) := by
  intro key
  rw [firstSuccessFor_append, ← hinv key]
  rcases hfs : firstSuccessFor res policy key h with _ | j
  · have hnc : ¬ (cacheKey o.Owner o.Repo policy o.RequestedRef = key ∧
        (res o).Error = none) := by
      intro hc
      rw [hc.1, hfs] at hsome
      exact Option.noConfusion hsome
    rw [if_neg hnc]
  · rfl

theorem orchLoop_eq_orchSpec (res : ActionOccurrence → ActionInfo) (policy : UpdatePolicy) :
    ∀ (occs h : List ActionOccurrence) (cache : List (Str × ActionInfo × Bool)),
    (∀ key, firstSuccessFor res policy key h = servedOf (lookupCache key cache)) →
    orchLoop res policy occs cache = orchSpec res policy h occs := by
  intro occs
  induction occs with
  | nil => intro h cache hinv; rfl
  | cons o rest ih =>
    intro h cache hinv
    have hKinv := hinv (cacheKey o.Owner o.Repo policy o.RequestedRef)
    simp only [orchLoop, orchSpec]
    rcases hl : lookupCache (cacheKey o.Owner o.Repo policy o.RequestedRef) cache with _ | e
    · rw [hl] at hKinv
      have hfsnone : firstSuccessFor res policy
          (cacheKey o.Owner o.Repo policy o.RequestedRef) h = none := hKinv
      rw [hfsnone]
      show res o :: orchLoop res policy rest
          ((cacheKey o.Owner o.Repo policy o.RequestedRef, res o,
            decide ((res o).Error = none)) :: cache)
        = res o :: orchSpec res policy (h ++ [o]) rest
      rw [ih (h ++ [o]) _ (orchInv_extend res policy h cache o hinv hfsnone)]
    · rcases e with ⟨i, b⟩
      rw [hl] at hKinv
      cases b with
      | true =>
        have hfssome : firstSuccessFor res policy
            (cacheKey o.Owner o.Repo policy o.RequestedRef) h = some i := hKinv
        rw [hfssome]
        show i :: orchLoop res policy rest cache
          = i :: orchSpec res policy (h ++ [o]) rest
        rw [ih (h ++ [o]) cache (orchInv_keep res policy h cache o i hinv hfssome)]
      | false =>
        have hfsnone : firstSuccessFor res policy
            (cacheKey o.Owner o.Repo policy o.RequestedRef) h = none := hKinv
        rw [hfsnone]
        show res o :: orchLoop res policy rest
            ((cacheKey o.Owner o.Repo policy o.RequestedRef, res o,
              decide ((res o).Error = none)) :: cache)
          = res o :: orchSpec res policy (h ++ [o]) rest
        rw [ih (h ++ [o]) _ (orchInv_extend res policy h cache o hinv hfsnone)]

/-- A concrete oracle for the cache-key collision: resolving repo b under
the Major policy fails with a recorded non-404 error, while repo b|0|c
succeeds through its latest release. -/
def apiCollide : API :=
  { getRef := fun _ repo ref =>
      if repo = chars "b|0|c" ∧ ref = chars "tags/v1.0.0" then
        ⟨some ⟨chars "commit", chars "1111111111111111111111111111111111111111"⟩,
          some 200, none⟩
      else ⟨none, some 404, some (chars "404")⟩
    getTag := fun _ _ _ => ⟨none, some (chars "unused")⟩
    listTags := fun _ _ _ => ⟨[], 0, true, none⟩
    getLatestRelease := fun _ repo =>
      if repo = chars "b" then ⟨none, some 500, some (chars "boom")⟩
      else ⟨some ⟨chars "v1.0.0"⟩, some 200, none⟩ }

/-- Occurrence of a/b@c|0|r: its Major-policy resolution fails. -/
def occColA : ActionOccurrence :=
  ⟨chars "a", chars "b", chars "a/b", chars "c|0|r", 0, 0, 0, 0, 1, 1⟩

/-- Occurrence of a/b|0|c@r: its Major-policy resolution succeeds, and its
cache key string collides with occColA's. -/
def occColB : ActionOccurrence :=
  ⟨chars "a", chars "b|0|c", chars "a/b|0|c", chars "r", 0, 0, 0, 0, 2, 1⟩

/-- Counterexample to C8 as stated: the cache key is the formatted string,
not the (owner, repo, policy, requestedRef) tuple, and two distinct tuples
collide; after the first occurrence's resolution fails and the colliding
second occurrence succeeds, the third occurrence — identical to the first,
whose resolution failed — is NOT re-issued: it is served the cached
success of the other tuple, down to the other repository's name in the
served ActionInfo. -/
theorem cache_tuple_key_counterexample :
    cacheKey (chars "a") (chars "b") .Major (chars "c|0|r")
        = cacheKey (chars "a") (chars "b|0|c") .Major (chars "r") ∧
    ¬ (occColA.Repo = occColB.Repo ∧ occColA.RequestedRef = occColB.RequestedRef) ∧
    (resolveActionForPolicy apiCollide occColA.Owner occColA.Repo occColA.RequestedRef
        false .Major 10).1.Error = some (chars "boom") ∧
    (resolveActionForPolicy apiCollide occColB.Owner occColB.Repo occColB.RequestedRef
        false .Major 10).1.Error = none ∧
    getActionInfosForOccurrences apiCollide [occColA, occColB, occColA] false .Major 10
      = [⟨chars "a", chars "b", [], [], some (chars "boom")⟩,
         ⟨chars "a", chars "b|0|c", chars "v1.0.0",
           chars "1111111111111111111111111111111111111111", none⟩,
         ⟨chars "a", chars "b|0|c", chars "v1.0.0",
           chars "1111111111111111111111111111111111111111", none⟩] := by
  decide

/-- Claim C8 as amended: the cache is keyed by the formatted key string
(so distinct tuples may collide); only entries stored after a successful
resolution are ever served, and in the sequentialized orchestrator each
occurrence receives the resolution of the first earlier occurrence with
the same key string that succeeded — re-issuing the full resolution when
no earlier same-key occurrence succeeded, so stored failures are never
returned. -/
theorem cache_serves_first_success (api : API) (occs : List ActionOccurrence)
    (expandMajor : Bool) (policy : UpdatePolicy) (fuel : Nat) :
    getActionInfosForOccurrences api occs expandMajor policy fuel
      = orchSpec (fun occ => (resolveActionForPolicy api occ.Owner occ.Repo occ.RequestedRef
          expandMajor policy fuel).1) policy [] occs :=
  orchLoop_eq_orchSpec _ policy occs [] [] (fun _ => rfl)

/-! Claim C10: successful resolutions carry usable pin data. The helper
lemmas trace every success path of resolveActionForPolicy back to a
non-empty tag name and a non-empty resolved SHA. -/

theorem hex_not_ws (c : Char)
    (h : (isDigit c || ('a' ≤ c && c ≤ 'f') || ('A' ≤ c && c ≤ 'F')) = true) :
    (!(isWS c)) = true := by
  cases hws : isWS c
  · rfl
  · exfalso
    simp only [isWS, Bool.or_eq_true, decide_eq_true_eq] at hws
    rcases hws with ((((h1 | h1) | h1) | h1) | h1) <;> subst h1 <;> exact absurd h (by decide)

theorem all_imp (p q : Char → Bool) (hpq : ∀ c, p c = true → q c = true) :
    ∀ (l : Str), l.all p = true → l.all q = true := by
  intro l hl
  rw [List.all_eq_true] at hl ⊢
  exact fun c hc => hpq c (hl c hc)

theorem dropWhile_all_not (l : Str) (h : l.all (fun c => !(isWS c)) = true) :
    l.dropWhile (fun c => isWS c) = l := by
  cases l with
  | nil => rfl
  | cons c cs =>
    rw [List.all_cons, Bool.and_eq_true] at h
    obtain ⟨h1, h2⟩ := h
    rw [Bool.not_eq_true'] at h1
    simp [List.dropWhile, h1]

theorem trimSpace_no_ws (s : Str) (h : s.all (fun c => !(isWS c)) = true) :
    trimSpace s = s := by
  unfold trimSpace
  rw [dropWhile_all_not s h]
  rw [dropWhile_all_not s.reverse (by rw [List.all_reverse]; exact h)]
  rw [List.reverse_reverse]

theorem normalizeMajorRef_ne_nil (ref : Str) : normalizeMajorRef ref ≠ [] := by
  unfold normalizeMajorRef
  split
  · exact List.cons_ne_nil _ _
  · exact List.cons_ne_nil _ _

theorem headD_mem {l : List TagEntry} (h : l ≠ []) (d : TagEntry) : l.headD d ∈ l := by
  cases l with
  | nil => exact absurd rfl h
  | cons a l => exact List.mem_cons_self a l

theorem derefAnnotated_ws (api : API) (owner repo sha0 typ : Str)
    (hsha0 : sha0.all (fun c => !(isWS c)) = true)
    (htagws : ∀ sha tob, (api.getTag owner repo sha).tagObj = some tob →
      tob.sha.all (fun c => !(isWS c)) = true) :
    (derefAnnotated api owner repo sha0 typ).all (fun c => !(isWS c)) = true := by
  unfold derefAnnotated
  by_cases htyp : typ = chars "tag"
  · rw [if_pos htyp]
    rcases herr : (api.getTag owner repo sha0).err with _ | e
    · rcases hobj : (api.getTag owner repo sha0).tagObj with _ | tobj
      · simp only [herr, hobj]
        exact hsha0
      · simp only [herr, hobj]
        by_cases hcommit : tobj.typ = chars "commit" ∧ tobj.sha ≠ []
        · rw [if_pos hcommit]
          exact htagws sha0 tobj hobj
        · rw [if_neg hcommit]
          exact hsha0
    · simp only [herr]
      exact hsha0
  · rw [if_neg htyp]
    exact hsha0

theorem resolveTagToCommitSHA_ok_facts (api : API) (owner repo tag : Str) (sv : Str × Str)
    (hrefws : ∀ ref ob, (api.getRef owner repo ref).obj = some ob →
      ob.sha.all (fun c => !(isWS c)) = true)
    (htagws : ∀ sha tob, (api.getTag owner repo sha).tagObj = some tob →
      tob.sha.all (fun c => !(isWS c)) = true)
    (h : resolveTagToCommitSHA api owner repo tag = .ok sv) :
    sv.1 ≠ [] ∧ sv.2 = tag ∧ sv.1.all (fun c => !(isWS c)) = true := by
  simp only [resolveTagToCommitSHA] at h
  rcases herr : (api.getRef owner repo (chars "tags/" ++ tag)).err with _ | e
  · simp only [herr] at h
    by_cases hsha : derefAnnotated api owner repo
        (objSha (api.getRef owner repo (chars "tags/" ++ tag)).obj)
        (objType (api.getRef owner repo (chars "tags/" ++ tag)).obj) = []
    · rw [if_pos hsha] at h
      exact Except.noConfusion h
    · rw [if_neg hsha] at h
      injection h with h
      subst h
      refine ⟨hsha, rfl, ?_⟩
      refine derefAnnotated_ws api owner repo _ _ ?_ htagws
      rcases hobj : (api.getRef owner repo (chars "tags/" ++ tag)).obj with _ | ob
      · rw [objSha]
        rfl
      · rw [objSha]
        exact hrefws _ ob hobj
  · simp only [herr] at h
    by_cases h404 : (api.getRef owner repo (chars "tags/" ++ tag)).status = some 404
    · rw [if_pos h404] at h
      exact Except.noConfusion h
    · rw [if_neg h404] at h
      exact Except.noConfusion h

theorem tryCandidates_ok (api : API) (owner repo : Str) : ∀ (cs : List Str) (sv : Str × Str),
    tryCandidates api owner repo cs = .ok sv →
    ∃ c ∈ cs, resolveTagToCommitSHA api owner repo c = .ok sv := by
  intro cs
  induction cs with
  | nil => intro sv h; exact Except.noConfusion h
  | cons c cs ih =>
    intro sv h
    cases cs with
    | nil => exact ⟨c, List.mem_cons_self c [], h⟩
    | cons c2 cs2 =>
      have hh : tryCandidates api owner repo (c :: c2 :: cs2)
          = match resolveTagToCommitSHA api owner repo c with
            | .ok v => .ok v
            | .error _ => tryCandidates api owner repo (c2 :: cs2) := rfl
      rw [hh] at h
      rcases hr : resolveTagToCommitSHA api owner repo c with e | v
      · rw [hr] at h
        obtain ⟨c3, hc3, hres3⟩ := ih sv h
        exact ⟨c3, List.mem_cons_of_mem c hc3, hres3⟩
      · rw [hr] at h
        injection h with h
        subst h
        exact ⟨c, List.mem_cons_self c _, hr⟩

theorem selectTagBySemverOrNewest_ok (api : API) (owner repo : Str) (sv : Str × Str)
    (htags : ∀ t ∈ (api.listTags owner repo 0).tags, t.name ≠ [])
    (h : selectTagBySemverOrNewest api owner repo = .ok sv) :
    ∃ tag, tag ≠ [] ∧ resolveTagToCommitSHA api owner repo tag = .ok sv := by
  simp only [selectTagBySemverOrNewest] at h
  rcases herr : (api.listTags owner repo 0).err with _ | e
  · simp only [herr] at h
    by_cases hnil : (api.listTags owner repo 0).tags = []
    · rw [if_pos hnil] at h
      exact Except.noConfusion h
    · rw [if_neg hnil] at h
      rcases hbest : bestLoop (api.listTags owner repo 0).tags none with _ | bv
      · simp only [hbest] at h
        exact ⟨((api.listTags owner repo 0).tags.headD ⟨[], none⟩).name,
          htags _ (headD_mem hnil _), h⟩
      · simp only [hbest] at h
        obtain ⟨horigin, _, _⟩ :=
          (blFold_spec (api.listTags owner repo 0).tags none).2 bv hbest
        rcases horigin with hl | ⟨t, ht, _, htn⟩
        · exact absurd hl (by simp)
        · refine ⟨bv.2, ?_, h⟩
          rw [← htn]
          exact htags t ht
  · simp only [herr] at h
    exact Except.noConfusion h

theorem selectTagBySameMajor_ok (api : API) (owner repo : Str) (major : Int) (fuel : Nat)
    (sv : Str × Str) (h : selectTagBySameMajor api owner repo major fuel = .ok sv) :
    ∃ tag, tag ≠ [] ∧ resolveTagToCommitSHA api owner repo tag = .ok sv := by
  simp only [selectTagBySameMajor] at h
  rcases hloop : sameMajorLoop api owner repo major fuel 1 none false with e | ob
  · simp only [hloop] at h
    exact Except.noConfusion h
  · rcases ob with _ | bv
    · simp only [hloop] at h
      exact Except.noConfusion h
    · simp only [hloop] at h
      by_cases hnil : bv.2 = []
      · rw [if_pos hnil] at h
        exact Except.noConfusion h
      · rw [if_neg hnil] at h
        exact ⟨bv.2, hnil, h⟩

theorem movingMajorStep_some (api : API) (owner repo requestedRef : Str)
    (expandMajor : Bool) (fuel : Nat) (info : ActionInfo)
    (hne : requestedRef ≠ [])
    (hrefws : ∀ ref ob, (api.getRef owner repo ref).obj = some ob →
      ob.sha.all (fun c => !(isWS c)) = true)
    (htagws : ∀ sha tob, (api.getTag owner repo sha).tagObj = some tob →
      tob.sha.all (fun c => !(isWS c)) = true)
    (h : movingMajorStep api owner repo requestedRef expandMajor fuel = some info) :
    info.Error = none ∧ info.SHA ≠ [] ∧ info.Version ≠ [] ∧
      info.SHA.all (fun c => !(isWS c)) = true := by
  simp only [movingMajorStep] at h
  by_cases hmov : isMovingMajorTag requestedRef = true
  · rw [if_pos hmov] at h
    rcases htc : tryCandidates api owner repo
        (if leadsWith (chars "v") requestedRef then [requestedRef]
         else [requestedRef, normalizeMajorRef requestedRef]) with e | sv
    · rw [htc] at h
      exact Option.noConfusion h
    · rw [htc] at h
      injection h with h
      subst h
      obtain ⟨c, hc, hres⟩ := tryCandidates_ok api owner repo _ sv htc
      obtain ⟨hsha, hsv2, hws⟩ :=
        resolveTagToCommitSHA_ok_facts api owner repo c sv hrefws htagws hres
      have hcne : c ≠ [] := by
        by_cases hlv : leadsWith (chars "v") requestedRef = true
        · rw [if_pos hlv] at hc
          simp only [List.mem_singleton] at hc
          subst hc
          exact hne
        · rw [if_neg hlv] at hc
          simp only [List.mem_cons, List.mem_singleton, List.not_mem_nil, or_false] at hc
          rcases hc with rfl | rfl
          · exact hne
          · exact normalizeMajorRef_ne_nil requestedRef
      refine ⟨rfl, hsha, ?_, hws⟩
      dsimp only
      by_cases hexp : expandMajor = true
      · rw [if_pos hexp]
        rcases hffs : findFullSemverTagForMajorCommit api owner repo requestedRef sv.1 fuel
          with e2 | fullTag
        · simp only [hffs]
          rw [hsv2]
          exact hcne
        · simp only [hffs]
          by_cases hft : fullTag ≠ []
          · rw [if_pos hft]
            exact hft
          · rw [if_neg hft]
            rw [hsv2]
            exact hcne
      · rw [if_neg hexp]
        rw [hsv2]
        exact hcne
  · rw [if_neg hmov] at h
    exact Option.noConfusion h

theorem requestedStep_some (api : API) (owner repo requestedRef : Str)
    (expandMajor : Bool) (fuel : Nat) (info : ActionInfo)
    (hne : requestedRef ≠ [])
    (hrefws : ∀ ref ob, (api.getRef owner repo ref).obj = some ob →
      ob.sha.all (fun c => !(isWS c)) = true)
    (htagws : ∀ sha tob, (api.getTag owner repo sha).tagObj = some tob →
      tob.sha.all (fun c => !(isWS c)) = true)
    (h : requestedStep api owner repo requestedRef expandMajor fuel = some info) :
    info.Error = none ∧ info.SHA ≠ [] ∧ info.Version ≠ [] ∧
      info.SHA.all (fun c => !(isWS c)) = true := by
  simp only [requestedStep] at h
  rcases hm : movingMajorStep api owner repo requestedRef expandMajor fuel with _ | i0
  · simp only [hm] at h
    rcases hrt : resolveTagToCommitSHA api owner repo requestedRef with e | sv
    · simp only [hrt] at h
      by_cases hsha : isFullSHA requestedRef = true
      · rw [if_pos hsha] at h
        injection h with h
        subst h
        refine ⟨rfl, hne, hne, ?_⟩
        have hall : requestedRef.all
            (fun c => isDigit c || ('a' ≤ c && c ≤ 'f') || ('A' ≤ c && c ≤ 'F')) = true := by
          simp only [isFullSHA, Bool.and_eq_true] at hsha
          exact hsha.2
        exact all_imp _ _ hex_not_ws requestedRef hall
      · rw [if_neg hsha] at h
        exact Option.noConfusion h
    · simp only [hrt] at h
      injection h with h
      subst h
      obtain ⟨h1, h2, h3⟩ :=
        resolveTagToCommitSHA_ok_facts api owner repo requestedRef sv hrefws htagws hrt
      refine ⟨rfl, h1, ?_, h3⟩
      dsimp only
      rw [h2]
      exact hne
  · simp only [hm] at h
    injection h with h
    subst h
    exact movingMajorStep_some api owner repo requestedRef expandMajor fuel i0 hne
      hrefws htagws hm

theorem sameMajorStepOpt_some (api : API) (owner repo requestedRef : Str) (fuel : Nat)
    (info : ActionInfo)
    (hrefws : ∀ ref ob, (api.getRef owner repo ref).obj = some ob →
      ob.sha.all (fun c => !(isWS c)) = true)
    (htagws : ∀ sha tob, (api.getTag owner repo sha).tagObj = some tob →
      tob.sha.all (fun c => !(isWS c)) = true)
    (h : sameMajorStepOpt api owner repo requestedRef fuel = some info) :
    info.Error = none ∧ info.SHA ≠ [] ∧ info.Version ≠ [] ∧
      info.SHA.all (fun c => !(isWS c)) = true := by
  simp only [sameMajorStepOpt] at h
  rcases hpm : parseMajor requestedRef with _ | major
  · simp only [hpm] at h
    exact Option.noConfusion h
  · simp only [hpm] at h
    rcases hsel : selectTagBySameMajor api owner repo major fuel with e | sv
    · simp only [hsel] at h
      exact Option.noConfusion h
    · simp only [hsel] at h
      injection h with h
      subst h
      obtain ⟨tag, htag, hres⟩ := selectTagBySameMajor_ok api owner repo major fuel sv hsel
      obtain ⟨h1, h2, h3⟩ :=
        resolveTagToCommitSHA_ok_facts api owner repo tag sv hrefws htagws hres
      refine ⟨rfl, h1, ?_, h3⟩
      dsimp only
      rw [h2]
      exact htag

theorem majorFallback_ok (api : API) (owner repo : Str) (info : ActionInfo)
    (err : Option Str)
    (htags : ∀ t ∈ (api.listTags owner repo 0).tags, t.name ≠ [])
    (hrefws : ∀ ref ob, (api.getRef owner repo ref).obj = some ob →
      ob.sha.all (fun c => !(isWS c)) = true)
    (htagws : ∀ sha tob, (api.getTag owner repo sha).tagObj = some tob →
      tob.sha.all (fun c => !(isWS c)) = true)
    (h : majorFallback api owner repo = (info, err)) (hok : info.Error = none) :
    info.SHA ≠ [] ∧ info.Version ≠ [] ∧ info.SHA.all (fun c => !(isWS c)) = true := by
  simp only [majorFallback] at h
  rcases hsel : selectTagBySemverOrNewest api owner repo with e | sv
  · simp only [hsel] at h
    injection h with h1 h2
    subst h1
    exact Option.noConfusion hok
  · simp only [hsel] at h
    injection h with h1 h2
    subst h1
    obtain ⟨tag, htag, hres⟩ := selectTagBySemverOrNewest_ok api owner repo sv htags hsel
    obtain ⟨hh1, hh2, hh3⟩ :=
      resolveTagToCommitSHA_ok_facts api owner repo tag sv hrefws htagws hres
    refine ⟨hh1, ?_, hh3⟩
    dsimp only
    rw [hh2]
    exact htag

theorem majorStep_ok (api : API) (owner repo : Str) (info : ActionInfo) (err : Option Str)
    (hrel : (api.getLatestRelease owner repo).err = none →
      (api.getLatestRelease owner repo).release ≠ none)
    (hreltag : ∀ r, (api.getLatestRelease owner repo).release = some r → r.tagName ≠ [])
    (htags : ∀ t ∈ (api.listTags owner repo 0).tags, t.name ≠ [])
    (hrefws : ∀ ref ob, (api.getRef owner repo ref).obj = some ob →
      ob.sha.all (fun c => !(isWS c)) = true)
    (htagws : ∀ sha tob, (api.getTag owner repo sha).tagObj = some tob →
      tob.sha.all (fun c => !(isWS c)) = true)
    (h : majorStep api owner repo = (info, err)) (hok : info.Error = none) :
    info.SHA ≠ [] ∧ info.Version ≠ [] ∧ info.SHA.all (fun c => !(isWS c)) = true := by
  simp only [majorStep] at h
  by_cases hc1 : (api.getLatestRelease owner repo).err = none ∧
      (api.getLatestRelease owner repo).release ≠ none
  · rw [if_pos hc1] at h
    rcases hrt : resolveTagToCommitSHA api owner repo
        (relTagName (api.getLatestRelease owner repo).release) with e | sv
    · simp only [hrt] at h
      exact majorFallback_ok api owner repo info err htags hrefws htagws h hok
    · simp only [hrt] at h
      injection h with h1 h2
      subst h1
      obtain ⟨hh1, hh2, hh3⟩ :=
        resolveTagToCommitSHA_ok_facts api owner repo _ sv hrefws htagws hrt
      refine ⟨hh1, ?_, hh3⟩
      dsimp only
      rw [hh2]
      rcases hrelv : (api.getLatestRelease owner repo).release with _ | r
      · exact absurd hrelv hc1.2
      · simp only [hrelv, relTagName]
        exact hreltag r hrelv
  · rw [if_neg hc1] at h
    by_cases hc2 : (api.getLatestRelease owner repo).status ≠ none ∧
        (api.getLatestRelease owner repo).status ≠ some 404
    · rw [if_pos hc2] at h
      injection h with h1 h2
      subst h1
      exact absurd ⟨hok, hrel hok⟩ hc1
    · rw [if_neg hc2] at h
      exact majorFallback_ok api owner repo info err htags hrefws htagws h hok

/-- Claim C10: every successful resolution carries usable pin data — when
resolveActionForPolicy returns an ActionInfo with nil Error, its SHA and
Version are non-empty and the SHA even trims to a non-empty string, so
updateContent's guard discarding blank-SHA resolutions never fires for a
success. Hypotheses state the oracle's well-formedness, matching go-github
and the GitHub API: a successful GetLatestRelease returns a release,
release tag names and listed tag names are non-empty, and returned object
identifiers contain no whitespace. -/
theorem success_has_nonempty_pin (api : API) (owner repo requestedRef : Str)
    (expandMajor : Bool) (policy : UpdatePolicy) (fuel : Nat) (info : ActionInfo)
    (err : Option Str)
    (hrel : (api.getLatestRelease owner repo).err = none →
      (api.getLatestRelease owner repo).release ≠ none)
    (hreltag : ∀ r, (api.getLatestRelease owner repo).release = some r → r.tagName ≠ [])
    (htags : ∀ t ∈ (api.listTags owner repo 0).tags, t.name ≠ [])
    (hrefws : ∀ ref ob, (api.getRef owner repo ref).obj = some ob →
      ob.sha.all (fun c => !(isWS c)) = true)
    (htagws : ∀ sha tob, (api.getTag owner repo sha).tagObj = some tob →
      tob.sha.all (fun c => !(isWS c)) = true)
    (hres : resolveActionForPolicy api owner repo requestedRef expandMajor policy fuel
      = (info, err))
    (hok : info.Error = none) :
    info.SHA ≠ [] ∧ info.Version ≠ [] ∧ trimSpace info.SHA ≠ [] := by
  have main : info.SHA ≠ [] ∧ info.Version ≠ [] ∧
      info.SHA.all (fun c => !(isWS c)) = true := by
    simp only [resolveActionForPolicy] at hres
    by_cases hpol1 : policy = UpdatePolicy.Requested ∧ requestedRef ≠ []
    · rw [if_pos hpol1] at hres
      rcases hrq : requestedStep api owner repo requestedRef expandMajor fuel with _ | i
      · simp only [hrq] at hres
        rw [if_neg (by
          rintro ⟨hp, _⟩
          rw [hpol1.1] at hp
          exact UpdatePolicy.noConfusion hp)] at hres
        exact majorStep_ok api owner repo info err hrel hreltag htags hrefws htagws hres hok
      · simp only [hrq] at hres
        injection hres with h1 h2
        subst h1
        obtain ⟨_, p1, p2, p3⟩ := requestedStep_some api owner repo requestedRef
          expandMajor fuel i hpol1.2 hrefws htagws hrq
        exact ⟨p1, p2, p3⟩
    · rw [if_neg hpol1] at hres
      by_cases hpol2 : policy = UpdatePolicy.SameMajor ∧ requestedRef ≠ []
      · rw [if_pos hpol2] at hres
        rcases hss : sameMajorStepOpt api owner repo requestedRef fuel with _ | i
        · simp only [hss] at hres
          exact majorStep_ok api owner repo info err hrel hreltag htags hrefws htagws
            hres hok
        · simp only [hss] at hres
          injection hres with h1 h2
          subst h1
          obtain ⟨_, p1, p2, p3⟩ := sameMajorStepOpt_some api owner repo requestedRef
            fuel i hrefws htagws hss
          exact ⟨p1, p2, p3⟩
      · rw [if_neg hpol2] at hres
        exact majorStep_ok api owner repo info err hrel hreltag htags hrefws htagws
          hres hok
  refine ⟨main.1, main.2.1, ?_⟩
  rw [trimSpace_no_ws info.SHA main.2.2]
  exact main.1

/-- A well-formed concrete oracle on which the requested tag v1.2.3
resolves to a full commit SHA. -/
def apiPin : API :=
  { getRef := fun _ _ ref =>
      if ref = chars "tags/v1.2.3" then
        ⟨some ⟨chars "commit", chars "abcdefabcdefabcdefabcdefabcdefabcdefabcd"⟩,
          some 200, none⟩
      else ⟨none, some 404, some (chars "404")⟩
    getTag := fun _ _ _ => ⟨none, some (chars "unused")⟩
    listTags := fun _ _ _ => ⟨[⟨chars "v1.2.3", none⟩], 0, true, none⟩
    getLatestRelease := fun _ _ => ⟨some ⟨chars "v1.2.3"⟩, some 200, none⟩ }

/-- Witness for C10 at the concrete oracle: the successful Requested-policy
resolution of v1.2.3 has non-empty SHA and Version and a non-blank trimmed
SHA. -/
theorem success_has_nonempty_pin_witness :
    (resolveActionForPolicy apiPin (chars "a") (chars "b") (chars "v1.2.3")
        false .Requested 10).1.SHA ≠ [] ∧
    (resolveActionForPolicy apiPin (chars "a") (chars "b") (chars "v1.2.3")
        false .Requested 10).1.Version ≠ [] ∧
    trimSpace (resolveActionForPolicy apiPin (chars "a") (chars "b") (chars "v1.2.3")
        false .Requested 10).1.SHA ≠ [] :=
  success_has_nonempty_pin apiPin (chars "a") (chars "b") (chars "v1.2.3") false
    .Requested 10
    (resolveActionForPolicy apiPin (chars "a") (chars "b") (chars "v1.2.3")
      false .Requested 10).1
    (resolveActionForPolicy apiPin (chars "a") (chars "b") (chars "v1.2.3")
      false .Requested 10).2
    (fun _ => by decide)
    (by
      intro r hr
      injection hr with hr
      rw [← hr]
      decide)
    (by
      intro t ht
      have ht2 : t ∈ [(⟨chars "v1.2.3", none⟩ : TagEntry)] := ht
      rw [List.mem_singleton] at ht2
      subst ht2
      decide)
    (by
      intro ref ob hobj
      by_cases href : ref = chars "tags/v1.2.3"
      · rw [show apiPin.getRef (chars "a") (chars "b") ref
            = ⟨some ⟨chars "commit", chars "abcdefabcdefabcdefabcdefabcdefabcdefabcd"⟩,
              some 200, none⟩ from by simp [apiPin, href]] at hobj
        injection hobj with hobj
        rw [← hobj]
        decide
      · rw [show apiPin.getRef (chars "a") (chars "b") ref
            = ⟨none, some 404, some (chars "404")⟩ from by simp [apiPin, href]] at hobj
        exact Option.noConfusion hobj)
    (fun sha tob h => Option.noConfusion h)
    rfl
    (by decide)

/-! Claim C1: idempotence of the pipeline. The development below
characterizes the matches of a rewritten document: a toolkit for the
greedy runs of the scanner, transfer lemmas moving a match between two
documents that agree on a window, the scan-chain facts of the first pass,
and an induction over the second scan showing every occurrence of the
rewritten document carries a full-SHA ref. -/

theorem cw_lt_char (p : Char → Bool) : ∀ (l : Str) (i : Nat), i < countWhile p l →
    ∃ c, l[i]? = some c ∧ p c = true := by
  intro l
  induction l with
  | nil => intro i h; simp [countWhile] at h
  | cons c cs ih =>
    intro i h
    rw [countWhile] at h
    by_cases hp : p c = true
    · rw [if_pos hp] at h
      cases i with
      | zero => exact ⟨c, by simp, hp⟩
      | succ i =>
        obtain ⟨d, hd, hpd⟩ := ih i (by omega)
        exact ⟨d, by simpa using hd, hpd⟩
    · rw [if_neg hp] at h
      omega

theorem cw_stop_char (p : Char → Bool) : ∀ (l : Str),
    l[countWhile p l]? = none ∨
      ∃ c, l[countWhile p l]? = some c ∧ p c = false := by
  intro l
  induction l with
  | nil => exact Or.inl rfl
  | cons c cs ih =>
    rw [countWhile]
    by_cases hp : p c = true
    · rw [if_pos hp]
      rcases ih with h | ⟨d, hd, hpd⟩
      · exact Or.inl (by simpa using h)
      · exact Or.inr ⟨d, by simpa using hd, hpd⟩
    · rw [if_neg hp]
      refine Or.inr ⟨c, by simp, ?_⟩
      cases hpc : p c
      · rfl
      · exact absurd hpc hp

theorem cw_eq_of (p : Char → Bool) : ∀ (l : Str) (n : Nat),
    (∀ i < n, ∃ c, l[i]? = some c ∧ p c = true) →
    (l[n]? = none ∨ ∃ c, l[n]? = some c ∧ p c = false) →
    countWhile p l = n := by
  intro l
  induction l with
  | nil =>
    intro n hlt _
    cases n with
    | zero => rfl
    | succ n =>
      obtain ⟨c, hc, _⟩ := hlt 0 (by omega)
      exact absurd hc (by simp)
  | cons c cs ih =>
    intro n hlt hstop
    cases n with
    | zero =>
      rcases hstop with h | ⟨d, hd, hpd⟩
      · exact absurd h (by simp)
      · have hdc : c = d := by simpa using hd
        subst hdc
        rw [countWhile, if_neg (by rw [hpd]; exact Bool.noConfusion)]
    | succ n =>
      obtain ⟨d, hd, hpd⟩ := hlt 0 (by omega)
      have hdc : c = d := by simpa using hd
      subst hdc
      rw [countWhile, if_pos hpd]
      have hrec : countWhile p cs = n := by
        refine ih n ?_ ?_
        · intro i hi
          obtain ⟨e, he, hpe⟩ := hlt (i + 1) (by omega)
          exact ⟨e, by simpa using he, hpe⟩
        · rcases hstop with h | ⟨e, he, hpe⟩
          · exact Or.inl (by simpa using h)
          · exact Or.inr ⟨e, by simpa using he, hpe⟩
      omega

theorem cw_offset (p : Char → Bool) : ∀ (l : Str) (k : Nat),
    (∀ i < k, ∃ c, l[i]? = some c ∧ p c = true) →
    countWhile p l = k + countWhile p (l.drop k) := by
  intro l
  induction l with
  | nil =>
    intro k h
    cases k with
    | zero => rfl
    | succ k =>
      obtain ⟨c, hc, _⟩ := h 0 (by omega)
      exact absurd hc (by simp)
  | cons c cs ih =>
    intro k h
    cases k with
    | zero => simp
    | succ k =>
      obtain ⟨d, hd, hpd⟩ := h 0 (by omega)
      have hdc : c = d := by simpa using hd
      subst hdc
      rw [countWhile, if_pos hpd, List.drop_succ_cons]
      have := ih k (fun i hi => by
        obtain ⟨e, he, hpe⟩ := h (i + 1) (by omega)
        exact ⟨e, by simpa using he, hpe⟩)
      omega

theorem cw_append_all (p : Char → Bool) : ∀ (A B : Str),
    (∀ c ∈ A, p c = true) → countWhile p (A ++ B) = A.length + countWhile p B := by
  intro A
  induction A with
  | nil => intro B _; simp
  | cons c cs ih =>
    intro B h
    rw [List.cons_append, countWhile, if_pos (h c (List.mem_cons_self c cs)),
      ih B (fun d hd => h d (List.mem_cons_of_mem c hd))]
    simp only [List.length_cons]
    omega

theorem cw_cons_false (p : Char → Bool) (c : Char) (l : Str) (h : p c = false) :
    countWhile p (c :: l) = 0 := by
  rw [countWhile, if_neg (by rw [h]; exact Bool.noConfusion)]

theorem cw_le_of_non (p : Char → Bool) {l : Str} {j : Nat} {c : Char}
    (hc : l[j]? = some c) (hp : p c = false) : countWhile p l ≤ j := by
  by_contra h
  obtain ⟨d, hd, hpd⟩ := cw_lt_char p l j (by omega)
  rw [hc] at hd
  injection hd with hd
  subst hd
  rw [hpd] at hp
  exact Bool.noConfusion hp

theorem fi_lt_char (p : Char → Bool) : ∀ (l : Str) (d : Nat),
    firstIdx? p l = some d → ∀ i < d, ∃ c, l[i]? = some c ∧ p c = false := by
  intro l
  induction l with
  | nil => intro d h; exact absurd h (by simp [firstIdx?])
  | cons c cs ih =>
    intro d h i hi
    rw [firstIdx?] at h
    by_cases hp : p c = true
    · rw [if_pos hp] at h
      injection h with h
      omega
    · rw [if_neg hp] at h
      rcases hd2 : firstIdx? p cs with _ | d2
      · rw [hd2] at h
        exact absurd h (by simp)
      · rw [hd2] at h
        rw [Option.map_some'] at h
        injection h with h
        cases i with
        | zero =>
          refine ⟨c, by simp, ?_⟩
          cases hpc : p c
          · rfl
          · exact absurd hpc hp
        | succ i =>
          obtain ⟨e, he, hpe⟩ := ih d2 hd2 i (by omega)
          exact ⟨e, by simpa using he, hpe⟩

theorem fi_at_char (p : Char → Bool) : ∀ (l : Str) (d : Nat),
    firstIdx? p l = some d → ∃ c, l[d]? = some c ∧ p c = true := by
  intro l
  induction l with
  | nil => intro d h; exact absurd h (by simp [firstIdx?])
  | cons c cs ih =>
    intro d h
    rw [firstIdx?] at h
    by_cases hp : p c = true
    · rw [if_pos hp] at h
      injection h with h
      subst h
      exact ⟨c, by simp, hp⟩
    · rw [if_neg hp] at h
      rcases hd2 : firstIdx? p cs with _ | d2
      · rw [hd2] at h
        exact absurd h (by simp)
      · rw [hd2] at h
        rw [Option.map_some'] at h
        injection h with h
        subst h
        obtain ⟨e, he, hpe⟩ := ih d2 hd2
        exact ⟨e, by simpa using he, hpe⟩

theorem fi_eq_of (p : Char → Bool) : ∀ (l : Str) (d : Nat),
    (∀ i < d, ∃ c, l[i]? = some c ∧ p c = false) →
    (∃ c, l[d]? = some c ∧ p c = true) →
    firstIdx? p l = some d := by
  intro l
  induction l with
  | nil =>
    intro d _ hat
    obtain ⟨c, hc, _⟩ := hat
    exact absurd hc (by simp)
  | cons c cs ih =>
    intro d hlt hat
    rw [firstIdx?]
    cases d with
    | zero =>
      obtain ⟨e, he, hpe⟩ := hat
      have hec : c = e := by simpa using he
      subst hec
      rw [if_pos hpe]
    | succ d =>
      obtain ⟨e, he, hpe⟩ := hlt 0 (by omega)
      have hec : c = e := by simpa using he
      subst hec
      rw [if_neg (by rw [hpe]; exact Bool.noConfusion)]
      rw [ih d (fun i hi => by
          obtain ⟨f, hf, hpf⟩ := hlt (i + 1) (by omega)
          exact ⟨f, by simpa using hf, hpf⟩)
        (by
          obtain ⟨f, hf, hpf⟩ := hat
          exact ⟨f, by simpa using hf, hpf⟩)]
      rfl

theorem lw_iff (pat : Str) : ∀ (l : Str),
    leadsWith pat l = true ↔ ∀ i < pat.length, l[i]? = pat[i]? := by
  induction pat with
  | nil => intro l; simp [leadsWith]
  | cons q qs ih =>
    intro l
    cases l with
    | nil =>
      simp only [leadsWith]
      constructor
      · intro h; exact Bool.noConfusion h
      · intro h
        have := h 0 (by simp)
        exact absurd this.symm (by simp)
    | cons c cs =>
      rw [leadsWith, Bool.and_eq_true]
      constructor
      · rintro ⟨h1, h2⟩
        have hqc : q = c := by simpa using h1
        subst hqc
        intro i hi
        cases i with
        | zero => simp
        | succ i =>
          have := (ih cs).mp h2 i (by simpa using hi)
          simpa using this
      · intro h
        have h0 : (some c : Option Char) = some q := by
          have := h 0 (by simp)
          simpa using this
        injection h0 with h0
        subst h0
        refine ⟨by simp, (ih cs).mpr ?_⟩
        intro i hi
        have := h (i + 1) (by simpa using hi)
        simpa using this

theorem isWS_ne_at {c : Char} (h : isWS c = true) : c ≠ '@' := by
  simp only [isWS, Bool.or_eq_true, decide_eq_true_eq] at h
  rcases h with ((((h | h) | h) | h) | h) <;> subst h <;> decide

theorem ws_of_newline {c : Char} (h : c = '\n') : isWS c = true := by
  subst h
  decide

theorem charAt_slice {cs : Str} {a b i : Nat} {c : Char} (hi : i < b - a)
    (h : (slice cs a b)[i]? = some c) : charAt? cs (a + i) = some c := by
  unfold slice at h
  rw [List.getElem?_take] at h
  rw [if_pos hi] at h
  rw [List.getElem?_drop] at h
  exact h

theorem slice_getElem (cs : Str) (a b i : Nat) (hi : i < b - a) :
    (slice cs a b)[i]? = charAt? cs (a + i) := by
  unfold slice
  rw [List.getElem?_take, if_pos hi, List.getElem?_drop]
  rfl

theorem not_mem_slice_char {cs : Str} {a b : Nat} {c : Char}
    (h : ¬ c ∈ slice cs a b) : ∀ i, a ≤ i → i < b → charAt? cs i ≠ some c := by
  intro i hai hib hc
  refine h ?_
  have : (slice cs a b)[i - a]? = some c := by
    rw [slice_getElem cs a b (i - a) (by omega)]
    rw [show a + (i - a) = i by omega]
    exact hc
  exact List.getElem?_mem this

theorem charAt_drop (cs : Str) (k i : Nat) : (cs.drop k)[i]? = charAt? cs (k + i) := by
  rw [List.getElem?_drop]
  rfl

theorem matchAt_end_le {cs : Str} {s : Nat} {m : RawMatch} (h : matchAt cs s = some m) :
    m.matchEnd ≤ cs.length := by
  rcases matchAt_inv h with
    ⟨w, db, r, refLen, hw, hdb, hr, hrefLen, hlw, hw1, hr1, hrl1, hsl, hat, hms, hors,
      hg, hslp, hatp, hre, hme⟩
  have hreflen : m.refEnd ≤ cs.length := (matchAt_bounds h).2.1
  rw [hme]
  split
  · rename_i hhash
    have hwsb := countWhile_le_length isWS (cs.drop m.refEnd)
    rw [List.length_drop] at hwsb
    have hb2 := countWhile_le_length (fun c => !(c = '\n'))
      (cs.drop (m.refEnd + countWhile isWS (cs.drop m.refEnd) + 1))
    rw [List.length_drop] at hb2
    have he := charAt_some_lt hhash
    omega
  · exact hreflen

theorem matchAt_none_of_len {cs : Str} {s : Nat} (h : cs.length ≤ s) :
    matchAt cs s = none := by
  have hdrop : cs.drop s = [] := List.drop_eq_nil_of_le h
  rw [matchAt, hdrop]
  rfl

theorem matchAt_head_u {cs : Str} {s : Nat} {m : RawMatch} (h : matchAt cs s = some m) :
    charAt? cs s = some 'u' := by
  rcases matchAt_inv h with ⟨w, db, r, refLen, _, _, _, _, hlw, _⟩
  have := (lw_iff (chars "uses:") (cs.drop s)).mp hlw 0 (by decide)
  rw [charAt_drop cs s 0] at this
  rw [show s + 0 = s from rfl] at this
  rw [this]
  rfl

theorem matchAt_pre_at_free {cs : Str} {s : Nat} {m : RawMatch}
    (h : matchAt cs s = some m) :
    ∀ i, s ≤ i → i < m.atPos → charAt? cs i ≠ some '@' := by
  rcases matchAt_inv h with
    ⟨w, db, r, refLen, hw, hdb, hr, hrefLen, hlw, hw1, hr1, hrl1, hsl, hat, hms, hors,
      hg, hslp, hatp, hre, hme⟩
  intro i hsi hiat hc
  rw [hatp] at hiat
  by_cases h5 : i < s + 5
  · have := (lw_iff (chars "uses:") (cs.drop s)).mp hlw (i - s) (by simp [chars]; omega)
    rw [charAt_drop cs s (i - s), show s + (i - s) = i by omega, hc] at this
    have hne : ('@' : Char) ∈ chars "uses:" := List.getElem?_mem this.symm
    exact absurd hne (by decide)
  · by_cases hw5 : i < s + 5 + w
    · obtain ⟨c, hcc, hcw⟩ := cw_lt_char isWS (cs.drop (s + 5)) (i - (s + 5)) (by omega)
      rw [charAt_drop cs (s + 5) _, show s + 5 + (i - (s + 5)) = i by omega, hc] at hcc
      injection hcc with hcc
      exact isWS_ne_at (hcc ▸ hcw) rfl
    · by_cases hdb5 : i < s + 5 + w + db
      · obtain ⟨c, hcc, hcw⟩ := fi_lt_char (fun c => c = '/' || c = '@')
          (cs.drop (s + 5 + w)) db hdb (i - (s + 5 + w)) (by omega)
        rw [charAt_drop cs (s + 5 + w) _, show s + 5 + w + (i - (s + 5 + w)) = i by omega,
          hc] at hcc
        injection hcc with hcc
        subst hcc
        simp at hcw
      · by_cases hsl5 : i = s + 5 + w + db
        · rw [hsl5, hsl] at hc
          exact absurd hc (by decide)
        · obtain ⟨c, hcc, hcw⟩ := cw_lt_char (fun c => !(c = '@') && !(isWS c))
            (cs.drop (s + 5 + w + db + 1)) (i - (s + 5 + w + db + 1))
            (by rw [← hr]; omega)
          rw [charAt_drop cs (s + 5 + w + db + 1) _,
            show s + 5 + w + db + 1 + (i - (s + 5 + w + db + 1)) = i by omega, hc] at hcc
          injection hcc with hcc
          subst hcc
          simp at hcw

theorem span_no_newline {cs : Str} {s : Nat} {m : RawMatch}
    (h : matchAt cs s = some m)
    (hS1 : ¬ '\n' ∈ slice cs m.matchStart m.atPos)
    (hS2 : ¬ '\n' ∈ slice cs m.refEnd m.matchEnd) :
    ∀ i, m.matchStart ≤ i → i < m.matchEnd → charAt? cs i ≠ some '\n' := by
  rcases matchAt_inv h with
    ⟨w, db, r, refLen, hw, hdb, hr, hrefLen, hlw, hw1, hr1, hrl1, hsl, hat, hms, hors,
      hg, hslp, hatp, hre, hme⟩
  intro i hsi hie hc
  by_cases h1 : i < m.atPos
  · exact not_mem_slice_char hS1 i hsi h1 hc
  · by_cases h2 : i = m.atPos
    · rw [h2, hatp, hat] at hc
      exact absurd hc (by decide)
    · by_cases h3 : i < m.refEnd
      · obtain ⟨c, hcc, hcw⟩ := cw_lt_char (fun c => !(isWS c) && !(c = '#'))
          (cs.drop (s + 5 + w + db + 1 + r + 1)) (i - (s + 5 + w + db + 1 + r + 1))
          (by rw [← hrefLen]; rw [hatp] at h1 h2; rw [hre] at h3; omega)
        rw [charAt_drop cs (s + 5 + w + db + 1 + r + 1) _,
          show s + 5 + w + db + 1 + r + 1 + (i - (s + 5 + w + db + 1 + r + 1)) = i by
            rw [hatp] at h1 h2; omega, hc] at hcc
        injection hcc with hcc
        subst hcc
        rw [Bool.and_eq_true] at hcw
        have := ws_of_newline (rfl : ('\n' : Char) = '\n')
        rw [this] at hcw
        exact Bool.noConfusion hcw.1
      · exact not_mem_slice_char hS2 i (by omega) hie hc

theorem slice_eq_of_agree {A B : Str} {a b : Nat} {K : Nat}
    (hag : ∀ i ≤ K, charAt? A (a + i) = charAt? B (b + i)) (u v : Nat) (hv : v ≤ K) :
    slice A (a + u) (a + v) = slice B (b + u) (b + v) := by
  apply List.ext_getElem?
  intro i
  by_cases hi : i < (a + v) - (a + u)
  · rw [slice_getElem A (a + u) (a + v) i hi,
      slice_getElem B (b + u) (b + v) i (by omega)]
    rw [show a + u + i = a + (u + i) by omega, show b + u + i = b + (u + i) by omega]
    exact hag (u + i) (by omega)
  · unfold slice
    rw [List.getElem?_take, if_neg (by omega), List.getElem?_take, if_neg (by omega)]

theorem cw_transfer (p : Char → Bool) {A B : Str} {a b K : Nat}
    (hag : ∀ i ≤ K, charAt? A (a + i) = charAt? B (b + i)) {k n : Nat}
    (hn : countWhile p (B.drop (b + k)) = n) (hK : k + n ≤ K) :
    countWhile p (A.drop (a + k)) = n := by
  refine cw_eq_of p (A.drop (a + k)) n ?_ ?_
  · intro i hi
    obtain ⟨c, hc, hpc⟩ := cw_lt_char p (B.drop (b + k)) i (by omega)
    rw [charAt_drop B (b + k) i] at hc
    refine ⟨c, ?_, hpc⟩
    rw [charAt_drop A (a + k) i, show a + k + i = a + (k + i) by omega,
      hag (k + i) (by omega), show b + (k + i) = b + k + i by omega]
    exact hc
  · rcases cw_stop_char p (B.drop (b + k)) with hc | ⟨c, hc, hpc⟩
    · rw [hn] at hc
      rw [charAt_drop B (b + k) n] at hc
      left
      rw [charAt_drop A (a + k) n, show a + k + n = a + (k + n) by omega,
        hag (k + n) hK, show b + (k + n) = b + k + n by omega]
      exact hc
    · rw [hn] at hc
      rw [charAt_drop B (b + k) n] at hc
      right
      refine ⟨c, ?_, hpc⟩
      rw [charAt_drop A (a + k) n, show a + k + n = a + (k + n) by omega,
        hag (k + n) hK, show b + (k + n) = b + k + n by omega]
      exact hc

theorem fi_transfer (p : Char → Bool) {A B : Str} {a b K : Nat}
    (hag : ∀ i ≤ K, charAt? A (a + i) = charAt? B (b + i)) {k d : Nat}
    (hd : firstIdx? p (B.drop (b + k)) = some d) (hK : k + d ≤ K) :
    firstIdx? p (A.drop (a + k)) = some d := by
  refine fi_eq_of p (A.drop (a + k)) d ?_ ?_
  · intro i hi
    obtain ⟨c, hc, hpc⟩ := fi_lt_char p (B.drop (b + k)) d hd i hi
    rw [charAt_drop B (b + k) i] at hc
    refine ⟨c, ?_, hpc⟩
    rw [charAt_drop A (a + k) i, show a + k + i = a + (k + i) by omega,
      hag (k + i) (by omega), show b + (k + i) = b + k + i by omega]
    exact hc
  · obtain ⟨c, hc, hpc⟩ := fi_at_char p (B.drop (b + k)) d hd
    rw [charAt_drop B (b + k) d] at hc
    refine ⟨c, ?_, hpc⟩
    rw [charAt_drop A (a + k) d, show a + k + d = a + (k + d) by omega,
      hag (k + d) hK, show b + (k + d) = b + k + d by omega]
    exact hc

theorem lw_transfer (pat : Str) {A B : Str} {a b K : Nat}
    (hag : ∀ i ≤ K, charAt? A (a + i) = charAt? B (b + i)) {k : Nat}
    (hl : leadsWith pat (B.drop (b + k)) = true) (hK : k + pat.length ≤ K + 1) :
    leadsWith pat (A.drop (a + k)) = true := by
  rw [lw_iff] at hl ⊢
  intro i hi
  rw [charAt_drop A (a + k) i, show a + k + i = a + (k + i) by omega,
    hag (k + i) (by omega), show b + (k + i) = b + k + i by omega,
    ← charAt_drop B (b + k) i]
  exact hl i hi

theorem charAt_transfer {A B : Str} {a b K : Nat}
    (hag : ∀ i ≤ K, charAt? A (a + i) = charAt? B (b + i)) {k : Nat} (hK : k ≤ K) :
    charAt? A (a + k) = charAt? B (b + k) := hag k hK

/-- Forward construction of matchAt from its component layout. -/
theorem matchAt_construct (cs : Str) (s w db r refLen : Nat)
    (hlw : leadsWith (chars "uses:") (cs.drop s) = true)
    (hw : countWhile isWS (cs.drop (s + 5)) = w) (hw1 : 1 ≤ w)
    (hfi : firstIdx? (fun c => c = '/' || c = '@') (cs.drop (s + 5 + w)) = some db)
    (hsl : charAt? cs (s + 5 + w + db) = some '/')
    (hg : 0 < db ∨ 2 ≤ w)
    (hr : countWhile (fun c => !(c = '@') && !(isWS c)) (cs.drop (s + 5 + w + db + 1)) = r)
    (hr1 : 1 ≤ r)
    (hat : charAt? cs (s + 5 + w + db + 1 + r) = some '@')
    (hrefLen : countWhile (fun c => !(isWS c) && !(c = '#'))
      (cs.drop (s + 5 + w + db + 1 + r + 1)) = refLen) (hrl1 : 1 ≤ refLen) :
    matchAt cs s = some ⟨s, (if 0 < db then s + 5 + w else s + 5 + w - 1),
      s + 5 + w + db, s + 5 + w + db + 1 + r, s + 5 + w + db + 1 + r + 1 + refLen,
      (if charAt? cs (s + 5 + w + db + 1 + r + 1 + refLen +
            countWhile isWS (cs.drop (s + 5 + w + db + 1 + r + 1 + refLen))) = some '#'
        then s + 5 + w + db + 1 + r + 1 + refLen +
          countWhile isWS (cs.drop (s + 5 + w + db + 1 + r + 1 + refLen)) + 1 +
          countWhile (fun c => !(c = '\n'))
            (cs.drop (s + 5 + w + db + 1 + r + 1 + refLen +
              countWhile isWS (cs.drop (s + 5 + w + db + 1 + r + 1 + refLen)) + 1))
        else s + 5 + w + db + 1 + r + 1 + refLen)⟩ := by
  simp only [matchAt]
  rw [if_pos hlw, hw, if_neg (by omega : ¬ w = 0)]
  split
  · rename_i heq
    rw [heq] at hfi
    exact absurd hfi (by simp)
  · rename_i db2 heq
    rw [heq] at hfi
    injection hfi with hfi
    subst hfi
    rw [if_pos hsl]
    split
    · rename_i heq2
      by_cases hdb : 0 < db2
      · rw [if_pos hdb] at heq2
        exact absurd heq2 (by simp)
      · have hw2 : 2 ≤ w := by
          rcases hg with h | h
          · omega
          · exact h
        rw [if_neg hdb, if_pos hw2] at heq2
        exact absurd heq2 (by simp)
    · rename_i g heq2
      rw [hr, if_neg (by omega : ¬ r = 0), if_pos hat, hrefLen,
        if_neg (by omega : ¬ refLen = 0)]
      by_cases hdb : 0 < db2
      · rw [if_pos hdb] at heq2
        injection heq2 with heq2
        rw [if_pos hdb, ← heq2]
      · have hw2 : 2 ≤ w := by
          rcases hg with h | h
          · omega
          · exact h
        rw [if_neg hdb, if_pos hw2] at heq2
        injection heq2 with heq2
        rw [if_neg hdb, ← heq2]

theorem cw_pos (p : Char → Bool) {l : Str} {c : Char} (hc : l[0]? = some c)
    (hp : p c = true) : 1 ≤ countWhile p l := by
  cases l with
  | nil => exact absurd hc (by simp)
  | cons d ds =>
    have hdc : d = c := by simpa using hc
    subst hdc
    rw [countWhile, if_pos hp]
    omega

/-- Transfer of a whole match from B to A across an agreement window that
covers the match and its trailing whitespace lookahead. -/
theorem matchAt_transfer {A B : Str} {a b K : Nat} {m : RawMatch}
    (hag : ∀ i ≤ K, charAt? A (a + i) = charAt? B (b + i))
    (hm : matchAt B b = some m)
    (hK1 : m.matchEnd - b ≤ K)
    (hK2 : m.refEnd - b + countWhile isWS (B.drop m.refEnd) ≤ K) :
    ∃ m2, matchAt A a = some m2 ∧ m2.matchStart = a ∧
      m2.atPos = m.atPos - b + a ∧ m2.refEnd = m.refEnd - b + a ∧
      m2.matchEnd = m.matchEnd - b + a ∧
      slice A (m2.atPos + 1) m2.refEnd = slice B (m.atPos + 1) m.refEnd := by
  rcases matchAt_inv hm with
    ⟨w, db, r, refLen, hw, hdb, hr, hrefLen, hlw, hw1, hr1, hrl1, hsl, hat, hms, hors,
      hg, hslp, hatp, hre, hme⟩
  have hbounds := matchAt_bounds hm
  obtain ⟨_, _, hlt1, hlt2, hlt3⟩ := matchAt_facts hm
  have hKre : 5 + w + db + 1 + r + 1 + refLen ≤ K := by omega
  have hKat : 5 + w + db + 1 + r ≤ K := by omega
  have hlwA : leadsWith (chars "uses:") (A.drop (a + 0)) = true := by
    refine lw_transfer (chars "uses:") hag ?_ ?_
    · rw [show b + 0 = b by omega]
      exact hlw
    · rw [show (chars "uses:").length = 5 from by decide]
      omega
  have hwA : countWhile isWS (A.drop (a + 5)) = w :=
    cw_transfer isWS hag (k := 5) (by rw [← hw]) (by omega)
  have hfiA : firstIdx? (fun c => c = '/' || c = '@') (A.drop (a + (5 + w))) = some db :=
    fi_transfer _ hag (k := 5 + w)
      (by rw [show b + (5 + w) = b + 5 + w by omega]; exact hdb) (by omega)
  have hslA : charAt? A (a + (5 + w + db)) = some '/' := by
    rw [charAt_transfer hag (k := 5 + w + db) (by omega),
      show b + (5 + w + db) = b + 5 + w + db by omega]
    exact hsl
  have hrA : countWhile (fun c => !(c = '@') && !(isWS c)) (A.drop (a + (5 + w + db + 1)))
      = r :=
    cw_transfer _ hag (k := 5 + w + db + 1)
      (by rw [show b + (5 + w + db + 1) = b + 5 + w + db + 1 by omega, ← hr]) (by omega)
  have hatA : charAt? A (a + (5 + w + db + 1 + r)) = some '@' := by
    rw [charAt_transfer hag (k := 5 + w + db + 1 + r) (by omega),
      show b + (5 + w + db + 1 + r) = b + 5 + w + db + 1 + r by omega]
    exact hat
  have hrefLenA : countWhile (fun c => !(isWS c) && !(c = '#'))
      (A.drop (a + (5 + w + db + 1 + r + 1))) = refLen :=
    cw_transfer _ hag (k := 5 + w + db + 1 + r + 1)
      (by rw [show b + (5 + w + db + 1 + r + 1) = b + 5 + w + db + 1 + r + 1 by omega,
        ← hrefLen]) (by omega)
  have hcon := matchAt_construct A a w db r refLen
    (by rw [show a + 0 = a by omega] at hlwA; exact hlwA)
    (by rw [show a + 5 = a + 5 by omega] at hwA; exact hwA) hw1
    (by rw [show a + (5 + w) = a + 5 + w by omega] at hfiA; exact hfiA)
    (by rw [show a + (5 + w + db) = a + 5 + w + db by omega] at hslA; exact hslA) hg
    (by rw [show a + (5 + w + db + 1) = a + 5 + w + db + 1 by omega] at hrA; exact hrA)
    hr1
    (by rw [show a + (5 + w + db + 1 + r) = a + 5 + w + db + 1 + r by omega] at hatA
        exact hatA)
    (by rw [show a + (5 + w + db + 1 + r + 1) = a + 5 + w + db + 1 + r + 1 by omega]
          at hrefLenA
        exact hrefLenA) hrl1
  have hwsA : countWhile isWS (A.drop (a + 5 + w + db + 1 + r + 1 + refLen))
      = countWhile isWS (B.drop m.refEnd) := by
    have := cw_transfer isWS hag (k := 5 + w + db + 1 + r + 1 + refLen)
      (n := countWhile isWS (B.drop m.refEnd))
      (by rw [show b + (5 + w + db + 1 + r + 1 + refLen) = m.refEnd by omega])
      (by omega)
    rw [show a + 5 + w + db + 1 + r + 1 + refLen = a + (5 + w + db + 1 + r + 1 + refLen)
      by omega]
    exact this
  refine ⟨_, hcon, rfl, by dsimp only; omega, by dsimp only; omega, ?_, ?_⟩
  · dsimp only
    rw [hwsA]
    have hhashAB : charAt? A (a + 5 + w + db + 1 + r + 1 + refLen +
        countWhile isWS (B.drop m.refEnd))
        = charAt? B (m.refEnd + countWhile isWS (B.drop m.refEnd)) := by
      rw [show a + 5 + w + db + 1 + r + 1 + refLen + countWhile isWS (B.drop m.refEnd)
          = a + (5 + w + db + 1 + r + 1 + refLen + countWhile isWS (B.drop m.refEnd))
          by omega,
        charAt_transfer hag (k := 5 + w + db + 1 + r + 1 + refLen +
          countWhile isWS (B.drop m.refEnd)) (by omega),
        show b + (5 + w + db + 1 + r + 1 + refLen + countWhile isWS (B.drop m.refEnd))
          = m.refEnd + countWhile isWS (B.drop m.refEnd) by omega]
    rw [hhashAB]
    rw [hme]
    split
    · rename_i hhash
      have hbodyA : countWhile (fun c => !(c = '\n'))
          (A.drop (a + 5 + w + db + 1 + r + 1 + refLen +
            countWhile isWS (B.drop m.refEnd) + 1))
          = countWhile (fun c => !(c = '\n'))
            (B.drop (m.refEnd + countWhile isWS (B.drop m.refEnd) + 1)) := by
        have := cw_transfer (fun c => !(c = '\n')) hag
          (k := 5 + w + db + 1 + r + 1 + refLen + countWhile isWS (B.drop m.refEnd) + 1)
          (n := countWhile (fun c => !(c = '\n'))
            (B.drop (m.refEnd + countWhile isWS (B.drop m.refEnd) + 1)))
          (by rw [show b + (5 + w + db + 1 + r + 1 + refLen +
              countWhile isWS (B.drop m.refEnd) + 1)
              = m.refEnd + countWhile isWS (B.drop m.refEnd) + 1 by omega])
          (by rw [hme, if_pos hhash] at hK1; omega)
        rw [show a + 5 + w + db + 1 + r + 1 + refLen + countWhile isWS (B.drop m.refEnd)
            + 1 = a + (5 + w + db + 1 + r + 1 + refLen +
              countWhile isWS (B.drop m.refEnd) + 1) by omega]
        exact this
      rw [hbodyA]
      omega
    · omega
  · dsimp only
    have := slice_eq_of_agree hag (5 + w + db + 1 + r + 1) (5 + w + db + 1 + r + 1 + refLen)
      (by omega)
    rw [show a + (5 + w + db + 1 + r + 1) = a + 5 + w + db + 1 + r + 1 + 1 - 1 by omega]
      at this
    rw [show a + 5 + w + db + 1 + r + 1 + 1 - 1 = a + 5 + w + db + 1 + r + 1 by omega]
      at this
    rw [show a + (5 + w + db + 1 + r + 1 + refLen)
        = a + 5 + w + db + 1 + r + 1 + refLen by omega] at this
    rw [show b + (5 + w + db + 1 + r + 1) = m.atPos + 1 by omega] at this
    rw [show b + (5 + w + db + 1 + r + 1 + refLen) = m.refEnd by omega] at this
    exact this

/-- If A matches at a and B agrees with A on a window that reaches the
match's @ and the character after the @ in B can head a ref, then B
matches at b. -/
theorem matchAt_transfer_weak {A B : Str} {a b K : Nat} {m' : RawMatch}
    (hag : ∀ i ≤ K, charAt? A (a + i) = charAt? B (b + i))
    (hm' : matchAt A a = some m')
    (hKat : m'.atPos - a ≤ K)
    (hrefc : ∃ c, charAt? B (b + (m'.atPos - a) + 1) = some c ∧
      (!(isWS c) && !(c = '#')) = true) :
    ∃ m2, matchAt B b = some m2 := by
  rcases matchAt_inv hm' with
    ⟨w, db, r, refLen, hw, hdb, hr, hrefLen, hlw, hw1, hr1, hrl1, hsl, hat, hms, hors,
      hg, hslp, hatp, hre, hme⟩
  have hag' : ∀ i ≤ K, charAt? B (b + i) = charAt? A (a + i) :=
    fun i hi => (hag i hi).symm
  have hKat2 : 5 + w + db + 1 + r ≤ K := by rw [hatp] at hKat; omega
  have hlwB : leadsWith (chars "uses:") (B.drop (b + 0)) = true := by
    refine lw_transfer (chars "uses:") hag' ?_ ?_
    · rw [show a + 0 = a by omega]
      exact hlw
    · rw [show (chars "uses:").length = 5 from by decide]
      omega
  have hwB : countWhile isWS (B.drop (b + 5)) = w :=
    cw_transfer isWS hag' (k := 5) (by rw [← hw]) (by omega)
  have hfiB : firstIdx? (fun c => c = '/' || c = '@') (B.drop (b + (5 + w))) = some db :=
    fi_transfer _ hag' (k := 5 + w)
      (by rw [show a + (5 + w) = a + 5 + w by omega]; exact hdb) (by omega)
  have hslB : charAt? B (b + (5 + w + db)) = some '/' := by
    rw [charAt_transfer hag' (k := 5 + w + db) (by omega),
      show a + (5 + w + db) = a + 5 + w + db by omega]
    exact hsl
  have hrB : countWhile (fun c => !(c = '@') && !(isWS c)) (B.drop (b + (5 + w + db + 1)))
      = r :=
    cw_transfer _ hag' (k := 5 + w + db + 1)
      (by rw [show a + (5 + w + db + 1) = a + 5 + w + db + 1 by omega, ← hr]) (by omega)
  have hatB : charAt? B (b + (5 + w + db + 1 + r)) = some '@' := by
    rw [charAt_transfer hag' (k := 5 + w + db + 1 + r) (by omega),
      show a + (5 + w + db + 1 + r) = a + 5 + w + db + 1 + r by omega]
    exact hat
  obtain ⟨c, hc, hcp⟩ := hrefc
  have hrefB : 1 ≤ countWhile (fun c => !(isWS c) && !(c = '#'))
      (B.drop (b + 5 + w + db + 1 + r + 1)) := by
    refine cw_pos _ ?_ hcp
    rw [charAt_drop B (b + 5 + w + db + 1 + r + 1) 0]
    rw [show b + 5 + w + db + 1 + r + 1 + 0 = b + (m'.atPos - a) + 1 by
      rw [hatp]; omega]
    exact hc
  refine ⟨_, matchAt_construct B b w db r _
    (by rw [show b + 0 = b by omega] at hlwB; exact hlwB) hwB hw1
    (by rw [show b + (5 + w) = b + 5 + w by omega] at hfiB; exact hfiB)
    (by rw [show b + (5 + w + db) = b + 5 + w + db by omega] at hslB; exact hslB) hg
    (by rw [show b + (5 + w + db + 1) = b + 5 + w + db + 1 by omega] at hrB; exact hrB)
    hr1
    (by rw [show b + (5 + w + db + 1 + r) = b + 5 + w + db + 1 + r by omega] at hatB
        exact hatB)
    rfl hrefB⟩

/-- The occurrence/resolution pair of a raw match. -/
def pairOcc (doc : Str) (q : RawMatch × ActionInfo) : ActionOccurrence × ActionInfo :=
  (occOfMatch doc q.1, q.2)

/-- The matches of the first scan paired with their resolutions, with the
gaps between them certified match-free from position lo on. -/
def ScanChain (doc : Str) : Nat → List (RawMatch × ActionInfo) → Prop
  | lo, [] => ∀ p, lo ≤ p → matchAt doc p = none
  | lo, q :: rest => lo ≤ q.1.matchStart ∧ matchAt doc q.1.matchStart = some q.1 ∧
      (∀ p, lo ≤ p → p < q.1.matchStart → matchAt doc p = none) ∧
      ScanChain doc q.1.matchEnd rest

/-- Whether rewriteSpec emits a replacement for this pair. -/
def replActive (p : ActionOccurrence × ActionInfo) : Prop :=
  p.2.Error = none ∧ p.2.SHA ≠ [] ∧ p.1.RequestedRef ≠ p.2.SHA

instance replActive_dec (p : ActionOccurrence × ActionInfo) : Decidable (replActive p) :=
  inferInstanceAs (Decidable (_ ∧ _ ∧ _))

/-- The ReplaceStart of the first pair rewriteSpec will act on. -/
def frontRS : List (ActionOccurrence × ActionInfo) → Option Nat
  | [] => none
  | p :: rest => if replActive p then some p.1.ReplaceStart else frontRS rest

theorem scanChain_raise {doc : Str} : ∀ {ps : List (RawMatch × ActionInfo)} {lo lo2 : Nat},
    ScanChain doc lo ps → lo ≤ lo2 →
    (match ps with
      | [] => True
      | q :: _ => lo2 ≤ q.1.matchStart) →
    ScanChain doc lo2 ps := by
  intro ps lo lo2 hc hle hbound
  cases ps with
  | nil =>
    intro p hp
    exact hc p (by omega)
  | cons q rest =>
    obtain ⟨h1, h2, h3, h4⟩ := hc
    exact ⟨hbound, h2, fun p hp1 hp2 => h3 p (by omega) hp2, h4⟩

theorem scanChain_of_scanFuel {doc : Str} :
    ∀ (fuel s : Nat) (infos : List ActionInfo),
    doc.length < fuel + s →
    (scanFuel doc fuel s).length = infos.length →
    ScanChain doc s ((scanFuel doc fuel s).zip infos) := by
  intro fuel
  induction fuel with
  | zero =>
    intro s infos hfs _
    intro p hp
    exact matchAt_none_of_len (by omega)
  | succ fuel ih =>
    intro s infos hfs hlen
    rw [scanFuel] at hlen ⊢
    by_cases hgt : doc.length < s
    · rw [if_pos hgt] at hlen ⊢
      intro p hp
      exact matchAt_none_of_len (by omega)
    · rw [if_neg hgt] at hlen ⊢
      rcases hm : matchAt doc s with _ | m
      · rw [hm] at hlen
        have hlen2 : (scanFuel doc fuel (s + 1)).length = infos.length := hlen
        show ScanChain doc s ((scanFuel doc fuel (s + 1)).zip infos)
        have hchain := ih (s + 1) infos (by omega) hlen2
        cases hzl : scanFuel doc fuel (s + 1) with
        | nil =>
          rw [hzl] at hchain
          cases infos with
          | nil =>
            intro p hp
            by_cases hps : p = s
            · rw [hps]
              exact hm
            · exact hchain p (by omega)
          | cons i1 irest =>
            intro p hp
            by_cases hps : p = s
            · rw [hps]
              exact hm
            · exact hchain p (by omega)
        | cons m1 mrest =>
          rw [hzl] at hchain
          cases infos with
          | nil =>
            intro p hp
            by_cases hps : p = s
            · rw [hps]
              exact hm
            · exact hchain p (by omega)
          | cons i1 irest =>
            obtain ⟨h1, h2, h3, h4⟩ := hchain
            refine ⟨by omega, h2, ?_, h4⟩
            intro p hp1 hp2
            by_cases hps : p = s
            · rw [hps]
              exact hm
            · exact h3 p (by omega) hp2
      · rw [hm] at hlen
        have hlen2 : (m :: scanFuel doc fuel (max (s + 1) m.matchEnd)).length
            = infos.length := hlen
        show ScanChain doc s
          ((m :: scanFuel doc fuel (max (s + 1) m.matchEnd)).zip infos)
        cases infos with
        | nil => exact fun p _ => by simp at hlen2
        | cons i1 irest =>
          obtain ⟨hms, _, hf1, hf2, hf3⟩ := matchAt_facts hm
          have hadv : max (s + 1) m.matchEnd = m.matchEnd := by omega
          rw [List.zip_cons_cons]
          refine ⟨?_, ?_, ?_, ?_⟩
          · show s ≤ m.matchStart
            omega
          · show matchAt doc m.matchStart = some m
            rw [hms]
            exact hm
          · intro p hp1 hp2
            have hp3 : p < m.matchStart := hp2
            exact absurd hp3 (by omega)
          · show ScanChain doc m.matchEnd
              ((scanFuel doc fuel (max (s + 1) m.matchEnd)).zip irest)
            have hrec := ih (max (s + 1) m.matchEnd) irest (by omega)
              (by rw [List.length_cons, List.length_cons] at hlen2; omega)
            rw [hadv] at hrec
            rw [hadv]
            exact hrec

theorem frontRS_mapped : ∀ (doc : Str) (ps : List (RawMatch × ActionInfo)) (b : Nat),
    frontRS (ps.map (pairOcc doc)) = some b →
    ∃ q ∈ ps, b = q.1.atPos ∧ replActive (pairOcc doc q) := by
  intro doc ps
  induction ps with
  | nil => intro b h; exact absurd h (by simp [frontRS])
  | cons q rest ih =>
    intro b h
    rw [List.map_cons, frontRS] at h
    by_cases ha : replActive (pairOcc doc q)
    · rw [if_pos ha] at h
      injection h with h
      exact ⟨q, List.mem_cons_self q rest, h.symm, ha⟩
    · rw [if_neg ha] at h
      obtain ⟨q2, hq2, hb, ha2⟩ := ih b h
      exact ⟨q2, List.mem_cons_of_mem q hq2, hb, ha2⟩

theorem scanChain_mem_facts {doc : Str} : ∀ {ps : List (RawMatch × ActionInfo)} {lo : Nat},
    ScanChain doc lo ps → ∀ q ∈ ps, matchAt doc q.1.matchStart = some q.1 ∧
      lo ≤ q.1.matchStart := by
  intro ps
  induction ps with
  | nil => intro lo _ q hq; simp at hq
  | cons q0 rest ih =>
    intro lo hc q hq
    obtain ⟨h1, h2, h3, h4⟩ := hc
    rcases List.mem_cons.mp hq with rfl | hq2
    · exact ⟨h2, h1⟩
    · obtain ⟨ha, hb⟩ := ih h4 q hq2
      obtain ⟨_, _, hf1, hf2, hf3⟩ := matchAt_facts h2
      exact ⟨ha, by omega⟩

theorem rewriteSpec_cons_pos (cs : Str) (p : ActionOccurrence × ActionInfo)
    (rest : List (ActionOccurrence × ActionInfo)) (prev : Nat) (h : replActive p) :
    rewriteSpec cs (p :: rest) prev
      = slice cs prev p.1.ReplaceStart
        ++ ('@' :: p.2.SHA ++ chars " # " ++ p.2.Version)
        ++ rewriteSpec cs rest p.1.ReplaceEnd := by
  rw [rewriteSpec,
    if_pos (show p.2.Error = none ∧ p.2.SHA ≠ [] ∧ p.1.RequestedRef ≠ p.2.SHA from h)]

theorem rewriteSpec_cons_neg (cs : Str) (p : ActionOccurrence × ActionInfo)
    (rest : List (ActionOccurrence × ActionInfo)) (prev : Nat) (h : ¬ replActive p) :
    rewriteSpec cs (p :: rest) prev = rewriteSpec cs rest prev := by
  rw [rewriteSpec,
    if_neg (show ¬ (p.2.Error = none ∧ p.2.SHA ≠ [] ∧ p.1.RequestedRef ≠ p.2.SHA) from h)]

theorem rewriteSpec_drop (cs : Str) : ∀ (ps : List (ActionOccurrence × ActionInfo))
    (a k : Nat),
    (∀ b, frontRS ps = some b → a + k ≤ b ∧ b < cs.length) →
    (rewriteSpec cs ps a).drop k = rewriteSpec cs ps (a + k) := by
  intro ps
  induction ps with
  | nil =>
    intro a k _
    show (cs.drop a).drop k = cs.drop (a + k)
    rw [List.drop_drop]
  | cons p rest ih =>
    intro a k hb
    by_cases ha : replActive p
    · obtain ⟨hb1, hb2⟩ := hb p.1.ReplaceStart (by rw [frontRS, if_pos ha])
      rw [rewriteSpec_cons_pos cs p rest a ha, rewriteSpec_cons_pos cs p rest (a + k) ha]
      have hlen : (slice cs a p.1.ReplaceStart).length = p.1.ReplaceStart - a := by
        rw [length_slice]
        omega
      rw [List.append_assoc, List.append_assoc,
        List.drop_append_of_le_length (by omega)]
      have hsl : (slice cs a p.1.ReplaceStart).drop k
          = slice cs (a + k) p.1.ReplaceStart := by
        unfold slice
        rw [List.drop_take, List.drop_drop,
          show p.1.ReplaceStart - a - k = p.1.ReplaceStart - (a + k) by omega]
      rw [hsl]
      simp only [List.append_assoc]
    · rw [rewriteSpec_cons_neg cs p rest a ha, rewriteSpec_cons_neg cs p rest (a + k) ha]
      refine ih a k ?_
      intro b hfr
      exact hb b (by rw [frontRS, if_neg ha]; exact hfr)

theorem rw_agree (cs : Str) : ∀ (ps : List (ActionOccurrence × ActionInfo)) (a i : Nat),
    (∀ b, frontRS ps = some b → b < cs.length ∧ charAt? cs b = some '@') →
    (∀ b, frontRS ps = some b → a + i ≤ b) →
    (rewriteSpec cs ps a)[i]? = charAt? cs (a + i) := by
  intro ps
  induction ps with
  | nil =>
    intro a i _ _
    exact charAt_drop cs a i
  | cons p rest ih =>
    intro a i hfr hi
    by_cases ha : replActive p
    · have hfr0 : frontRS (p :: rest) = some p.1.ReplaceStart := by
        rw [frontRS, if_pos ha]
      obtain ⟨hb2, hb3⟩ := hfr _ hfr0
      have hb1 := hi _ hfr0
      rw [rewriteSpec_cons_pos cs p rest a ha]
      have hlen : (slice cs a p.1.ReplaceStart).length = p.1.ReplaceStart - a := by
        rw [length_slice]
        omega
      rw [List.append_assoc, List.getElem?_append]
      by_cases hcase : i < p.1.ReplaceStart - a
      · rw [if_pos (by omega), slice_getElem cs a p.1.ReplaceStart i hcase]
      · have hieq : i = p.1.ReplaceStart - a := by omega
        rw [if_neg (by omega), hlen, hieq]
        rw [show p.1.ReplaceStart - a - (p.1.ReplaceStart - a) = 0 by omega]
        rw [show a + (p.1.ReplaceStart - a) = p.1.ReplaceStart by omega, hb3]
        simp
    · rw [rewriteSpec_cons_neg cs p rest a ha]
      refine ih a i ?_ ?_
      · intro b hfr2
        exact hfr b (by rw [frontRS, if_neg ha]; exact hfr2)
      · intro b hfr2
        exact hi b (by rw [frontRS, if_neg ha]; exact hfr2)

theorem frontRS_props {doc : Str} {ps : List (RawMatch × ActionInfo)} {lo : Nat}
    (hc : ScanChain doc lo ps) :
    ∀ b, frontRS (ps.map (pairOcc doc)) = some b →
      lo < b ∧ b < doc.length ∧ charAt? doc b = some '@' ∧
      (∃ c, charAt? doc (b + 1) = some c ∧ (!(isWS c) && !(c = '#')) = true) := by
  intro b hfr
  obtain ⟨q, hq, hb, _⟩ := frontRS_mapped doc ps b hfr
  obtain ⟨hm, hlo⟩ := scanChain_mem_facts hc q hq
  subst hb
  obtain ⟨hms, hat, hf1, hf2, hf3⟩ := matchAt_facts hm
  obtain ⟨hb1, hb2, hb3⟩ := matchAt_bounds hm
  refine ⟨by omega, by omega, hat, ?_⟩
  rcases matchAt_inv hm with
    ⟨w, db, r, refLen, hw, hdb, hr, hrefLen, hlw, hw1, hr1, hrl1, hsl, hat2, hms2, hors,
      hg, hslp, hatp, hre, hme⟩
  obtain ⟨c, hc2, hcp⟩ := cw_lt_char (fun c => !(isWS c) && !(c = '#'))
    (doc.drop (q.1.matchStart + 5 + w + db + 1 + r + 1)) 0 (by rw [← hrefLen]; omega)
  refine ⟨c, ?_, hcp⟩
  rw [charAt_drop doc (q.1.matchStart + 5 + w + db + 1 + r + 1) 0] at hc2
  rw [show q.1.atPos + 1 = q.1.matchStart + 5 + w + db + 1 + r + 1 + 0 by rw [hatp]]
  exact hc2

theorem sha_no_newline {sha : Str} (h : isFullSHA sha = true) :
    ∀ c ∈ sha, (!(c = '\n')) = true := by
  rw [isFullSHA, Bool.and_eq_true] at h
  intro c hc
  have hhex := List.all_eq_true.mp h.2 c hc
  have hnws := hex_not_ws c hhex
  cases hcn : decide (c = '\n')
  · rfl
  · have hceq : c = '\n' := of_decide_eq_true hcn
    rw [ws_of_newline hceq] at hnws
    exact Bool.noConfusion hnws

theorem ver_no_newline {v : Str} (h : ¬ '\n' ∈ v) : ∀ c ∈ v, (!(c = '\n')) = true := by
  intro c hc
  cases hcn : decide (c = '\n')
  · rfl
  · have hceq : c = '\n' := of_decide_eq_true hcn
    subst hceq
    exact absurd hc h

theorem tSeg_no_newline {sha v : Str} (hsha : isFullSHA sha = true) (hv : ¬ '\n' ∈ v) :
    ∀ c ∈ ('@' :: sha ++ chars " # " ++ v), (!(c = '\n')) = true := by
  intro c hc
  simp only [List.cons_append, List.mem_cons, List.mem_append] at hc
  rcases hc with rfl | (h1 | h1) | h1
  · decide
  · exact sha_no_newline hsha c h1
  · have : c ∈ chars " # " := h1
    rcases (by decide : ∀ d ∈ chars " # ", (!(d = '\n')) = true) c this with h2
    exact h2
  · exact ver_no_newline hv c h1

theorem nonl_sat {c : Char} (h : ¬ c = '\n') : (!(c = '\n') : Bool) = true := by
  simp [h]

/-- Dropping up to the first newline of the rewritten tail re-establishes
the rewrite/scan invariant: the remainder is again the rewriteSpec of a
sub-multiset of the chain from some position, with the chain intact. -/
theorem nlskip (doc : Str) : ∀ (ps : List (RawMatch × ActionInfo)) (lo : Nat),
    ScanChain doc lo ps →
    (∀ q ∈ ps, isFullSHA q.2.SHA = true ∧ ¬ '\n' ∈ q.2.Version) →
    (∀ q ∈ ps, ¬ '\n' ∈ slice doc q.1.matchStart q.1.atPos ∧
      ¬ '\n' ∈ slice doc q.1.refEnd q.1.matchEnd) →
    ∃ ps2 lo2,
      (rewriteSpec doc (ps.map (pairOcc doc)) lo).drop
          (countWhile (fun c => !(c = '\n')) (rewriteSpec doc (ps.map (pairOcc doc)) lo))
        = rewriteSpec doc (ps2.map (pairOcc doc)) lo2 ∧
      ScanChain doc lo2 ps2 ∧ ∀ q2 ∈ ps2, q2 ∈ ps := by
  intro ps
  induction ps with
  | nil =>
    intro lo hc _ _
    refine ⟨[], lo + countWhile (fun c => !(c = '\n')) (doc.drop lo), ?_, ?_, ?_⟩
    · show (doc.drop lo).drop (countWhile (fun c => !(c = '\n')) (doc.drop lo))
        = doc.drop (lo + countWhile (fun c => !(c = '\n')) (doc.drop lo))
      rw [List.drop_drop]
    · intro p hp
      exact hc p (by omega)
    · intro q2 hq2
      exact absurd hq2 (List.not_mem_nil q2)
  | cons q rest ih =>
    intro lo hc hH hS
    obtain ⟨h1, h2, h3, h4⟩ := hc
    have hc2 : ScanChain doc lo (q :: rest) := ⟨h1, h2, h3, h4⟩
    obtain ⟨hmsf, hatf, hlt1, hlt2, hlt3⟩ := matchAt_facts h2
    obtain ⟨hbb1, hbb2, hbb3⟩ := matchAt_bounds h2
    obtain ⟨hsha, hver⟩ := hH q (List.mem_cons_self q rest)
    obtain ⟨hS1, hS2⟩ := hS q (List.mem_cons_self q rest)
    have hHr : ∀ q2 ∈ rest, isFullSHA q2.2.SHA = true ∧ ¬ '\n' ∈ q2.2.Version :=
      fun q2 hq2 => hH q2 (List.mem_cons_of_mem q hq2)
    have hSr : ∀ q2 ∈ rest, ¬ '\n' ∈ slice doc q2.1.matchStart q2.1.atPos ∧
        ¬ '\n' ∈ slice doc q2.1.refEnd q2.1.matchEnd :=
      fun q2 hq2 => hS q2 (List.mem_cons_of_mem q hq2)
    have hprops := frontRS_props hc2
    have hpr := frontRS_props h4
    by_cases hact : replActive (pairOcc doc q)
    · have hfr0 : frontRS ((q :: rest).map (pairOcc doc)) = some q.1.atPos := by
        simp only [List.map_cons]
        rw [frontRS, if_pos hact]
        rfl
      have hform : rewriteSpec doc ((q :: rest).map (pairOcc doc)) lo
          = slice doc lo q.1.atPos ++ ('@' :: q.2.SHA ++ chars " # " ++ q.2.Version)
            ++ rewriteSpec doc (rest.map (pairOcc doc)) q.1.matchEnd := by
        simp only [List.map_cons]
        exact rewriteSpec_cons_pos doc (pairOcc doc q) (rest.map (pairOcc doc)) lo hact
      by_cases hj : countWhile (fun c => !(c = '\n'))
          (rewriteSpec doc ((q :: rest).map (pairOcc doc)) lo) < q.1.matchStart - lo
      · refine ⟨q :: rest, lo + countWhile (fun c => !(c = '\n'))
          (rewriteSpec doc ((q :: rest).map (pairOcc doc)) lo), ?_, ?_, fun q2 hq2 => hq2⟩
        · refine rewriteSpec_drop doc ((q :: rest).map (pairOcc doc)) lo _ ?_
          intro b hb
          rw [hfr0] at hb
          injection hb with hb
          subst hb
          constructor
          · omega
          · omega
        · refine scanChain_raise hc2 (by omega) ?_
          show lo + countWhile (fun c => !(c = '\n'))
            (rewriteSpec doc ((q :: rest).map (pairOcc doc)) lo) ≤ q.1.matchStart
          omega
      · have hagree : ∀ i, lo + i ≤ q.1.atPos →
            (rewriteSpec doc ((q :: rest).map (pairOcc doc)) lo)[i]? = charAt? doc (lo + i) := by
          intro i hi
          refine rw_agree doc ((q :: rest).map (pairOcc doc)) lo i ?_ ?_
          · intro b hb
            obtain ⟨_, hb2, hb3, _⟩ := hprops b hb
            exact ⟨hb2, hb3⟩
          · intro b hb
            rw [hfr0] at hb
            injection hb with hb
            omega
        have hgap : ∀ c ∈ slice doc lo q.1.atPos, (!(c = '\n')) = true := by
          intro c hcmem
          obtain ⟨i, hci⟩ := List.mem_iff_getElem?.mp hcmem
          have hilen : i < (slice doc lo q.1.atPos).length := by
            by_contra hge
            rw [List.getElem?_eq_none (by omega)] at hci
            exact Option.noConfusion hci
          rw [length_slice] at hilen
          have hdoc : charAt? doc (lo + i) = some c :=
            charAt_slice (by omega) hci
          by_cases hcase : i < q.1.matchStart - lo
          · obtain ⟨c', hc'1, hc'2⟩ := cw_lt_char (fun c => !(c = '\n'))
              (rewriteSpec doc ((q :: rest).map (pairOcc doc)) lo) i (by omega)
            rw [hagree i (by omega), hdoc] at hc'1
            injection hc'1 with hc'1
            subst hc'1
            exact hc'2
          · have hne := not_mem_slice_char hS1 (lo + i) (by omega) (by omega)
            refine nonl_sat ?_
            intro hceq
            subst hceq
            exact hne hdoc
        have hT := tSeg_no_newline hsha hver
        have hsl_len : (slice doc lo q.1.atPos).length = q.1.atPos - lo := by
          rw [length_slice]
          omega
        have hcw1 : countWhile (fun c => !(c = '\n'))
            (slice doc lo q.1.atPos ++ ('@' :: q.2.SHA ++ chars " # " ++ q.2.Version)
              ++ rewriteSpec doc (rest.map (pairOcc doc)) q.1.matchEnd)
            = (slice doc lo q.1.atPos).length
              + (('@' :: q.2.SHA ++ chars " # " ++ q.2.Version).length
                + countWhile (fun c => !(c = '\n'))
                  (rewriteSpec doc (rest.map (pairOcc doc)) q.1.matchEnd)) := by
          rw [List.append_assoc,
            cw_append_all (fun c => !(c = '\n')) (slice doc lo q.1.atPos)
              (('@' :: q.2.SHA ++ chars " # " ++ q.2.Version)
                ++ rewriteSpec doc (rest.map (pairOcc doc)) q.1.matchEnd) hgap,
            cw_append_all (fun c => !(c = '\n'))
              ('@' :: q.2.SHA ++ chars " # " ++ q.2.Version)
              (rewriteSpec doc (rest.map (pairOcc doc)) q.1.matchEnd) hT]
        obtain ⟨ps2, lo2, heq, hch2, hmem2⟩ := ih q.1.matchEnd h4 hHr hSr
        refine ⟨ps2, lo2, ?_, hch2, fun q2 hq2 => List.mem_cons_of_mem q (hmem2 q2 hq2)⟩
        rw [hform, hcw1, List.append_assoc (slice doc lo q.1.atPos),
          List.drop_append, List.drop_append]
        exact heq
    · have hfr0 : frontRS ((q :: rest).map (pairOcc doc))
          = frontRS (rest.map (pairOcc doc)) := by
        simp only [List.map_cons]
        rw [frontRS, if_neg hact]
      have hform : rewriteSpec doc ((q :: rest).map (pairOcc doc)) lo
          = rewriteSpec doc (rest.map (pairOcc doc)) lo := by
        simp only [List.map_cons]
        exact rewriteSpec_cons_neg doc (pairOcc doc q) (rest.map (pairOcc doc)) lo hact
      by_cases hj : countWhile (fun c => !(c = '\n'))
          (rewriteSpec doc (rest.map (pairOcc doc)) lo) < q.1.matchStart - lo
      · refine ⟨q :: rest, lo + countWhile (fun c => !(c = '\n'))
          (rewriteSpec doc (rest.map (pairOcc doc)) lo), ?_, ?_, fun q2 hq2 => hq2⟩
        · rw [hform]
          have hdrop := rewriteSpec_drop doc (rest.map (pairOcc doc)) lo
            (countWhile (fun c => !(c = '\n'))
              (rewriteSpec doc (rest.map (pairOcc doc)) lo))
            (by
              intro b hb
              obtain ⟨hb1, hb2, _⟩ := hpr b hb
              constructor
              · omega
              · omega)
          rw [hdrop]
          have hneg2 := rewriteSpec_cons_neg doc (pairOcc doc q) (rest.map (pairOcc doc))
            (lo + countWhile (fun c => !(c = '\n'))
              (rewriteSpec doc (rest.map (pairOcc doc)) lo)) hact
          simp only [List.map_cons]
          rw [hneg2]
        · refine scanChain_raise hc2 (by omega) ?_
          show lo + countWhile (fun c => !(c = '\n'))
            (rewriteSpec doc (rest.map (pairOcc doc)) lo) ≤ q.1.matchStart
          omega
      · have hagree : ∀ i, lo + i ≤ q.1.matchEnd →
            (rewriteSpec doc (rest.map (pairOcc doc)) lo)[i]? = charAt? doc (lo + i) := by
          intro i hi
          refine rw_agree doc (rest.map (pairOcc doc)) lo i ?_ ?_
          · intro b hb
            obtain ⟨_, hb2, hb3, _⟩ := hpr b hb
            exact ⟨hb2, hb3⟩
          · intro b hb
            obtain ⟨hb1, _, _, _⟩ := hpr b hb
            omega
        have hmel := matchAt_end_le h2
        have hspan := span_no_newline h2 hS1 hS2
        have hcwoff := cw_offset (fun c => !(c = '\n'))
          (rewriteSpec doc (rest.map (pairOcc doc)) lo) (q.1.matchEnd - lo)
          (by
            intro i hi
            by_cases hcase : i < q.1.matchStart - lo
            · exact cw_lt_char (fun c => !(c = '\n'))
                (rewriteSpec doc (rest.map (pairOcc doc)) lo) i (by omega)
            · have hlt : lo + i < doc.length := by omega
              refine ⟨doc.get ⟨lo + i, hlt⟩, ?_, ?_⟩
              · rw [hagree i (by omega)]
                show doc[lo + i]? = _
                rw [List.getElem?_eq_getElem hlt]
                rfl
              · refine nonl_sat ?_
                intro hceq
                refine hspan (lo + i) (by omega) (by omega) ?_
                show doc[lo + i]? = some '\n'
                rw [List.getElem?_eq_getElem hlt]
                rw [show doc[lo + i] = doc.get ⟨lo + i, hlt⟩ from rfl, hceq])
        have hdropR : (rewriteSpec doc (rest.map (pairOcc doc)) lo).drop
            (q.1.matchEnd - lo) = rewriteSpec doc (rest.map (pairOcc doc)) q.1.matchEnd := by
          have hdrop := rewriteSpec_drop doc (rest.map (pairOcc doc)) lo
            (q.1.matchEnd - lo)
            (by
              intro b hb
              obtain ⟨hb1, hb2, _⟩ := hpr b hb
              constructor
              · omega
              · omega)
          rw [hdrop, show lo + (q.1.matchEnd - lo) = q.1.matchEnd from by omega]
        obtain ⟨ps2, lo2, heq, hch2, hmem2⟩ := ih q.1.matchEnd h4 hHr hSr
        refine ⟨ps2, lo2, ?_, hch2, fun q2 hq2 => List.mem_cons_of_mem q (hmem2 q2 hq2)⟩
        rw [hform, hcwoff, ← List.drop_drop, hdropR]
        exact heq

theorem matchAt_refchar {cs : Str} {s : Nat} {m : RawMatch} (h : matchAt cs s = some m) :
    ∃ c, charAt? cs (m.atPos + 1) = some c ∧ (!(isWS c) && !(c = '#')) = true := by
  rcases matchAt_inv h with
    ⟨w, db, r, refLen, hw, hdb, hr, hrefLen, hlw, hw1, hr1, hrl1, hsl, hat, hms, hors,
      hg, hslp, hatp, hre, hme⟩
  obtain ⟨c, hc, hcp⟩ := cw_lt_char (fun c => !(isWS c) && !(c = '#'))
    (cs.drop (s + 5 + w + db + 1 + r + 1)) 0 (by rw [← hrefLen]; omega)
  rw [charAt_drop cs (s + 5 + w + db + 1 + r + 1) 0] at hc
  refine ⟨c, ?_, hcp⟩
  rw [show m.atPos + 1 = s + 5 + w + db + 1 + r + 1 + 0 from by rw [hatp]]
  exact hc

/-- If the scan-invariant position corresponds to a match-free document
position, the rewritten document is also match-free there. -/
theorem matchW_none {doc W : Str} {ps : List (RawMatch × ActionInfo)} {y lo : Nat}
    (hinv : W.drop y = rewriteSpec doc (ps.map (pairOcc doc)) lo)
    (hc : ScanChain doc lo ps)
    (hnone : matchAt doc lo = none) :
    matchAt W y = none := by
  rcases hm' : matchAt W y with _ | m'
  · rfl
  exfalso
  have hWi : ∀ i, (∀ b, frontRS (ps.map (pairOcc doc)) = some b → lo + i ≤ b) →
      charAt? W (y + i) = charAt? doc (lo + i) := by
    intro i hi
    rw [show charAt? W (y + i) = (W.drop y)[i]? from (charAt_drop W y i).symm, hinv]
    refine rw_agree doc (ps.map (pairOcc doc)) lo i ?_ hi
    intro b hb
    obtain ⟨_, hb2, hb3, _⟩ := frontRS_props hc b hb
    exact ⟨hb2, hb3⟩
  obtain ⟨cr, hcr1, hcr2⟩ := matchAt_refchar hm'
  have hyat : y ≤ m'.atPos := le_of_lt (matchAt_facts hm').2.2.1
  rcases hfr : frontRS (ps.map (pairOcc doc)) with _ | b
  · have hag : ∀ i ≤ m'.atPos - y + 1, charAt? W (y + i) = charAt? doc (lo + i) :=
      fun i _ => hWi i (fun b hb => by rw [hfr] at hb; exact Option.noConfusion hb)
    obtain ⟨m2, hm2⟩ := matchAt_transfer_weak hag hm' (by omega)
      ⟨cr, by
        rw [show lo + (m'.atPos - y) + 1 = lo + (m'.atPos - y + 1) from by omega,
          ← hag (m'.atPos - y + 1) (by omega),
          show y + (m'.atPos - y + 1) = m'.atPos + 1 from by omega]
        exact hcr1, hcr2⟩
    rw [hnone] at hm2
    exact Option.noConfusion hm2
  · obtain ⟨hb1, hb2, hb3, c2, hc2, hc2p⟩ := frontRS_props hc b hfr
    have hag : ∀ i ≤ b - lo, charAt? W (y + i) = charAt? doc (lo + i) :=
      fun i hi => hWi i (fun b' hb' => by rw [hfr] at hb'; injection hb' with hb'; omega)
    have hatb : m'.atPos ≤ y + (b - lo) := by
      by_contra hgt
      refine matchAt_pre_at_free hm' (y + (b - lo)) (by omega) (by omega) ?_
      rw [hag (b - lo) (by omega), show lo + (b - lo) = b from by omega]
      exact hb3
    by_cases hedge : m'.atPos - y = b - lo
    · obtain ⟨m2, hm2⟩ := matchAt_transfer_weak hag hm' (by omega)
        ⟨c2, by rw [show lo + (m'.atPos - y) + 1 = b + 1 from by omega]; exact hc2, hc2p⟩
      rw [hnone] at hm2
      exact Option.noConfusion hm2
    · obtain ⟨m2, hm2⟩ := matchAt_transfer_weak hag hm' (by omega)
        ⟨cr, by
          rw [show lo + (m'.atPos - y) + 1 = lo + (m'.atPos - y + 1) from by omega,
            ← hag (m'.atPos - y + 1) (by omega),
            show y + (m'.atPos - y + 1) = m'.atPos + 1 from by omega]
          exact hcr1, hcr2⟩
      rw [hnone] at hm2
      exact Option.noConfusion hm2

/-- An already-pinned (inactive) head occurrence transfers verbatim into the
rewritten document, with identical ref text. -/
theorem matchW_inactive {doc W : Str} {hd : RawMatch × ActionInfo}
    {tl : List (RawMatch × ActionInfo)} {y lo : Nat}
    (hinv : W.drop y = rewriteSpec doc (tl.map (pairOcc doc)) lo)
    (hm : matchAt doc lo = some hd.1)
    (h4 : ScanChain doc hd.1.matchEnd tl) :
    ∃ m2, matchAt W y = some m2 ∧ m2.matchEnd = hd.1.matchEnd - lo + y ∧
      slice W (m2.atPos + 1) m2.refEnd = slice doc (hd.1.atPos + 1) hd.1.refEnd := by
  have hpr := frontRS_props h4
  obtain ⟨hmsf, hatf, hlt1, hlt2, hlt3⟩ := matchAt_facts hm
  have hKb : ∀ b', frontRS (tl.map (pairOcc doc)) = some b' →
      hd.1.matchEnd ≤ b' ∧
        hd.1.refEnd + countWhile isWS (doc.drop hd.1.refEnd) ≤ b' := by
    intro b' hb'
    obtain ⟨hb1, hb2, hb3, _⟩ := hpr b' hb'
    refine ⟨by omega, ?_⟩
    by_contra hgt
    obtain ⟨c, hcc, hcw⟩ := cw_lt_char isWS (doc.drop hd.1.refEnd) (b' - hd.1.refEnd)
      (by omega)
    rw [charAt_drop doc hd.1.refEnd (b' - hd.1.refEnd),
      show hd.1.refEnd + (b' - hd.1.refEnd) = b' from by omega, hb3] at hcc
    injection hcc with hcc
    subst hcc
    exact absurd hcw (by decide)
  have hag : ∀ i ≤ max (hd.1.matchEnd - lo)
      (hd.1.refEnd - lo + countWhile isWS (doc.drop hd.1.refEnd)),
      charAt? W (y + i) = charAt? doc (lo + i) := by
    intro i hi
    rw [show charAt? W (y + i) = (W.drop y)[i]? from (charAt_drop W y i).symm, hinv]
    refine rw_agree doc (tl.map (pairOcc doc)) lo i ?_ ?_
    · intro b hb
      obtain ⟨_, hb2, hb3, _⟩ := hpr b hb
      exact ⟨hb2, hb3⟩
    · intro b hb
      obtain ⟨hK1, hK2⟩ := hKb b hb
      omega
  obtain ⟨m2, hm2, hms2, hatp2, href2, hme2, hsl2⟩ :=
    matchAt_transfer hag hm (by omega) (by omega)
  exact ⟨m2, hm2, hme2, hsl2⟩

theorem sha_len {sha : Str} (h : isFullSHA sha = true) : sha.length = 40 := by
  rw [isFullSHA, Bool.and_eq_true] at h
  exact of_decide_eq_true h.1

theorem sha_refclass {sha : Str} (h : isFullSHA sha = true) :
    ∀ c ∈ sha, (!(isWS c) && !(c = '#')) = true := by
  rw [isFullSHA, Bool.and_eq_true] at h
  intro c hc
  have hhex := List.all_eq_true.mp h.2 c hc
  have hnws := hex_not_ws c hhex
  rw [Bool.and_eq_true]
  refine ⟨hnws, ?_⟩
  cases hcn : decide (c = '#')
  · rfl
  · have hceq : c = '#' := of_decide_eq_true hcn
    subst hceq
    exact absurd hhex (by decide)

/-- A freshly replaced (active) head occurrence turns into a match of the
rewritten document whose ref text is exactly the spliced SHA, and whose
comment run swallows the rewritten tail up to its first newline. -/
theorem matchW_active {doc W R1 : Str} {m : RawMatch} {sha v : Str} {y lo : Nat}
    (hinv : W.drop y = slice doc lo m.atPos ++ ('@' :: sha ++ chars " # " ++ v) ++ R1)
    (hm : matchAt doc lo = some m)
    (hsha : isFullSHA sha = true)
    (hver : ¬ '\n' ∈ v) :
    ∃ m2, matchAt W y = some m2 ∧ slice W (m2.atPos + 1) m2.refEnd = sha ∧
      y < m2.matchEnd ∧
      W.drop m2.matchEnd = R1.drop (countWhile (fun c => !(c = '\n')) R1) := by
  rcases matchAt_inv hm with
    ⟨w, db, r, refLen, hw, hdb, hr, hrefLen, hlw, hw1, hr1, hrl1, hsl, hat, hms, hors,
      hg, hslp, hatp, hre, hme⟩
  obtain ⟨_, hatf, hlt1, hlt2, hlt3⟩ := matchAt_facts hm
  obtain ⟨hbb1, hbb2, hbb3⟩ := matchAt_bounds hm
  have hslicelen : (slice doc lo m.atPos).length = m.atPos - lo := by
    rw [length_slice]
    omega
  have hWdrop : ∀ k, W.drop (y + k) = (W.drop y).drop k := by
    intro k
    rw [List.drop_drop]
  have hfull : W.drop y = slice doc lo m.atPos
      ++ ('@' :: (sha ++ (chars " # " ++ (v ++ R1)))) := by
    rw [hinv]
    simp only [List.cons_append, List.append_assoc]
  have hag : ∀ i ≤ m.atPos - lo, charAt? W (y + i) = charAt? doc (lo + i) := by
    intro i hi
    rw [show charAt? W (y + i) = (W.drop y)[i]? from (charAt_drop W y i).symm, hfull,
      List.getElem?_append]
    by_cases hilt : i < m.atPos - lo
    · rw [if_pos (by omega), slice_getElem doc lo m.atPos i hilt]
    · have hieq : i = m.atPos - lo := by omega
      rw [if_neg (by omega), hslicelen, hieq,
        show m.atPos - lo - (m.atPos - lo) = 0 from by omega,
        show lo + (m.atPos - lo) = m.atPos from by omega, hatf]
      simp
  have hlwW : leadsWith (chars "uses:") (W.drop y) = true := by
    have h0 := lw_transfer (chars "uses:") hag (k := 0)
      (by rw [Nat.add_zero]; exact hlw)
      (by rw [show (chars "uses:").length = 5 from by decide]; omega)
    rw [Nat.add_zero] at h0
    exact h0
  have hwW : countWhile isWS (W.drop (y + 5)) = w :=
    cw_transfer isWS hag (k := 5) hw.symm (by omega)
  have hfiW : firstIdx? (fun c => c = '/' || c = '@') (W.drop (y + 5 + w)) = some db := by
    have h0 := fi_transfer (fun c => c = '/' || c = '@') hag (k := 5 + w)
      (by rw [show lo + (5 + w) = lo + 5 + w from by omega]; exact hdb) (by omega)
    rw [show y + (5 + w) = y + 5 + w from by omega] at h0
    exact h0
  have hslW : charAt? W (y + 5 + w + db) = some '/' := by
    have h0 := hag (5 + w + db) (by omega)
    rw [show y + (5 + w + db) = y + 5 + w + db from by omega,
      show lo + (5 + w + db) = lo + 5 + w + db from by omega] at h0
    rw [h0]
    exact hsl
  have hrW : countWhile (fun c => !(c = '@') && !(isWS c))
      (W.drop (y + 5 + w + db + 1)) = r := by
    have hrdoc : countWhile (fun c => !(c = '@') && !(isWS c))
        (doc.drop (lo + (5 + w + db + 1))) = r := by
      rw [show lo + (5 + w + db + 1) = lo + 5 + w + db + 1 from by omega]
      exact hr.symm
    have h0 := cw_transfer (fun c => !(c = '@') && !(isWS c)) hag (k := 5 + w + db + 1)
      hrdoc (by omega)
    rw [show y + (5 + w + db + 1) = y + 5 + w + db + 1 from by omega] at h0
    exact h0
  have hatW : charAt? W (y + 5 + w + db + 1 + r) = some '@' := by
    have h0 := hag (5 + w + db + 1 + r) (by omega)
    rw [show y + (5 + w + db + 1 + r) = y + 5 + w + db + 1 + r from by omega,
      show lo + (5 + w + db + 1 + r) = lo + 5 + w + db + 1 + r from by omega] at h0
    rw [h0]
    exact hat
  have hK1drop : W.drop (y + (m.atPos - lo + 1)) = sha ++ (chars " # " ++ (v ++ R1)) := by
    rw [hWdrop, hfull,
      show m.atPos - lo + 1 = (slice doc lo m.atPos).length + 1 from by omega,
      List.drop_append]
    rfl
  have hrlW : countWhile (fun c => !(isWS c) && !(c = '#'))
      (W.drop (y + 5 + w + db + 1 + r + 1)) = 40 := by
    rw [show y + 5 + w + db + 1 + r + 1 = y + (m.atPos - lo + 1) from by omega, hK1drop,
      cw_append_all (fun c => !(isWS c) && !(c = '#')) sha _ (sha_refclass hsha),
      show chars " # " = ' ' :: ('#' :: [' ']) from by decide, List.cons_append,
      cw_cons_false (fun c => !(isWS c) && !(c = '#')) ' '
        (('#' :: [' ']) ++ (v ++ R1)) (by decide),
      sha_len hsha]
  have hcon := matchAt_construct W y w db r 40 hlwW hwW hw1 hfiW hslW hg hrW hr1 hatW hrlW
    (by omega)
  have hPdrop : W.drop (y + (m.atPos - lo + 41)) = ' ' :: ('#' :: (' ' :: (v ++ R1))) := by
    rw [hWdrop, hfull,
      show m.atPos - lo + 41 = (slice doc lo m.atPos).length + 41 from by omega,
      List.drop_append,
      show (41 : Nat) = 40 + 1 from rfl, List.drop_succ_cons,
      show (40 : Nat) = sha.length + 0 from by rw [sha_len hsha], List.drop_append,
      List.drop_zero,
      show chars " # " = ' ' :: ('#' :: [' ']) from by decide]
    simp only [List.cons_append, List.nil_append]
  have hwslW : countWhile isWS (W.drop (y + 5 + w + db + 1 + r + 1 + 40)) = 1 := by
    rw [show y + 5 + w + db + 1 + r + 1 + 40 = y + (m.atPos - lo + 41) from by omega,
      hPdrop, countWhile, if_pos (by decide : isWS ' ' = true),
      cw_cons_false isWS '#' (' ' :: (v ++ R1)) (by decide)]
  have hhashW : charAt? W (y + 5 + w + db + 1 + r + 1 + 40 + 1) = some '#' := by
    rw [show y + 5 + w + db + 1 + r + 1 + 40 + 1 = y + (m.atPos - lo + 41) + 1 from by
        omega,
      ← charAt_drop W (y + (m.atPos - lo + 41)) 1, hPdrop]
    simp
  have hP2drop : W.drop (y + (m.atPos - lo + 43)) = ' ' :: (v ++ R1) := by
    rw [show y + (m.atPos - lo + 43) = y + (m.atPos - lo + 41) + 2 from by omega,
      ← List.drop_drop 2 (y + (m.atPos - lo + 41)) W, hPdrop]
    rfl
  have hcmtW : countWhile (fun c => !(c = '\n'))
      (W.drop (y + 5 + w + db + 1 + r + 1 + 40 + 1 + 1))
      = 1 + (v.length + countWhile (fun c => !(c = '\n')) R1) := by
    rw [show y + 5 + w + db + 1 + r + 1 + 40 + 1 + 1 = y + (m.atPos - lo + 43) from by
        omega,
      hP2drop, countWhile, if_pos (by decide : (!(' ' = '\n') : Bool) = true),
      cw_append_all (fun c => !(c = '\n')) v R1 (ver_no_newline hver)]
    omega
  rw [hwslW, hhashW, if_pos rfl, hcmtW] at hcon
  refine ⟨_, hcon, ?_, ?_, ?_⟩
  · show slice W (y + 5 + w + db + 1 + r + 1) (y + 5 + w + db + 1 + r + 1 + 40) = sha
    unfold slice
    rw [show y + 5 + w + db + 1 + r + 1 + 40 - (y + 5 + w + db + 1 + r + 1) = 40 from by
        omega,
      show y + 5 + w + db + 1 + r + 1 = y + (m.atPos - lo + 1) from by omega, hK1drop,
      show (40 : Nat) = sha.length from (sha_len hsha).symm, List.take_left]
  · show y < y + 5 + w + db + 1 + r + 1 + 40 + 1 + 1
      + (1 + (v.length + countWhile (fun c => !(c = '\n')) R1))
    omega
  · show W.drop (y + 5 + w + db + 1 + r + 1 + 40 + 1 + 1
        + (1 + (v.length + countWhile (fun c => !(c = '\n')) R1)))
      = R1.drop (countWhile (fun c => !(c = '\n')) R1)
    rw [show y + 5 + w + db + 1 + r + 1 + 40 + 1 + 1
          + (1 + (v.length + countWhile (fun c => !(c = '\n')) R1))
        = y + (m.atPos - lo + 43)
          + (1 + (v.length + countWhile (fun c => !(c = '\n')) R1)) from by omega,
      ← List.drop_drop (1 + (v.length + countWhile (fun c => !(c = '\n')) R1))
        (y + (m.atPos - lo + 43)) W,
      hP2drop,
      show 1 + (v.length + countWhile (fun c => !(c = '\n')) R1)
        = (v.length + countWhile (fun c => !(c = '\n')) R1) + 1 from by omega,
      List.drop_succ_cons, List.drop_append]

/-- Master invariant of the second scan: if the tail of the rewritten
document W from position y is the rewriteSpec of a scan chain whose
resolutions are all successful full-SHA pins with newline-free versions and
whose occurrences are single-line, then every match the scan of W finds
from y on carries a full-SHA ref. -/
theorem scanW_pinned (doc W : Str) :
    ∀ (fuel : Nat) (ps : List (RawMatch × ActionInfo)) (y lo : Nat),
    W.drop y = rewriteSpec doc (ps.map (pairOcc doc)) lo →
    ScanChain doc lo ps →
    (∀ q ∈ ps, q.2.Error = none ∧ isFullSHA q.2.SHA = true ∧ ¬ '\n' ∈ q.2.Version) →
    (∀ q ∈ ps, ¬ '\n' ∈ slice doc q.1.matchStart q.1.atPos ∧
      ¬ '\n' ∈ slice doc q.1.refEnd q.1.matchEnd) →
    ∀ m' ∈ scanFuel W fuel y, isFullSHA (slice W (m'.atPos + 1) m'.refEnd) = true := by
  intro fuel
  induction fuel with
  | zero =>
    intro ps y lo _ _ _ _ m' hm'
    simp [scanFuel] at hm'
  | succ fuel ih =>
    intro ps y lo hinv hc hH hS m' hm'
    rw [scanFuel] at hm'
    by_cases hylen : W.length < y
    · rw [if_pos hylen] at hm'
      simp at hm'
    rw [if_neg hylen] at hm'
    cases ps with
    | nil =>
      have hnone : matchAt W y = none := matchW_none hinv hc (hc lo le_rfl)
      rw [hnone] at hm'
      have hm'2 : m' ∈ scanFuel W fuel (y + 1) := hm'
      refine ih [] (y + 1) (lo + 1) ?_ ?_ (by simp) (by simp) m' hm'2
      · have h0 := rewriteSpec_drop doc
          (([] : List (RawMatch × ActionInfo)).map (pairOcc doc)) lo 1
          (by intro b hb; exact absurd hb (by simp [frontRS]))
        rw [← h0, ← hinv, List.drop_drop]
      · intro p hp
        exact hc p (by omega)
    | cons hd tl =>
      obtain ⟨h1, h2, h3, h4⟩ := hc
      have hc2 : ScanChain doc lo (hd :: tl) := ⟨h1, h2, h3, h4⟩
      obtain ⟨hmsf, hatf, hlt1, hlt2, hlt3⟩ := matchAt_facts h2
      obtain ⟨hH1, hH2, hH3⟩ := hH hd (List.mem_cons_self hd tl)
      obtain ⟨hS1, hS2⟩ := hS hd (List.mem_cons_self hd tl)
      have hHr : ∀ q ∈ tl, q.2.Error = none ∧ isFullSHA q.2.SHA = true ∧
          ¬ '\n' ∈ q.2.Version :=
        fun q hq => hH q (List.mem_cons_of_mem hd hq)
      have hSr : ∀ q ∈ tl, ¬ '\n' ∈ slice doc q.1.matchStart q.1.atPos ∧
          ¬ '\n' ∈ slice doc q.1.refEnd q.1.matchEnd :=
        fun q hq => hS q (List.mem_cons_of_mem hd hq)
      by_cases hgap : lo < hd.1.matchStart
      · have hnone : matchAt W y = none := matchW_none hinv hc2 (h3 lo le_rfl hgap)
        rw [hnone] at hm'
        have hm'2 : m' ∈ scanFuel W fuel (y + 1) := hm'
        refine ih (hd :: tl) (y + 1) (lo + 1) ?_ ?_ hH hS m' hm'2
        · have h0 := rewriteSpec_drop doc ((hd :: tl).map (pairOcc doc)) lo 1
            (by
              intro b hb
              obtain ⟨hb1, hb2, _⟩ := frontRS_props hc2 b hb
              exact ⟨by omega, hb2⟩)
          rw [← h0, ← hinv, List.drop_drop]
        · exact scanChain_raise hc2 (by omega)
            (show lo + 1 ≤ hd.1.matchStart from by omega)
      · have hlo : lo = hd.1.matchStart := by omega
        subst hlo
        by_cases hact : replActive (pairOcc doc hd)
        · have hform : W.drop y = slice doc hd.1.matchStart hd.1.atPos
              ++ ('@' :: hd.2.SHA ++ chars " # " ++ hd.2.Version)
              ++ rewriteSpec doc (tl.map (pairOcc doc)) hd.1.matchEnd := by
            rw [hinv]
            simp only [List.map_cons]
            exact rewriteSpec_cons_pos doc (pairOcc doc hd) (tl.map (pairOcc doc))
              hd.1.matchStart hact
          obtain ⟨m2, hm2, hslice2, hym2, hdrop2⟩ := matchW_active hform h2 hH2 hH3
          rw [hm2] at hm'
          have hm'2 : m' ∈ m2 :: scanFuel W fuel (max (y + 1) m2.matchEnd) := hm'
          rcases List.mem_cons.mp hm'2 with rfl | hm'tl
          · rw [hslice2]
            exact hH2
          · obtain ⟨ps2, lo2, heq, hch2, hmem2⟩ := nlskip doc tl hd.1.matchEnd h4
              (fun q hq => ⟨(hHr q hq).2.1, (hHr q hq).2.2⟩) hSr
            refine ih ps2 (max (y + 1) m2.matchEnd) lo2 ?_ hch2
              (fun q hq => hHr q (hmem2 q hq)) (fun q hq => hSr q (hmem2 q hq)) m' hm'tl
            rw [show max (y + 1) m2.matchEnd = m2.matchEnd from by omega, hdrop2, heq]
        · have hform : W.drop y = rewriteSpec doc (tl.map (pairOcc doc))
              hd.1.matchStart := by
            rw [hinv]
            simp only [List.map_cons]
            exact rewriteSpec_cons_neg doc (pairOcc doc hd) (tl.map (pairOcc doc))
              hd.1.matchStart hact
          obtain ⟨m2, hm2, hme2, hslice2⟩ := matchW_inactive hform h2 h4
          rw [hm2] at hm'
          have hm'2 : m' ∈ m2 :: scanFuel W fuel (max (y + 1) m2.matchEnd) := hm'
          rcases List.mem_cons.mp hm'2 with rfl | hm'tl
          · rw [hslice2]
            have hreq : (pairOcc doc hd).1.RequestedRef = hd.2.SHA := by
              by_contra hne
              refine hact ⟨hH1, ?_, hne⟩
              intro hnil
              have hnil2 : hd.2.SHA = [] := hnil
              rw [hnil2] at hH2
              exact absurd hH2 (by decide)
            rw [show slice doc (hd.1.atPos + 1) hd.1.refEnd = hd.2.SHA from hreq]
            exact hH2
          · refine ih tl m2.matchEnd hd.1.matchEnd ?_ h4 hHr hSr m' ?_
            · rw [hme2]
              have h0 := rewriteSpec_drop doc (tl.map (pairOcc doc)) hd.1.matchStart
                (hd.1.matchEnd - hd.1.matchStart)
                (by
                  intro b hb
                  obtain ⟨hb1, hb2, _⟩ := frontRS_props h4 b hb
                  exact ⟨by omega, hb2⟩)
              rw [show hd.1.matchEnd - hd.1.matchStart + y
                  = y + (hd.1.matchEnd - hd.1.matchStart) from by omega,
                ← List.drop_drop, hform, h0,
                show hd.1.matchStart + (hd.1.matchEnd - hd.1.matchStart) = hd.1.matchEnd
                  from by omega]
            · rw [show max (y + 1) m2.matchEnd = m2.matchEnd from by omega] at hm'tl
              exact hm'tl

theorem sha_trim {sha : Str} (h : isFullSHA sha = true) :
    trimSpace sha = sha ∧ sha ≠ [] := by
  have hall : sha.all (fun c => !(isWS c)) = true := by
    rw [isFullSHA, Bool.and_eq_true] at h
    exact all_imp _ _ hex_not_ws sha h.2
  refine ⟨trimSpace_no_ws sha hall, ?_⟩
  intro hnil
  rw [hnil] at h
  exact absurd h (by decide)

theorem buildRepl1_refeq {p : ActionOccurrence × ActionInfo}
    (h : p.1.RequestedRef = p.2.SHA) : buildRepl1 p = none := by
  unfold buildRepl1
  by_cases h1 : p.2.Error ≠ none
  · rw [if_pos h1]
  · rw [if_neg h1]
    by_cases h2 : trimSpace p.2.SHA = []
    · rw [if_pos h2]
    · rw [if_neg h2]
      by_cases h3 : p.1.ReplaceEnd ≤ p.1.ReplaceStart
      · rw [if_pos h3]
      · rw [if_neg h3, if_pos h]

/-- updateContent is the identity when every aligned pair is a no-op edit
(ref already equal to the resolved SHA). -/
theorem updateContent_noop (cs : Str) (occs : List ActionOccurrence)
    (infos : List ActionInfo)
    (h : ∀ p ∈ occs.zip infos, p.1.RequestedRef = p.2.SHA) :
    updateContent cs occs infos = cs := by
  unfold updateContent buildRepls
  rw [if_pos (List.filterMap_eq_nil_iff.mpr (fun p hp => buildRepl1_refeq (h p hp)))]

theorem chain_mono_mem {α : Type} {R S : α → α → Prop} :
    ∀ {l : List α}, List.Chain' R l → (∀ a ∈ l, ∀ b ∈ l, R a b → S a b) →
      List.Chain' S l := by
  intro l
  induction l with
  | nil => intro _ _; exact List.chain'_nil
  | cons a rest ih =>
    intro hc hmem
    cases rest with
    | nil => exact List.chain'_singleton a
    | cons b rest2 =>
      rw [List.chain'_cons] at hc ⊢
      refine ⟨hmem a (by simp) b (by simp) hc.1, ih hc.2 ?_⟩
      intro x hx y hy hxy
      exact hmem x (List.mem_cons_of_mem a hx) y (List.mem_cons_of_mem a hy) hxy

theorem occs_replace_valid (cs : Str) :
    ∀ occ ∈ extractOccurrences cs, occ.ReplaceStart < occ.ReplaceEnd := by
  intro occ hocc
  rcases List.mem_map.mp hocc with ⟨m, hm, rfl⟩
  have hfacts := matchAt_facts (mem_scanFuel hm).2
  show m.atPos < m.matchEnd
  omega

theorem occs_replace_chain (cs : Str) :
    List.Chain' (fun a b : ActionOccurrence => a.ReplaceEnd ≤ b.ReplaceStart)
      (extractOccurrences cs) := by
  unfold extractOccurrences
  rw [List.chain'_map]
  refine chain_mono_mem chain_scanFuel ?_
  intro m1 _ m2 h2 hr
  have hfacts := matchAt_facts (mem_scanFuel h2).2
  show m1.matchEnd ≤ m2.atPos
  omega

theorem zip_map_pairOcc (doc : Str) : ∀ (ms : List RawMatch) (infos : List ActionInfo),
    (ms.map (occOfMatch doc)).zip infos = (ms.zip infos).map (pairOcc doc) := by
  intro ms
  induction ms with
  | nil => intro infos; rfl
  | cons m rest ih =>
    intro infos
    cases infos with
    | nil => rfl
    | cons i irest =>
      simp only [List.map_cons, List.zip_cons_cons]
      rw [ih irest]
      rfl

/-- updateContent over the extracted occurrences equals the canonical
splice, assembled from the shared span lemmas (hypothesis: the SHAs of the
aligned resolutions are whitespace-only exactly when empty). -/
theorem updateContent_as_rewriteSpec (cs : Str) (infos : List ActionInfo)
    (hs : ∀ p ∈ (extractOccurrences cs).zip infos,
      trimSpace p.2.SHA = [] ↔ p.2.SHA = []) :
    updateContent cs (extractOccurrences cs) infos
      = rewriteSpec cs ((extractOccurrences cs).zip infos) 0 := by
  have hvz : ∀ p ∈ (extractOccurrences cs).zip infos,
      p.1.ReplaceStart < p.1.ReplaceEnd :=
    fun p hp => occs_replace_valid cs p.1 (List.of_mem_zip hp).1
  have hcz := chain_zip_left (extractOccurrences cs) infos (occs_replace_chain cs)
  have hpz2 := chain_valid_pairwise
    (fun p : ActionOccurrence × ActionInfo => p.1.ReplaceStart)
    (fun p : ActionOccurrence × ActionInfo => p.1.ReplaceEnd) hcz hvz
  have hmain := spliceAux_eq_rewriteSpec cs ((extractOccurrences cs).zip infos) 0 hvz
    hpz2 hs (fun p _ => Nat.zero_le _)
  unfold updateContent buildRepls
  by_cases hempty : ((extractOccurrences cs).zip infos).filterMap buildRepl1 = []
  · rw [if_pos hempty]
    rw [hempty, spliceAux] at hmain
    simp only [List.drop_zero] at hmain
    exact hmain
  · rw [if_neg hempty, sortRepls_of_sorted (repls_sorted _ hpz2 hvz)]
    exact hmain

/-- Claim C1 (corrected): the second pass is a no-op under the conditions
that actually guarantee it. If the first pass resolved every extracted
occurrence successfully to a full 40-hex SHA with a newline-free version,
and every extracted occurrence is single-line (no newline strictly inside
the match before the '@' or between the end of the ref and the match end),
then (i) every occurrence extracted from the rewritten document carries a
full-40-hex-SHA ref, so (ii) any second resolution pass that maps
occurrences with full-SHA refs to themselves (as resolveActionForPolicy's
isFullSHA shortcut does) leaves the rewritten document byte-for-byte
unchanged; and (iii) in general updateContent returns its input unchanged
whenever every aligned occurrence's requested ref equals its resolved SHA
(zero replacements from no-op edits). -/
theorem second_pass_is_noop (doc : Str) (infos : List ActionInfo)
    (hlen : (extractOccurrences doc).length = infos.length)
    (hgood : ∀ p ∈ (extractOccurrences doc).zip infos,
      p.2.Error = none ∧ isFullSHA p.2.SHA = true ∧ ¬ '\n' ∈ p.2.Version)
    (hline : ∀ occ ∈ extractOccurrences doc,
      ¬ '\n' ∈ slice doc occ.MatchStart occ.ReplaceStart ∧
      ¬ '\n' ∈ slice doc (occ.ReplaceStart + 1 + occ.RequestedRef.length) occ.MatchEnd) :
    (∀ occ' ∈ extractOccurrences (updateContent doc (extractOccurrences doc) infos),
        isFullSHA occ'.RequestedRef = true) ∧
    (∀ infos' : List ActionInfo,
        (∀ p ∈ (extractOccurrences
              (updateContent doc (extractOccurrences doc) infos)).zip infos',
          isFullSHA p.1.RequestedRef = true → p.1.RequestedRef = p.2.SHA) →
        updateContent (updateContent doc (extractOccurrences doc) infos)
            (extractOccurrences (updateContent doc (extractOccurrences doc) infos))
            infos'
          = updateContent doc (extractOccurrences doc) infos) ∧
    (∀ (cs : Str) (occs : List ActionOccurrence) (infos2 : List ActionInfo),
        (∀ p ∈ occs.zip infos2, p.1.RequestedRef = p.2.SHA) →
        updateContent cs occs infos2 = cs) := by
  have hW : updateContent doc (extractOccurrences doc) infos
      = rewriteSpec doc ((extractOccurrences doc).zip infos) 0 := by
    refine updateContent_as_rewriteSpec doc infos ?_
    intro p hp
    obtain ⟨ht, hne⟩ := sha_trim (hgood p hp).2.1
    constructor
    · intro htr
      rw [ht] at htr
      exact absurd htr hne
    · intro hnil
      exact absurd hnil hne
  have hzipmap : (extractOccurrences doc).zip infos
      = ((scanFuel doc (doc.length + 1) 0).zip infos).map (pairOcc doc) := by
    unfold extractOccurrences rawMatches
    exact zip_map_pairOcc doc (scanFuel doc (doc.length + 1) 0) infos
  have hchain : ScanChain doc 0 ((scanFuel doc (doc.length + 1) 0).zip infos) := by
    refine scanChain_of_scanFuel (doc.length + 1) 0 infos (by omega) ?_
    have h0 : (extractOccurrences doc).length
        = (scanFuel doc (doc.length + 1) 0).length := by
      unfold extractOccurrences rawMatches
      rw [List.length_map]
    omega
  have hHm : ∀ q ∈ (scanFuel doc (doc.length + 1) 0).zip infos,
      q.2.Error = none ∧ isFullSHA q.2.SHA = true ∧ ¬ '\n' ∈ q.2.Version := by
    intro q hq
    have hmem : pairOcc doc q ∈ (extractOccurrences doc).zip infos := by
      rw [hzipmap]
      exact List.mem_map_of_mem (pairOcc doc) hq
    exact hgood (pairOcc doc q) hmem
  have hSm : ∀ q ∈ (scanFuel doc (doc.length + 1) 0).zip infos,
      ¬ '\n' ∈ slice doc q.1.matchStart q.1.atPos ∧
      ¬ '\n' ∈ slice doc q.1.refEnd q.1.matchEnd := by
    intro q hq
    have hraw : q.1 ∈ scanFuel doc (doc.length + 1) 0 := (List.of_mem_zip hq).1
    have hoccmem : occOfMatch doc q.1 ∈ extractOccurrences doc := by
      unfold extractOccurrences rawMatches
      exact List.mem_map_of_mem (occOfMatch doc) hraw
    obtain ⟨hl1, hl2⟩ := hline (occOfMatch doc q.1) hoccmem
    have hm := (mem_scanFuel hraw).2
    obtain ⟨hbb1, hbb2, hbb3⟩ := matchAt_bounds hm
    refine ⟨hl1, ?_⟩
    have hlen2 : (occOfMatch doc q.1).RequestedRef.length
        = q.1.refEnd - (q.1.atPos + 1) := by
      show (slice doc (q.1.atPos + 1) q.1.refEnd).length = _
      rw [length_slice]
      omega
    rw [hlen2] at hl2
    have hl3 : ¬ '\n' ∈ slice doc (q.1.atPos + 1 + (q.1.refEnd - (q.1.atPos + 1)))
        q.1.matchEnd := hl2
    rw [show q.1.atPos + 1 + (q.1.refEnd - (q.1.atPos + 1)) = q.1.refEnd from by
      omega] at hl3
    exact hl3
  have hmaster := scanW_pinned doc (updateContent doc (extractOccurrences doc) infos)
    ((updateContent doc (extractOccurrences doc) infos).length + 1)
    ((scanFuel doc (doc.length + 1) 0).zip infos) 0 0
    (by rw [List.drop_zero, hW, hzipmap]) hchain hHm hSm
  have hi : ∀ occ' ∈ extractOccurrences
      (updateContent doc (extractOccurrences doc) infos),
      isFullSHA occ'.RequestedRef = true := by
    intro occ' hocc'
    rcases List.mem_map.mp hocc' with ⟨m', hm', rfl⟩
    exact hmaster m' hm'
  refine ⟨hi, ?_, fun cs occs infos2 h => updateContent_noop cs occs infos2 h⟩
  intro infos' hpin
  refine updateContent_noop _ _ _ ?_
  intro p hp
  exact hpin p hp (hi p.1 (List.of_mem_zip hp).1)

/-- Witness for the corrected C1 at a concrete document: a successful
full-SHA first pass, after which every re-extracted ref is the pinned SHA
and a self-resolving second pass is the identity. -/
theorem second_pass_is_noop_witness :
    (∀ occ' ∈ extractOccurrences (updateContent (chars "uses: a/b@v1\n")
        (extractOccurrences (chars "uses: a/b@v1\n"))
        [⟨chars "a", chars "b", chars "v1.2.3",
          chars "aaaaaaaaaaaaaaaaaaaaaaaaaaaaaaaaaaaaaaaa", none⟩]),
      isFullSHA occ'.RequestedRef = true) ∧
    updateContent (updateContent (chars "uses: a/b@v1\n")
        (extractOccurrences (chars "uses: a/b@v1\n"))
        [⟨chars "a", chars "b", chars "v1.2.3",
          chars "aaaaaaaaaaaaaaaaaaaaaaaaaaaaaaaaaaaaaaaa", none⟩])
      (extractOccurrences (updateContent (chars "uses: a/b@v1\n")
        (extractOccurrences (chars "uses: a/b@v1\n"))
        [⟨chars "a", chars "b", chars "v1.2.3",
          chars "aaaaaaaaaaaaaaaaaaaaaaaaaaaaaaaaaaaaaaaa", none⟩]))
      [⟨chars "a", chars "b", chars "v1.2.3",
        chars "aaaaaaaaaaaaaaaaaaaaaaaaaaaaaaaaaaaaaaaa", none⟩]
      = updateContent (chars "uses: a/b@v1\n")
        (extractOccurrences (chars "uses: a/b@v1\n"))
        [⟨chars "a", chars "b", chars "v1.2.3",
          chars "aaaaaaaaaaaaaaaaaaaaaaaaaaaaaaaaaaaaaaaa", none⟩] := by
  have h := second_pass_is_noop (chars "uses: a/b@v1\n")
    [⟨chars "a", chars "b", chars "v1.2.3",
      chars "aaaaaaaaaaaaaaaaaaaaaaaaaaaaaaaaaaaaaaaa", none⟩]
    (by decide) (by decide) (by decide)
  exact ⟨h.1, h.2.1
    [⟨chars "a", chars "b", chars "v1.2.3",
      chars "aaaaaaaaaaaaaaaaaaaaaaaaaaaaaaaaaaaaaaaa", none⟩] (by decide)⟩

/-- Counterexample to C1 as stated. (A) With a failed resolution the first
pass returns the document unchanged, so it "produced doc'"; the second
pass re-resolves the same non-pinned ref, and a now-successful resolution
rewrites doc': applying the pipeline twice differs from applying it once.
(B) The deeper flaw: even after a first pass in which every resolution
succeeded, the rewritten comment `# <version>` extends to the first
newline, which can lie inside a following occurrence whose owner spans a
newline; the re-scan then exposes a `uses:` occurrence that the original
document's match had swallowed inside its comment, with a non-pinned ref
(v9 here), and a second pass that resolves every already-pinned 40-hex ref
to itself still rewrites the document. -/
theorem second_pass_counterexample :
    (updateContent (chars "uses: a/b@v1\n")
        (extractOccurrences (chars "uses: a/b@v1\n"))
        [⟨chars "a", chars "b", [], [], some (chars "boom")⟩]
      = chars "uses: a/b@v1\n") ∧
    (updateContent (chars "uses: a/b@v1\n")
        (extractOccurrences (chars "uses: a/b@v1\n"))
        [⟨chars "a", chars "b", chars "v1.2.3",
          chars "aaaaaaaaaaaaaaaaaaaaaaaaaaaaaaaaaaaaaaaa", none⟩]
      ≠ chars "uses: a/b@v1\n") ∧
    (∀ info ∈ [(⟨chars "q", chars "r", chars "v1.0.0",
          chars "aaaaaaaaaaaaaaaaaaaaaaaaaaaaaaaaaaaaaaaa", none⟩ : ActionInfo),
        ⟨chars "a\nb", chars "c", chars "v0",
          chars "cccccccccccccccccccccccccccccccccccccccc", none⟩],
      info.Error = none) ∧
    (updateContent
        (chars "uses: q/r@v1 uses: a\nb/c@cccccccccccccccccccccccccccccccccccccccc # uses: x/y@v9\n")
        (extractOccurrences
          (chars "uses: q/r@v1 uses: a\nb/c@cccccccccccccccccccccccccccccccccccccccc # uses: x/y@v9\n"))
        [⟨chars "q", chars "r", chars "v1.0.0",
          chars "aaaaaaaaaaaaaaaaaaaaaaaaaaaaaaaaaaaaaaaa", none⟩,
         ⟨chars "a\nb", chars "c", chars "v0",
          chars "cccccccccccccccccccccccccccccccccccccccc", none⟩]
      = chars "uses: q/r@aaaaaaaaaaaaaaaaaaaaaaaaaaaaaaaaaaaaaaaa # v1.0.0 uses: a\nb/c@cccccccccccccccccccccccccccccccccccccccc # uses: x/y@v9\n") ∧
    ((extractOccurrences
        (chars "uses: q/r@aaaaaaaaaaaaaaaaaaaaaaaaaaaaaaaaaaaaaaaa # v1.0.0 uses: a\nb/c@cccccccccccccccccccccccccccccccccccccccc # uses: x/y@v9\n")).map
        (fun occ => occ.RequestedRef)
      = [chars "aaaaaaaaaaaaaaaaaaaaaaaaaaaaaaaaaaaaaaaa", chars "v9"]) ∧
    (updateContent
        (chars "uses: q/r@aaaaaaaaaaaaaaaaaaaaaaaaaaaaaaaaaaaaaaaa # v1.0.0 uses: a\nb/c@cccccccccccccccccccccccccccccccccccccccc # uses: x/y@v9\n")
        (extractOccurrences
          (chars "uses: q/r@aaaaaaaaaaaaaaaaaaaaaaaaaaaaaaaaaaaaaaaa # v1.0.0 uses: a\nb/c@cccccccccccccccccccccccccccccccccccccccc # uses: x/y@v9\n"))
        [⟨chars "q", chars "r", chars "v1.0.0",
          chars "aaaaaaaaaaaaaaaaaaaaaaaaaaaaaaaaaaaaaaaa", none⟩,
         ⟨chars "x", chars "y", chars "v9.1.0",
          chars "bbbbbbbbbbbbbbbbbbbbbbbbbbbbbbbbbbbbbbbb", none⟩]
      ≠ chars "uses: q/r@aaaaaaaaaaaaaaaaaaaaaaaaaaaaaaaaaaaaaaaa # v1.0.0 uses: a\nb/c@cccccccccccccccccccccccccccccccccccccccc # uses: x/y@v9\n") := by
  refine ⟨by decide, by decide, by decide, by decide, by decide, by decide⟩

end PinActions
